import Mathlib

/-!
# Patty: a shallow embedding of the interpreter

The definitions below embed the evaluator of `src/value.cc`, the native
functions of `src/intrinsic.cc`, the generators of `src/sequence.cc` and the
`Context` of `patty.cc`.

Conventions of the embedding:

* `Context.scopes` lists the scope stack innermost scope first, so the head of
  the list is `scopes.back()` and the last element is `scopes.front()`.
* A scope (`std::unordered_map<std::string, Value>`) is an association list
  with at most one entry per key; iteration order is never observed by the
  source.
* Fatal exits (`error_fatal`, a failed `assert`) are results `Except.error`.
  A step whose behaviour is undefined in the source (dereferencing an end
  iterator, `pop_back` on an empty vector, a modulus by zero) ends the model
  in `Err.undefined`: the model says nothing about what the program does from
  there on, in particular not that it fails.
* `eval` takes a fuel argument bounding the depth of nested `eval` calls; the
  native functions receive the evaluator of the next lower depth as `ev`.
  Loops of the source that need not terminate (`loop`, `zip` without
  arguments, a composed generator without progress) run on a round counter
  and end in `Err.fuel`.
* Signed 64-bit arithmetic wraps around (`wrap64`); conversions to `unsigned`
  reduce modulo `2 ^ 32`.
* Standard output is not part of the state: `print` evaluates its arguments
  and returns `Nil`. Reading standard input ends in `Err.stdin`.
-/

namespace Patty

/-- The closures which `intrinsics` registers, one constructor per registered
name; a `Cpp_Function` value holds one of them. -/
inductive Intrinsic where
  | add | sub | mul
  | lt | le | ne | eq
  | do_ | def_ | print | fun_ | list | if_ | concat | index | for_
  | zip | zip_with | take | tail | fold | loop | read | seq | seq_bang | pop
  deriving DecidableEq, Repr

/-- The name under which `intrinsics` registers each closure (`Value::cpp`
stores it in `sval`). -/
def Intrinsic.name : Intrinsic → String
  | .add => "+" | .sub => "-" | .mul => "*"
  | .lt => "<" | .le => "<=" | .ne => "!=" | .eq => "="
  | .do_ => "do" | .def_ => "def" | .print => "print" | .fun_ => "fun"
  | .list => "list" | .if_ => "if" | .concat => "++" | .index => "index"
  | .for_ => "for" | .zip => "zip" | .zip_with => "zip-with" | .take => "take"
  | .tail => "tail" | .fold => "fold" | .loop => "loop" | .read => "read"
  | .seq => "seq" | .seq_bang => "seq!" | .pop => "pop"

mutual
/-- The tagged union `Value`; the constructors carry the member that is
meaningful for the tag (`sval`, `ival`, `list`, `cpp_function`, `sequence`),
all other members keep their defaults in the source. -/
inductive Value where
  | nil
  | string (sval : String)
  | symbol (sval : String)
  | integer (ival : Int)
  | list (list : List Value)
  | cpp (cpp_function : Intrinsic)
  | sequence (sequence : Generator)
/-- The three generator classes of `sequence.cc`. `value_set` holds the `list`
member of the source's `value_set`, the only member the source reads. -/
inductive Generator where
  | Dynamic (expr : Value) (start : Int)
  | Circular (value_set : List Value)
  | Composed (children : List Generator)
end

/-- Ways in which an evaluation does not return a value: `unresolved` and
`fatal` are the calls of `error_fatal`, `assertion` is a failed `assert`,
`undefined` marks a step whose behaviour the source leaves undefined (no
failure is raised there), `stdin` a read of standard input and `fuel` the end
of the fuel of the model. -/
inductive Err where
  | unresolved (name : String)
  | fatal (message : String)
  | assertion
  | undefined
  | stdin
  | fuel
  deriving DecidableEq, Repr

/-- Two's complement wrap-around of a signed 64-bit result. -/
def wrap64 (x : Int) : Int :=
  (x + 9223372036854775808) % 18446744073709551616 - 9223372036854775808

/-- Conversion of an `int64_t` to `unsigned`. -/
def to_unsigned (i : Int) : Nat := (i % 4294967296).toNat

/-- Conversion of an `int64_t` to `uint64_t`. -/
def to_uint64 (i : Int) : Nat := (i % 18446744073709551616).toNat

/-- The member `ival`: zero unless the value is an `Int`. -/
def Value.ival : Value → Int
  | .integer i => i
  | _ => 0

/-- The member `list`: empty unless the value is a `List`. -/
def Value.elements : Value → List Value
  | .list l => l
  | _ => []

/-- `Value::coarce_bool`. -/
def Value.coarce_bool : Value → Bool
  | .sequence _ => true
  | .symbol _ => true
  | .cpp _ => true
  | .nil => false
  | .integer i => i != 0
  | .list l => !l.isEmpty
  | .string s => !s.data.isEmpty

/-- `Value::at` on the `list` member: `*std::next(list.begin(), index)`, which
is undefined past the end. -/
def at_ (l : List Value) (index : Nat) : Except Err Value :=
  match l.get? index with
  | some v => .ok v
  | none => .error .undefined

mutual
/-- `Value::is_static_expression`. -/
def Value.is_static_expression : Value → Bool
  | .list l => all_static l
  | .symbol s => s != "n"
  | _ => true
/-- The `std::ranges::all_of` over the elements of a list. -/
def all_static : List Value → Bool
  | [] => true
  | v :: vs => v.is_static_expression && all_static vs
end

/-! ## Context -/

/-- One scope of the stack. -/
abbrev Scope := List (String × Value)

/-- `scope->contains(name)` together with `(*scope)[name]`. -/
def Scope.find (name : String) : Scope → Option Value
  | [] => none
  | (k, v) :: rest => if k = name then some v else Scope.find name rest

/-- `std::unordered_map::emplace`: inserts only when the key is absent. -/
def Scope.emplace (name : String) (value : Value) (s : Scope) : Scope :=
  match Scope.find name s with
  | some _ => s
  | none => (name, value) :: s

/-- `struct Context`: the scope stack, innermost scope first. -/
structure Context where
  scopes : List Scope

/-- The scan of `Context::operator[]` over the scopes, innermost first. -/
def lookup_scopes (name : String) : List Scope → Option Value
  | [] => none
  | scope :: outer =>
    match Scope.find name scope with
    | some v => some v
    | none => lookup_scopes name outer

/-- `Context::operator[]`; `none` is the null pointer. -/
def Context.lookup (ctx : Context) (name : String) : Option Value :=
  lookup_scopes name ctx.scopes

/-- `Context::assign`: `scopes.back().emplace(name, value)`. -/
def Context.assign (ctx : Context) (name : String) (value : Value) : Except Err Context :=
  match ctx.scopes with
  | [] => .error .undefined
  | scope :: outer => .ok ⟨Scope.emplace name value scope :: outer⟩

/-- `scopes.emplace_back()`. -/
def Context.push (ctx : Context) : Context := ⟨[] :: ctx.scopes⟩

/-- `scopes.pop_back()`. -/
def Context.pop (ctx : Context) : Except Err Context :=
  match ctx.scopes with
  | [] => .error .undefined
  | _ :: outer => .ok ⟨outer⟩

/-- Result of an evaluation: the value and the context it leaves. -/
abbrev Res := Except Err (Value × Context)

/-- Results of loops that collect several values. -/
abbrev ResList := Except Err (List Value × Context)

/-- The evaluator handed to a native function. -/
abbrev Ev := Context → Value → Res

/-- Evaluates the expressions in order, threading the context. -/
def eval_each (ev : Ev) : Context → List Value → ResList
  | ctx, [] => .ok ([], ctx)
  | ctx, e :: es => do
    let (v, ctx) ← ev ctx e
    let (vs, ctx) ← eval_each ev ctx es
    .ok (v :: vs, ctx)

/-! ## Generators (`sequence.cc`) -/

/-- `Dynamic_Generator::take`: the loop from index `i` for `count` more
samples; each sample runs in a fresh scope binding `n` to `i + start`. -/
def Dynamic_Generator.take (ev : Ev) (expr : Value) (start : Int) :
    Nat → Nat → Context → ResList
  | _, 0, ctx => .ok ([], ctx)
  | i, count + 1, ctx => do
    let ctx ← ctx.push.assign "n" (.integer (wrap64 (i + start)))
    let (v, ctx) ← ev ctx expr
    let ctx ← ctx.pop
    let (vs, ctx) ← Dynamic_Generator.take ev expr start (i + 1) count ctx
    .ok (v :: vs, ctx)

/-- `Dynamic_Generator::pop`. -/
def Dynamic_Generator.pop (expr : Value) (start : Int) (n : Nat) : Value :=
  .sequence (.Dynamic expr (wrap64 (start + n)))

/-- The element `value_set.at(i % value_set.list.size())`; the modulus by the
size of an empty `value_set` is undefined. -/
def Circular_Generator.element (value_set : List Value) (i : Nat) : Except Err Value :=
  if value_set.length = 0 then .error .undefined else at_ value_set (i % value_set.length)

/-- `Circular_Generator::take`: the loop from index `i` for `count` more
samples; each sample runs in a fresh scope binding `n` to `i` and evaluates
`value_set.at(i % value_set.list.size())`. -/
def Circular_Generator.take (ev : Ev) (value_set : List Value) :
    Nat → Nat → Context → ResList
  | _, 0, ctx => .ok ([], ctx)
  | i, count + 1, ctx => do
    let ctx ← ctx.push.assign "n" (.integer i)
    let e ← Circular_Generator.element value_set i
    let (v, ctx) ← ev ctx e
    let ctx ← ctx.pop
    let (vs, ctx) ← Circular_Generator.take ev value_set (i + 1) count ctx
    .ok (v :: vs, ctx)

/-- The loop `do pop_front(); while (n-- >= 1);` of `Circular_Generator::pop`:
the body runs before the first test, and the test reads `n` before the
decrement. -/
def Circular_Generator.pop_loop : Nat → List Value → List Value
  | 0, value_set => value_set.tail
  | n + 1, value_set => Circular_Generator.pop_loop n value_set.tail

/-- `Circular_Generator::pop`: `Nil` when `n >= size`, otherwise a generator
over what the `do pop_front(); while (n-- >= 1);` loop leaves of the copy. -/
def Circular_Generator.pop (value_set : List Value) (n : Nat) : Value :=
  if n ≥ value_set.length then .nil
  else .sequence (.Circular (Circular_Generator.pop_loop n value_set))

/-- One pass of the inner `for` of `Composed_Generator::take` over the
children. The third component is `none` when the pass returned and `some n`
when it ran off the end of the children with `n` samples still wanted. -/
def Composed_Generator.pass (ev : Ev) (child_take : Generator → Nat → Context → ResList) :
    List Generator → Nat → Context → Except Err (List Value × Context × Option Nat)
  | [], n, ctx => .ok ([], ctx, some n)
  | .Circular value_set :: rest, n, ctx => do
    let copied := min value_set.length n
    let (vs, ctx) ← eval_each ev ctx (value_set.take copied)
    if copied = n then .ok (vs, ctx, none)
    else do
      let (ws, ctx, more) ← Composed_Generator.pass ev child_take rest (n - copied) ctx
      .ok (vs ++ ws, ctx, more)
  | gen :: _, n, ctx => do
    let (vs, ctx) ← child_take gen n ctx
    .ok (vs, ctx, none)

/-- `Composed_Generator::take`: the outer `for (;;)`, on a round counter. -/
def Composed_Generator.take (ev : Ev) (child_take : Generator → Nat → Context → ResList)
    (children : List Generator) : Nat → Nat → Context → ResList
  | 0, _, _ => .error .fuel
  | rounds + 1, n, ctx => do
    let (vs, ctx, more) ← Composed_Generator.pass ev child_take children n ctx
    match more with
    | none => .ok (vs, ctx)
    | some n => do
      let (ws, ctx) ← Composed_Generator.take ev child_take children rounds n ctx
      .ok (vs ++ ws, ctx)

mutual
/-- Nesting depth of composed generators. -/
def Generator.depth : Generator → Nat
  | .Composed children => depth_children children + 1
  | _ => 0
/-- Largest nesting depth among the children. -/
def depth_children : List Generator → Nat
  | [] => 0
  | g :: gs => max g.depth (depth_children gs)
end

/-- The virtual call `gen->take(ctx, n)`, by recursion on a bound of the
nesting depth. A pass that does not return lowers `n`, or repeats for ever:
`n + 1` rounds decide which. -/
def Generator.take_at (ev : Ev) : Nat → Generator → Nat → Context → ResList
  | _, .Dynamic expr start, n, ctx => Dynamic_Generator.take ev expr start 0 n ctx
  | _, .Circular value_set, n, ctx => Circular_Generator.take ev value_set 0 n ctx
  | 0, .Composed _, _, _ => .error .fuel
  | d + 1, .Composed children, n, ctx =>
    Composed_Generator.take ev (Generator.take_at ev d) children (n + 1) n ctx

/-- The virtual call `sequence->take(ctx, n)`. -/
def Generator.take (ev : Ev) (g : Generator) (n : Nat) (ctx : Context) : ResList :=
  Generator.take_at ev g.depth g n ctx

/-- The virtual call `sequence->pop(ctx, n)`; `Composed_Generator::pop` is
`assert(false)`. -/
def Generator.pop : Generator → Nat → Except Err Value
  | .Dynamic expr start, n => .ok (Dynamic_Generator.pop expr start n)
  | .Circular value_set, n => .ok (Circular_Generator.pop value_set n)
  | .Composed _, _ => .error .assertion

/-- `Value::take`. -/
def Value.take (ev : Ev) (self : Value) (n : Nat) (ctx : Context) : Res :=
  match self with
  | .string sval => .ok (.string (String.mk (sval.data.take n)), ctx)
  | .list l => .ok (.list (l.take n), ctx)
  | .sequence g => do
    let (vs, ctx) ← Generator.take ev g (n % 4294967296) ctx
    .ok (.list vs, ctx)
  | _ => .error (.fatal "take only supports strings, lists and sequences")

mutual
/-- Modelled from the spec: `Value::subst`, which `seq!` calls, is declared in
`patty.hh` and defined in no source file at hand. The spec says it
"substitutes all currently-bound free symbols appearing in the unevaluated
argument tree with their current values". -/
def Value.subst (ctx : Context) : Value → Value
  | .symbol sval =>
    match ctx.lookup sval with
    | some v => v
    | none => .symbol sval
  | .list l => .list (subst_each ctx l)
  | v => v
/-- The substitution in every element of a list. -/
def subst_each (ctx : Context) : List Value → List Value
  | [] => []
  | v :: vs => v.subst ctx :: subst_each ctx vs
end

/-! ## Native functions (`intrinsic.cc`) -/

/-- The bodies of `Value::operator+=`, `operator-=` and `operator*=`: both
operands are asserted to be `Int`, the result wraps around. -/
def Value.op_assign (op : Int → Int → Int) (self other : Value) : Except Err Value :=
  match self, other with
  | .integer a, .integer b => .ok (.integer (wrap64 (op a b)))
  | _, _ => .error .assertion

/-- The loop of a `Math_Operations` closure over `args.tail()`. -/
def math_tail (ev : Ev) (op : Int → Int → Int) : Value → Context → List Value → Res
  | result, ctx, [] => .ok (result, ctx)
  | result, ctx, val :: rest => do
    let (v, ctx) ← ev ctx val
    let result ← result.op_assign op v
    math_tail ev op result ctx rest

/-- A `Math_Operations` closure. -/
def math_operation (ev : Ev) (op : Int → Int → Int) (ctx : Context) (args : List Value) : Res := do
  let a0 ← at_ args 0
  let (result, ctx) ← ev ctx a0
  math_tail ev op result ctx args.tail

/-- The loop of a `Comparisons` closure over `args.tail()`. -/
def comparison_tail (ev : Ev) (op : Int → Int → Bool) : Value → Context → List Value → Res
  | _, ctx, [] => .ok (.integer 1, ctx)
  | prev, ctx, val :: rest => do
    let (curr, ctx) ← ev ctx val
    if op prev.ival curr.ival then comparison_tail ev op curr ctx rest
    else .ok (.integer 0, ctx)

/-- A `Comparisons` closure. -/
def comparison (ev : Ev) (op : Int → Int → Bool) (ctx : Context) (args : List Value) : Res := do
  let a0 ← at_ args 0
  let (prev, ctx) ← ev ctx a0
  comparison_tail ev op prev ctx args.tail

/-- The closure `do`: `args.init()` for effect, then `args.list.back()`. -/
def do_form (ev : Ev) : Context → List Value → Res
  | _, [] => .error .undefined
  | ctx, [last] => ev ctx last
  | ctx, val :: rest => do
    let (_, ctx) ← ev ctx val
    do_form ev ctx rest

/-- The closure `def`. -/
def def_form (ev : Ev) (ctx : Context) (args : List Value) : Res :=
  match args with
  | [] => .error .undefined
  | .symbol sval :: rest => do
    let a1 ← at_ rest 0
    let (v, ctx) ← ev ctx a1
    let ctx ← ctx.assign sval v
    .ok (.nil, ctx)
  | _ :: _ => .error .assertion

/-- The closure `print`; the text written to standard output is not kept. -/
def print_form (ev : Ev) (ctx : Context) (args : List Value) : Res := do
  let (_, ctx) ← eval_each ev ctx args
  .ok (.nil, ctx)

/-- The closure `if`. -/
def if_form (ev : Ev) (ctx : Context) (args : List Value) : Res := do
  let a0 ← at_ args 0
  let (condition, ctx) ← ev ctx a0
  if condition.coarce_bool then do
    let a1 ← at_ args 1
    ev ctx a1
  else if args.length > 2 then do
    let a2 ← at_ args 2
    ev ctx a2
  else .ok (.nil, ctx)

/-- The loop of the closure `++`. -/
def concat_form (ev : Ev) : Context → List Value → ResList
  | ctx, [] => .ok ([], ctx)
  | ctx, arg :: rest => do
    let (v, ctx) ← ev ctx arg
    let (tail, ctx) ← concat_form ev ctx rest
    match v with
    | .nil => .ok (tail, ctx)
    | .list l => .ok (l ++ tail, ctx)
    | v => .ok (v :: tail, ctx)

/-- The closure `index`. -/
def index_form (ev : Ev) (ctx : Context) (args : List Value) : Res := do
  let a0 ← at_ args 0
  let (index, ctx) ← ev ctx a0
  let a1 ← at_ args 1
  let (l, ctx) ← ev ctx a1
  match index, l with
  | .integer i, .list xs => do
    let v ← at_ xs (to_unsigned i)
    .ok (v, ctx)
  | _, _ => .error .assertion

/-- The destructuring loop of `for` over the names of a list pattern. -/
def for_bind (ev : Ev) (arg : Value) : Nat → Context → List Value → Except Err Context
  | _, ctx, [] => .ok ctx
  | i, ctx, .symbol sval :: names =>
    if i < arg.elements.length then do
      let a ← at_ arg.elements i
      let (v, ctx) ← ev ctx a
      let ctx ← ctx.assign sval v
      for_bind ev arg (i + 1) ctx names
    else .error .assertion
  | _, _, _ :: _ => .error .assertion

/-- The `switch (args.at(0).type)` of `for`: binds the pattern to the element
`arg` of the collection. -/
def for_pattern (ev : Ev) (pattern arg : Value) (ctx : Context) : Except Err Context :=
  match pattern with
  | .symbol sval => do
    let (v, ctx) ← ev ctx arg
    ctx.assign sval v
  | .list names => for_bind ev arg 0 ctx names
  | _ => .error .assertion

/-- The loop of the closure `for` over the evaluated collection; every round
runs between `local_scope()` and the pop of its guard. -/
def for_loop (ev : Ev) (args : List Value) : Context → List Value → Except Err Context
  | ctx, [] => .ok ctx
  | ctx, arg :: rest => do
    let a0 ← at_ args 0
    let ctx ← for_pattern ev a0 arg ctx.push
    let a2 ← at_ args 2
    let (_, ctx) ← ev ctx a2
    let ctx ← ctx.pop
    for_loop ev args ctx rest

/-- The closure `for`. -/
def for_form (ev : Ev) (ctx : Context) (args : List Value) : Res := do
  let a1 ← at_ args 1
  let (collection, ctx) ← ev ctx a1
  let ctx ← for_loop ev args ctx collection.elements
  .ok (.nil, ctx)

/-- The first loop of `zip` and `zip-with`: every argument is evaluated and
asserted to be a `List`. -/
def eval_lists (ev : Ev) : Context → List Value → Except Err (List (List Value) × Context)
  | ctx, [] => .ok ([], ctx)
  | ctx, arg :: rest => do
    let (v, ctx) ← ev ctx arg
    match v with
    | .list l => do
      let (ls, ctx) ← eval_lists ev ctx rest
      .ok (l :: ls, ctx)
    | _ => .error .assertion

/-- The elements under the iterators, or `none` when some iterator is at the
end of its list (the `all_of` test of `zip`). -/
def heads : List (List Value) → Option (List Value)
  | [] => some []
  | [] :: _ => none
  | (x :: _) :: ls =>
    match heads ls with
    | some xs => some (x :: xs)
    | none => none

/-- The second loop of `zip`, `rounds` times at most. -/
def zip_rows : Nat → List (List Value) → Except Err (List Value)
  | rounds, lists =>
    match heads lists with
    | none => .ok []
    | some row =>
      match rounds with
      | 0 => .error .fuel
      | rounds + 1 => do
        let rows ← zip_rows rounds (lists.map List.tail)
        .ok (.list row :: rows)

/-- Rounds after which the second loop of `zip` has ended when there is a
list; without lists the loop does not end. -/
def zip_rounds (fuel : Nat) : List (List Value) → Nat
  | [] => fuel
  | l :: _ => l.length

/-- The iterators that the first loop of `zip` and `zip-with` saves: each is
the `begin()` of a `std::list` stored in a `std::vector` that grows with every
further argument. For an empty list the saved iterator is its end iterator,
which does not follow the list when the vector moves it to new storage, so an
empty list with a further argument after it leaves a dangling iterator.
Whether a given `emplace_back` moves the lists is left open by the standard;
every later one is taken as one that may. -/
def dangling_begin : List (List Value) → Bool
  | [] => false
  | [_] => false
  | l :: l2 :: rest => l.isEmpty || dangling_begin (l2 :: rest)

/-- The closure `zip`. The second loop compares and dereferences the saved
iterators, which is undefined when one of them dangles. -/
def zip_form (ev : Ev) (fuel : Nat) (ctx : Context) (args : List Value) : Res := do
  let (lists, ctx) ← eval_lists ev ctx args
  if dangling_begin lists then .error .undefined
  else do
    let rows ← zip_rows (zip_rounds fuel lists) lists
    .ok (.list rows, ctx)

/-- The second loop of `zip-with`, `rounds` times at most. -/
def zip_with_rows (ev : Ev) (op : Value) : Nat → Context → List (List Value) → ResList
  | rounds, ctx, lists =>
    match heads lists with
    | none => .ok ([], ctx)
    | some row =>
      match rounds with
      | 0 => .error .fuel
      | rounds + 1 => do
        let (v, ctx) ← ev ctx (.list (op :: row))
        let (vs, ctx) ← zip_with_rows ev op rounds ctx (lists.map List.tail)
        .ok (v :: vs, ctx)

/-- The closure `zip-with`. Its second loop uses the saved iterators as that of
`zip` does. -/
def zip_with_form (ev : Ev) (fuel : Nat) (ctx : Context) (args : List Value) : Res := do
  let op ← at_ args 0
  let (lists, ctx) ← eval_lists ev ctx args.tail
  if dangling_begin lists then .error .undefined
  else do
    let (vs, ctx) ← zip_with_rows ev op (zip_rounds fuel lists) ctx lists
    .ok (.list vs, ctx)

/-- The closure `take`. -/
def take_form (ev : Ev) (ctx : Context) (args : List Value) : Res := do
  let a0 ← at_ args 0
  let (count, ctx) ← ev ctx a0
  let a1 ← at_ args 1
  let (src, ctx) ← ev ctx a1
  match count with
  | .integer c => if c ≥ 0 then src.take ev c.toNat ctx else .error .assertion
  | _ => .error .assertion

/-- The closure `tail`; `std::next(source.list.begin())` is undefined on an
empty list. -/
def tail_form (ev : Ev) (ctx : Context) (args : List Value) : Res := do
  let a0 ← at_ args 0
  let (source, ctx) ← ev ctx a0
  match source.elements with
  | [] => .error .undefined
  | _ :: rest => .ok (.list rest, ctx)

/-- The loop of the closure `fold`: `invoke` is the two-element call under
construction; each round appends the element, evaluates the call, stores the
result at position 1 and removes the element again. -/
def fold_loop (ev : Ev) : List Value → Context → List Value → ResList
  | invoke, ctx, [] => .ok (invoke, ctx)
  | invoke, ctx, el :: rest => do
    let (r, ctx) ← ev ctx (.list (invoke ++ [el]))
    fold_loop ev (((invoke ++ [el]).set 1 r).dropLast) ctx rest

/-- The closure `fold`. -/
def fold_form (ev : Ev) (ctx : Context) (args : List Value) : Res := do
  let a1 ← at_ args 1
  let (collection, ctx) ← ev ctx a1
  let a0 ← at_ args 0
  let c0 ← at_ collection.elements 0
  let (invoke, ctx) ← fold_loop ev [a0, c0] ctx collection.elements.tail
  let r ← at_ invoke 1
  .ok (r, ctx)

/-- The closure `loop`, `rounds` times at most; it never returns a value. -/
def loop_form (ev : Ev) (args : List Value) : Nat → Context → Res
  | 0, _ => .error .fuel
  | rounds + 1, ctx => do
    let (_, ctx) ← eval_each ev ctx args
    loop_form ev args rounds ctx

/-- The closure `read`; standard input is not modelled. -/
def read_form (args : List Value) : Except Err Value := do
  let a0 ← at_ args 0
  match a0 with
  | .symbol sval => if sval = "int" then .error .stdin else .error .assertion
  | _ => .error .assertion

/-- The closure `seq`. The default `start` of a `Dynamic_Generator` is
declared in `patty.hh`, which is not at hand; the spec gives it as 0. -/
def seq_form (args : List Value) : Except Err Value :=
  if all_static args then .ok (.sequence (.Circular args))
  else
    match args.takeWhile Value.is_static_expression,
      args.dropWhile Value.is_static_expression with
    | _, [] => .error .undefined
    | [], expr :: _ => .ok (.sequence (.Dynamic expr 0))
    | statics, expr :: _ => .ok (.sequence (.Composed [.Circular statics, .Dynamic expr 0]))

/-- The closure `seq!`: substitution, then the closure found under `seq` in
`scopes.front()`, which is the closure `seq` in every context that
`intrinsics` has initialised. -/
def seq_bang_form (ctx : Context) (args : List Value) : Except Err Value :=
  match ctx.scopes.getLast? with
  | none => .error .undefined
  | some global =>
    match Scope.find "seq" global with
    | some (.cpp .seq) => seq_form (subst_each ctx args)
    | _ => .error .undefined

/-- The closure `pop`. -/
def pop_form (ev : Ev) (ctx : Context) (args : List Value) : Res := do
  let a0 ← at_ args 0
  let (count, ctx) ← ev ctx a0
  let a1 ← at_ args 1
  let (collection, ctx) ← ev ctx a1
  match count with
  | .integer c =>
    match collection with
    | .sequence g => do
      let v ← g.pop (to_unsigned c)
      .ok (v, ctx)
    | .list l => .ok (.list (l.drop (min (to_uint64 c) l.length)), ctx)
    | _ => .error (.fatal "pop only supports list and sequences")
  | _ => .error .assertion

/-- The call `callable.cpp_function(ctx, args)`; `args` is the `list` member
of the argument list, `fuel` bounds the rounds of loops that need not end. -/
def cpp_function (ev : Ev) (fuel : Nat) (f : Intrinsic) (ctx : Context) (args : List Value) : Res :=
  match f with
  | .add => math_operation ev (fun a b => a + b) ctx args
  | .sub => math_operation ev (fun a b => a - b) ctx args
  | .mul => math_operation ev (fun a b => a * b) ctx args
  | .lt => comparison ev (fun a b => decide (a < b)) ctx args
  | .le => comparison ev (fun a b => decide (a ≤ b)) ctx args
  | .ne => comparison ev (fun a b => decide (a ≠ b)) ctx args
  | .eq => comparison ev (fun a b => decide (a = b)) ctx args
  | .do_ => do_form ev ctx args
  | .def_ => def_form ev ctx args
  | .print => print_form ev ctx args
  | .fun_ => .ok (.list args, ctx)
  | .list => .ok (.list args, ctx)
  | .if_ => if_form ev ctx args
  | .concat => do
    let (vs, ctx) ← concat_form ev ctx args
    .ok (.list vs, ctx)
  | .index => index_form ev ctx args
  | .for_ => for_form ev ctx args
  | .zip => zip_form ev fuel ctx args
  | .zip_with => zip_with_form ev fuel ctx args
  | .take => take_form ev ctx args
  | .tail => tail_form ev ctx args
  | .fold => fold_form ev ctx args
  | .loop => loop_form ev args fuel ctx
  | .read => do
    let v ← read_form args
    .ok (v, ctx)
  | .seq => do
    let v ← seq_form args
    .ok (v, ctx)
  | .seq_bang => do
    let v ← seq_bang_form ctx args
    .ok (v, ctx)
  | .pop => pop_form ev ctx args

/-! ## The evaluator (`value.cc`) -/

/-- The loop of a function application binding each formal to the evaluated
actual, and the assertion after it that no formal is left over. Reading
`formal_it->type` when the formals are used up dereferences the end iterator. -/
def bind_formals (ev : Ev) : Context → List Value → List Value → Except Err Context
  | ctx, [], [] => .ok ctx
  | _, _ :: _, [] => .error .assertion
  | _, [], _ :: _ => .error .undefined
  | ctx, .symbol sval :: formals, arg :: args => do
    let (v, ctx) ← ev ctx arg
    let ctx ← ctx.assign sval v
    bind_formals ev ctx formals args
  | _, _ :: _, _ :: _ => .error .assertion

/-- The case `Value::Type::List` of the inner `switch` of `eval`: application
of the callable `[formals, body]` to the actuals. -/
def apply_list (ev : Ev) (ctx : Context) (callable : List Value) (actuals : List Value) : Res := do
  let ctx := ctx.push
  let formal ← at_ callable 0
  match formal with
  | .list formals => do
    let ctx ← bind_formals ev ctx formals actuals
    let body ← at_ callable 1
    let (result, ctx) ← ev ctx body
    let ctx ← ctx.pop
    .ok (result, ctx)
  | _ => .error .assertion

/-- The function `eval`; `fuel` bounds the depth of nested calls. -/
def eval : Nat → Context → Value → Res
  | 0, _, _ => .error .fuel
  | fuel + 1, ctx, value =>
    match value with
    | .symbol sval =>
      match ctx.lookup sval with
      | some resolved => .ok (resolved, ctx)
      | none => .error (.unresolved sval)
    | .list [] => .ok (.nil, ctx)
    | .list (front :: rest) =>
      match eval fuel ctx front with
      | .error e => .error e
      | .ok (callable, ctx) =>
        match callable with
        | .cpp f => cpp_function (eval fuel) fuel f ctx rest
        | .list c => apply_list (eval fuel) ctx c rest
        | _ => .ok (value, ctx)
    | _ => .ok (value, ctx)

/-- The names and closures in the order in which `intrinsics` defines them. -/
def registry : List Intrinsic :=
  [.add, .sub, .mul, .lt, .le, .ne, .eq, .do_, .def_, .print, .fun_, .list, .if_,
   .concat, .index, .for_, .zip, .zip_with, .take, .tail, .fold, .loop, .read,
   .seq, .seq_bang, .pop]

/-- `Context::define`: `ctx->assign(name, Value::cpp(name, func))`. -/
def Context.define (ctx : Context) (f : Intrinsic) : Except Err Context :=
  ctx.assign f.name (.cpp f)

/-- The chain of definitions of `intrinsics`. -/
def define_all : Context → List Intrinsic → Except Err Context
  | ctx, [] => .ok ctx
  | ctx, f :: fs => do
    let ctx ← ctx.define f
    define_all ctx fs

/-- The function `intrinsics`. -/
def intrinsics (ctx : Context) : Except Err Context :=
  define_all (if ctx.scopes.isEmpty then ctx.push else ctx) registry

/-- The context of `main`: `Context ctx; intrinsics(ctx);`. -/
def main_context : Context :=
  match intrinsics ⟨[]⟩ with
  | .ok ctx => ctx
  | .error _ => ⟨[]⟩


/-! ## The reader (`value.cc`)

The source text, a `std::string_view`, is the list of its characters; the
classification of characters is that of the "C" locale. -/

/-- `std::isspace`. -/
def isspace (c : Char) : Bool := c.toNat = 32 || (9 ≤ c.toNat && c.toNat ≤ 13)

/-- `std::isdigit`. -/
def isdigit (c : Char) : Bool := 48 ≤ c.toNat && c.toNat ≤ 57

/-- `std::isalpha`. -/
def isalpha (c : Char) : Bool :=
  (65 ≤ c.toNat && c.toNat ≤ 90) || (97 ≤ c.toNat && c.toNat ≤ 122)

/-- `std::isalnum`. -/
def isalnum (c : Char) : Bool := isalpha c || isdigit c

/-- The constant `Valid_Symbol_Char`. -/
def Valid_Symbol_Char : List Char :=
  ['+', '-', '*', '/', '%', '$', '@', '!', '^', '&', '[', ']', ':', ';', '<', '>', ',', '.',
    '|', '=']

/-- The test that starts a symbol: `isalpha` or a character of
`Valid_Symbol_Char`. -/
def is_symbol_start (c : Char) : Bool := isalpha c || Valid_Symbol_Char.contains c

/-- The test under which a symbol goes on: `isalnum` or a character of
`Valid_Symbol_Char`. -/
def is_symbol_char (c : Char) : Bool := isalnum c || Valid_Symbol_Char.contains c

/-- The double quote. -/
def quote_char : Char := Char.ofNat 34

/-- The backslash. -/
def backslash_char : Char := Char.ofNat 92

/-- The newline. -/
def newline_char : Char := Char.ofNat 10

mutual
/-- The loop at the head of `read`, at a position outside a comment: it drops
whitespace and, at a `#`, the comment up to the next newline. -/
def skip_space : List Char → Except Err (List Char)
  | [] => .ok []
  | c :: cs =>
    if isspace c then skip_space cs
    else if c = '#' then skip_comment cs
    else .ok (c :: cs)
/-- The same loop inside a comment: `source.remove_prefix(source.find('\n'))`,
which is undefined when no newline follows (`find` gives `npos`). -/
def skip_comment : List Char → Except Err (List Char)
  | [] => .error .undefined
  | c :: cs => if c = newline_char then skip_space cs else skip_comment cs
end

/-- The `std::adjacent_find` of the string literal, over the text after the
opening quote: the position of the first character that is not a backslash
and is followed by a double quote. -/
def find_closing_quote : List Char → Option Nat
  | prev :: curr :: rest =>
    if prev ≠ backslash_char ∧ curr = quote_char then some 0
    else (find_closing_quote (curr :: rest)).map (· + 1)
  | _ => none

/-- The string literal, `rest` being the text after the opening quote: the
payload runs up to and including the character found, the cursor moves two
past it. Without a match the source builds a view beyond the end of the
text. -/
def read_string (rest : List Char) : Except Err (Value × List Char) :=
  match find_closing_quote rest with
  | some j => .ok (.string (String.mk (rest.take (j + 1))), rest.drop (j + 2))
  | none => .error .undefined

/-- The digits that `std::from_chars` consumes, with the number they denote
after `acc`, and the text after them. -/
def read_digits : Nat → List Char → Nat × List Char
  | acc, [] => (acc, [])
  | acc, c :: cs =>
    if isdigit c then read_digits (acc * 10 + (c.toNat - 48)) cs else (acc, c :: cs)

/-- The value `std::from_chars` leaves in the field `ival` of a fresh `Value`,
which holds 0 (`std::int64_t ival = 0`): the number when it is in range,
otherwise the 0 is left as it is. -/
def store_int64 (i : Int) : Int :=
  if -9223372036854775808 ≤ i ∧ i ≤ 9223372036854775807 then i else 0

/-- `std::from_chars` on an `int64_t`, on a text that starts with a digit or
with `-` and a digit. -/
def from_chars (source : List Char) : Int × List Char :=
  match source with
  | [] => (0, [])
  | c :: cs =>
    if c = '-' then (store_int64 (-((read_digits 0 cs).1 : Int)), (read_digits 0 cs).2)
    else (store_int64 ((read_digits 0 (c :: cs)).1 : Int), (read_digits 0 (c :: cs)).2)

/-- The test `std::isdigit(source[1])`; at the end of the text of `main` the
character read is the terminating zero of the `std::string`. -/
def second_is_digit : List Char → Bool
  | [] => false
  | c :: _ => isdigit c

/-- The loop `while ((elem = read(source)).type != Value::Type::Nil)` of a list
form, `rounds` times at most; `rd` is the recursive `read`. -/
def read_elements (rd : List Char → Except Err (Value × List Char)) :
    Nat → List Char → Except Err (List Value × List Char)
  | 0, _ => .error .fuel
  | rounds + 1, source => do
    let (elem, source) ← rd source
    match elem with
    | .nil => .ok ([], source)
    | elem => do
      let (rest, source) ← read_elements rd rounds source
      .ok (elem :: rest, source)

/-- The body of `read` after the loop that skips whitespace and comments. -/
def read_token (rd : List Char → Except Err (Value × List Char)) (rounds : Nat)
    (source : List Char) : Except Err (Value × List Char) :=
  match source with
  | [] => .ok (.nil, [])
  | c :: cs =>
    if c = quote_char then read_string cs
    else if isdigit c || (c = '-' && second_is_digit cs) then
      .ok (.integer (from_chars (c :: cs)).1, (from_chars (c :: cs)).2)
    else if is_symbol_start c then
      .ok (.symbol (String.mk (c :: cs.takeWhile is_symbol_char)), cs.dropWhile is_symbol_char)
    else if c = '(' then do
      let (elems, rest) ← read_elements rd rounds cs
      .ok (.list elems, rest)
    else if c = ')' then .ok (.nil, cs)
    else .ok (.nil, c :: cs)

/-- The function `read`: the value read and the text left; `fuel` bounds the
nesting of list forms and the number of elements of a list form. -/
def read : Nat → List Char → Except Err (Value × List Char)
  | 0, _ => .error .fuel
  | fuel + 1, source => do
    let source ← skip_space source
    read_token (read fuel) fuel source

/-! ## The renderer (`fmt::formatter<Value>`, `patty.cc`)

The flag `in_list` is a `thread_local static` member of the formatter: `format`
takes its value and returns the value it leaves. -/

/-- The decimal digits of a natural number as `fmt` writes them, most
significant first; `fuel` bounds their number. -/
def format_digits : Nat → Nat → List Char
  | 0, _ => []
  | fuel + 1, n =>
    if n < 10 then [Nat.digitChar n]
    else format_digits fuel (n / 10) ++ [Nat.digitChar (n % 10)]

/-- The text `fmt` writes for an `int64_t` under `"{}"`: the decimal digits,
after a `-` when the number is negative. -/
def format_int (i : Int) : List Char :=
  if i < 0 then '-' :: format_digits (i.natAbs + 1) i.natAbs
  else format_digits (i.toNat + 1) i.toNat

/-- The body of `std::quoted`: a backslash before every double quote and every
backslash of the text. -/
def escape : List Char → List Char
  | [] => []
  | c :: cs =>
    if c = quote_char ∨ c = backslash_char then backslash_char :: c :: escape cs
    else c :: escape cs

/-- `std::quoted`: the escaped text between double quotes. -/
def quoted (s : List Char) : List Char := quote_char :: (escape s ++ [quote_char])

/-- `fmt::join(texts, " ")`. -/
def join_space : List (List Char) → List Char
  | [] => []
  | [t] => t
  | t :: u :: rest => t ++ ' ' :: join_space (u :: rest)

mutual
/-- `fmt::formatter<Value>::format`: the text written and the value of
`in_list` afterwards. The `switch` has no case for a Sequence, which falls to
the `assert(false && "unreachable")` after it. -/
def format : Value → Bool → Except Err (List Char × Bool)
  | .nil, in_list => .ok (['n', 'i', 'l'], in_list)
  | .string sval, in_list => .ok (if in_list then quoted sval.data else sval.data, in_list)
  | .symbol sval, in_list => .ok (sval.data, in_list)
  | .integer ival, in_list => .ok (format_int ival, in_list)
  | .list l, _ => do
    let (texts, _) ← format_each l true
    .ok ('(' :: (join_space texts ++ [')']), false)
  | .cpp f, in_list => .ok ("<cpp-function ".data ++ f.name.data ++ ['>'], in_list)
  | .sequence _, _ => .error .assertion
/-- The elements of a list formatted one after the other, as `fmt::join` asks
for them. -/
def format_each : List Value → Bool → Except Err (List (List Char) × Bool)
  | [], in_list => .ok ([], in_list)
  | v :: vs, in_list => do
    let (text, in_list) ← format v in_list
    let (texts, in_list) ← format_each vs in_list
    .ok (text :: texts, in_list)
end

/-- The function `print` without its newline: the text of a value formatted
with `in_list` at its initial value `false`. -/
def render (value : Value) : Except Err (List Char) :=
  match format value false with
  | .ok (text, _) => .ok text
  | .error e => .error e

/-! ## Definitions used to state the properties -/

/-- The left fold `((v1 op v2) op ...) op vk` in 64-bit wrap-around
arithmetic. -/
def fold_wrap (op : Int → Int → Int) (v1 : Int) (vs : List Int) : Int :=
  vs.foldl (fun acc v => wrap64 (op acc v)) v1

/-- Evaluates the actual of each pair in order and binds the result to the
name of the pair: the work of the binding loop of a function application on
the actuals that have a formal. -/
def bind_pairs (ev : Ev) : Context → List (String × Value) → Except Err Context
  | ctx, [] => .ok ctx
  | ctx, (name, arg) :: rest => do
    let (v, ctx) ← ev ctx arg
    let ctx ← ctx.assign name v
    bind_pairs ev ctx rest

/-- The context `ctx'` has the scopes of `ctx`, each outer scope as it was and
the innermost scope with every binding it had (it may have gained bindings). -/
def Frame (ctx ctx' : Context) : Prop :=
  ctx'.scopes.length = ctx.scopes.length ∧ ctx'.scopes.tail = ctx.scopes.tail ∧
    ∀ name v, Scope.find name (ctx.scopes.headD []) = some v →
      Scope.find name (ctx'.scopes.headD []) = some v

/-- Every result of the evaluator `ev` satisfies `Frame`. -/
def FrameEv (ev : Ev) : Prop :=
  ∀ ctx e v ctx', ev ctx e = .ok (v, ctx') → Frame ctx ctx'

/-- The comparison `op` holds for every adjacent pair of the list. -/
def adjacent_all (op : Int → Int → Bool) : List Int → Bool
  | a :: b :: rest => op a b && adjacent_all op (b :: rest)
  | _ => true

/-- The left fold without initial value as the spec words it: the accumulator
is replaced by the value of evaluating the call `(f accumulator x)` for each
further element `x`. -/
def fold_calls (ev : Ev) (f : Value) : Value → Context → List Value → Res
  | acc, ctx, [] => .ok (acc, ctx)
  | acc, ctx, x :: xs => do
    let (acc, ctx) ← ev ctx (.list [f, acc, x])
    fold_calls ev f acc ctx xs

/-- Every value the evaluator `ev` returns is returned by `ev'` as well. -/
def EvLe (ev ev' : Ev) : Prop :=
  ∀ ctx e r, ev ctx e = .ok r → ev' ctx e = .ok r

mutual
/-- The symbol `n` occurs in the expression, at any nesting depth of lists. -/
def occurs_n : Value → Bool
  | .symbol sval => sval == "n"
  | .list l => occurs_n_any l
  | _ => false
/-- The symbol `n` occurs in some expression of the list. -/
def occurs_n_any : List Value → Bool
  | [] => false
  | v :: vs => occurs_n v || occurs_n_any vs
end

/-- The value of `e` evaluated with `n` bound to `i` in a fresh innermost scope
on top of the scopes of `ctx`: one sample of a generator. -/
def sample (ev : Ev) (ctx : Context) (i : Int) (e : Value) : Except Err Value :=
  match ev ⟨[("n", .integer i)] :: ctx.scopes⟩ e with
  | .ok (v, _) => .ok v
  | .error err => .error err

/-- What a value contributes to the result of `++`: nothing for Nil, its
elements for a List, itself for any other value. -/
def contribution : Value → List Value
  | .nil => []
  | .list l => l
  | v => [v]

/-- The contributions of the values, one after the other. -/
def contributions : List Value → List Value
  | [] => []
  | v :: vs => contribution v ++ contributions vs

/-! ## Text forms of the reader -/

mutual
/-- The text forms of the reader that are built from integer tokens, symbol
tokens and parentheses: an integer token (an optional `-` and decimal digits),
a symbol token (its first character and the others), or a list form with the
forms between its parentheses and the whitespace before the closing one. -/
inductive Form where
  | int (negative : Bool) (digits : List Char)
  | sym (first : Char) (others : List Char)
  | list (items : Items) (close : List Char)
/-- The forms between the parentheses of a list form, each with the whitespace
that precedes it. -/
inductive Items where
  | nil
  | cons (before : List Char) (item : Form) (rest : Items)
end

/-- The number that decimal digits denote. -/
def decimal (digits : List Char) : Nat :=
  digits.foldl (fun acc c => acc * 10 + (c.toNat - 48)) 0

mutual
/-- The text of a form. -/
def Form.text : Form → List Char
  | .int negative digits => (if negative then ['-'] else []) ++ digits
  | .sym first others => first :: others
  | .list items close => '(' :: (items.text ++ close ++ [')'])
/-- The text of the forms of a list, without the parentheses. -/
def Items.text : Items → List Char
  | .nil => []
  | .cons before item rest => before ++ item.text ++ rest.text
end

mutual
/-- The value a form stands for. -/
def Form.value : Form → Value
  | .int negative digits =>
    .integer (if negative then -(decimal digits : Int) else (decimal digits : Int))
  | .sym first others => .symbol (String.mk (first :: others))
  | .list items _ => .list items.values
/-- The values of the forms of a list, in the order of the text. -/
def Items.values : Items → List Value
  | .nil => []
  | .cons _ item rest => item.value :: rest.values
end

/-- The forms of a list after the first are preceded by whitespace. -/
def Items.separated : Items → Prop
  | .nil => True
  | .cons before _ _ => before ≠ []

mutual
/-- Well-formed forms: an integer token has at least one digit, only digits,
and denotes a number of the 64-bit range; a symbol token starts with a letter
or a character of `Valid_Symbol_Char`, goes on with letters, digits and such
characters, and is not a `-` followed by a digit; in a list form the forms are
well-formed and separated by whitespace. -/
def Form.well_formed : Form → Prop
  | .int negative digits =>
    digits ≠ [] ∧ (∀ c ∈ digits, isdigit c = true) ∧
      (if negative then decimal digits ≤ 9223372036854775808
        else decimal digits ≤ 9223372036854775807)
  | .sym first others =>
    is_symbol_start first = true ∧ (∀ c ∈ others, is_symbol_char c = true) ∧
      ¬ (first = '-' ∧ second_is_digit others = true)
  | .list items close => items.well_formed ∧ ∀ c ∈ close, isspace c = true
/-- Well-formed sequences of forms. -/
def Items.well_formed : Items → Prop
  | .nil => True
  | .cons before item rest =>
    (∀ c ∈ before, isspace c = true) ∧ item.well_formed ∧ rest.well_formed ∧ rest.separated
end

mutual
/-- A bound on the fuel that `read` needs for a form. -/
def Form.cost : Form → Nat
  | .int _ _ => 1
  | .sym _ _ => 1
  | .list items _ => items.cost + 2
/-- The sum of the bounds of the forms of a list, plus their number. -/
def Items.cost : Items → Nat
  | .nil => 0
  | .cons _ item rest => item.cost + rest.cost + 1
end

/-- The text does not go on with a character of a token: it is empty or starts
with a character that is none of a letter, a digit and `Valid_Symbol_Char`. -/
def delimited : List Char → Prop
  | [] => True
  | c :: _ => is_symbol_char c = false

/-- Integer and symbol tokens, as opposed to list forms. -/
def Form.is_atom : Form → Prop
  | .list _ _ => False
  | _ => True

/-! ## String literals -/

/-- The closing quote of a string literal as the spec words it: the position,
in the text after the opening quote, of the first double quote that is not
immediately preceded by a backslash; `prev` is the character before the
text. -/
def closing_quote (prev : Char) : List Char → Option Nat
  | [] => none
  | c :: cs =>
    if c = quote_char ∧ prev ≠ backslash_char then some 0
    else (closing_quote c cs).map (· + 1)

/-! ## Rendering and reading back -/

theorem eval_each_cons_ok {ev : Ev} {ctx ctx' : Context} {e : Value} {es ws : List Value} :
    eval_each ev ctx (e :: es) = .ok (ws, ctx') ↔
      ∃ v ctx1 vs, ev ctx e = .ok (v, ctx1) ∧ eval_each ev ctx1 es = .ok (vs, ctx') ∧ ws = v :: vs := by
  cases h1 : ev ctx e with
  | error err => simp [eval_each, bind, Except.bind, h1]
  | ok r =>
    obtain ⟨v, ctx1⟩ := r
    cases h2 : eval_each ev ctx1 es with
    | error err => simp [eval_each, bind, Except.bind, h1, h2]
    | ok r2 =>
      obtain ⟨vs, ctx2⟩ := r2
      simp only [eval_each, bind, Except.bind, h1, h2, Except.ok.injEq, Prod.mk.injEq]
      constructor
      · rintro ⟨rfl, rfl⟩
        exact ⟨v, ctx1, vs, ⟨rfl, rfl⟩, by simp [h2], rfl⟩
      · rintro ⟨v', c', vs', ⟨rfl, rfl⟩, h, rfl⟩
        rw [h2] at h
        simp only [Except.ok.injEq, Prod.mk.injEq] at h
        exact ⟨by rw [h.1], h.2⟩

theorem eval_zero (ctx : Context) (e : Value) : eval 0 ctx e = .error .fuel := rfl

theorem intrinsics_main_context : intrinsics ⟨[]⟩ = .ok main_context := rfl

theorem eval_symbol (fuel : Nat) (ctx : Context) (name : String) :
    eval (fuel + 1) ctx (.symbol name) =
      match ctx.lookup name with
      | some resolved => .ok (resolved, ctx)
      | none => .error (.unresolved name) := rfl

theorem eval_pos_of_ok {fuel : Nat} {ctx : Context} {e : Value} {r : Value × Context}
    (h : eval fuel ctx e = .ok r) : ∃ k, fuel = k + 1 := by
  cases fuel with
  | zero => simp [eval] at h
  | succ k => exact ⟨k, rfl⟩

theorem eval_call_cpp {fuel : Nat} {ctx : Context} {name : String} {f : Intrinsic}
    (h : ctx.lookup name = some (.cpp f)) (rest : List Value) :
    eval (fuel + 2) ctx (.list (.symbol name :: rest)) =
      cpp_function (eval (fuel + 1)) (fuel + 1) f ctx rest := by
  simp [eval, h]

theorem math_tail_integers (ev : Ev) (op : Int → Int → Int) :
    ∀ (es : List Value) (vs : List Int) (acc : Int) (ctx ctx' : Context),
      eval_each ev ctx es = .ok (vs.map Value.integer, ctx') →
      math_tail ev op (.integer acc) ctx es = .ok (.integer (fold_wrap op acc vs), ctx') := by
  intro es
  induction es with
  | nil =>
    intro vs acc ctx ctx' h
    simp only [eval_each, Except.ok.injEq, Prod.mk.injEq] at h
    obtain ⟨h1, rfl⟩ := h
    cases vs with
    | nil => rfl
    | cons v vs => simp at h1
  | cons e es ih =>
    intro vs acc ctx ctx' h
    obtain ⟨v, ctx1, ws, h1, h2, h3⟩ := eval_each_cons_ok.mp h
    cases vs with
    | nil => simp at h3
    | cons w vs =>
      simp only [List.map_cons, List.cons.injEq] at h3
      obtain ⟨rfl, rfl⟩ := h3
      simp only [math_tail, bind, Except.bind, h1, Value.op_assign]
      exact ih vs _ ctx1 ctx' h2

theorem lookup_scopes_none_iff (name : String) (scopes : List Scope) :
    lookup_scopes name scopes = none ↔ ∀ s ∈ scopes, Scope.find name s = none := by
  induction scopes with
  | nil => simp [lookup_scopes]
  | cons s rest ih =>
    simp only [lookup_scopes, List.mem_cons, forall_eq_or_imp]
    cases h : Scope.find name s with
    | none => simpa using ih
    | some v => simp

theorem lookup_scopes_innermost (name : String) (inner : List Scope) (scope : Scope)
    (outer : List Scope) (v : Value) (hinner : ∀ s ∈ inner, Scope.find name s = none)
    (hscope : Scope.find name scope = some v) :
    lookup_scopes name (inner ++ scope :: outer) = some v := by
  induction inner with
  | nil => simp [lookup_scopes, hscope]
  | cons s rest ih =>
    have hs : Scope.find name s = none := hinner s (List.mem_cons_self _ _)
    simp only [List.cons_append, lookup_scopes, hs]
    exact ih (fun t ht => hinner t (List.mem_cons_of_mem _ ht))

theorem bind_formals_ok_length (ev : Ev) :
    ∀ (formals actuals : List Value) (ctx ctx' : Context),
      bind_formals ev ctx formals actuals = .ok ctx' → actuals.length = formals.length := by
  intro formals
  induction formals with
  | nil =>
    intro actuals ctx ctx' h
    cases actuals with
    | nil => rfl
    | cons a as => simp [bind_formals] at h
  | cons f fs ih =>
    intro actuals ctx ctx' h
    cases actuals with
    | nil => simp [bind_formals] at h
    | cons a as =>
      cases f with
      | symbol s =>
        simp only [bind_formals, bind, Except.bind] at h
        cases h1 : ev ctx a with
        | error e => simp [h1] at h
        | ok r =>
          obtain ⟨v, c1⟩ := r
          simp only [h1] at h
          cases h2 : c1.assign s v with
          | error e => simp [h2] at h
          | ok c2 =>
            simp only [h2] at h
            simp [ih as c2 ctx' h]
      | _ => simp [bind_formals] at h

theorem bind_formals_of_pairs (ev : Ev) :
    ∀ (names : List String) (actuals : List Value) (ctx ctx2 : Context),
      bind_pairs ev ctx (names.zip actuals) = .ok ctx2 →
      bind_formals ev ctx (names.map Value.symbol) actuals =
        if actuals.length < names.length then .error .assertion
        else if names.length < actuals.length then .error .undefined
        else .ok ctx2 := by
  intro names
  induction names with
  | nil =>
    intro actuals ctx ctx2 h
    cases actuals with
    | nil => simpa [bind_formals, bind_pairs] using h
    | cons a as => simp [bind_formals]
  | cons n ns ih =>
    intro actuals ctx ctx2 h
    cases actuals with
    | nil => simp [bind_formals]
    | cons a as =>
      simp only [List.zip_cons_cons, bind_pairs, bind, Except.bind] at h
      cases h1 : ev ctx a with
      | error e => simp [h1] at h
      | ok r =>
        obtain ⟨v, c1⟩ := r
        simp only [h1] at h
        cases h2 : c1.assign n v with
        | error e => simp [h2] at h
        | ok c2 =>
          simp only [h2] at h
          simp only [List.map_cons, bind_formals, bind, Except.bind, h1, h2, List.length_cons,
            Nat.add_lt_add_iff_right]
          exact ih as c2 ctx2 h

theorem eval_call_list {fuel : Nat} {ctx ctx1 : Context} {head : Value} {callable : List Value}
    (h : eval fuel ctx head = .ok (.list callable, ctx1)) (actuals : List Value) :
    eval (fuel + 1) ctx (.list (head :: actuals)) = apply_list (eval fuel) ctx1 callable actuals := by
  simp [eval, h]

/-! ### The frame left by an evaluation -/

theorem bind_ok_iff {ε α β : Type} {x : Except ε α} {f : α → Except ε β} {b : β} :
    (x >>= f) = .ok b ↔ ∃ a, x = .ok a ∧ f a = .ok b := by
  cases x with
  | error e => simp [bind, Except.bind]
  | ok a => simp [bind, Except.bind]

theorem Frame.refl (ctx : Context) : Frame ctx ctx :=
  ⟨rfl, rfl, fun _ _ h => h⟩

theorem Frame.trans {a b c : Context} (h1 : Frame a b) (h2 : Frame b c) : Frame a c :=
  ⟨h2.1.trans h1.1, h2.2.1.trans h1.2.1, fun name v h => h2.2.2 name v (h1.2.2 name v h)⟩

theorem Scope.find_emplace (name : String) (value : Value) (s : Scope) (key : String) (v : Value)
    (h : Scope.find key s = some v) : Scope.find key (Scope.emplace name value s) = some v := by
  unfold Scope.emplace
  cases hn : Scope.find name s with
  | some w => simpa using h
  | none =>
    simp only [Scope.find]
    by_cases hk : name = key
    · subst hk
      rw [hn] at h
      cases h
    · simpa [hk] using h

theorem assign_frame {ctx ctx' : Context} {name : String} {value : Value}
    (h : ctx.assign name value = .ok ctx') : Frame ctx ctx' := by
  obtain ⟨scopes⟩ := ctx
  cases scopes with
  | nil => simp [Context.assign] at h
  | cons s outer =>
    simp only [Context.assign, Except.ok.injEq] at h
    subst h
    exact ⟨rfl, rfl, fun key v hk => Scope.find_emplace name value s key v hk⟩

theorem pop_of_push_frame {ctx c c' : Context} (h : Frame ctx.push c) (hp : c.pop = .ok c') :
    c' = ctx := by
  obtain ⟨scopes⟩ := c
  obtain ⟨_, htail, _⟩ := h
  cases scopes with
  | nil => simp [Context.pop] at hp
  | cons s outer =>
    simp only [Context.pop, Except.ok.injEq] at hp
    subst hp
    simp only [Context.push, List.tail_cons] at htail
    subst htail
    rfl

theorem eval_each_frame {ev : Ev} (hev : FrameEv ev) :
    ∀ (es : List Value) (ctx ctx' : Context) (vs : List Value),
      eval_each ev ctx es = .ok (vs, ctx') → Frame ctx ctx' := by
  intro es
  induction es with
  | nil =>
    intro ctx ctx' vs h
    simp only [eval_each, Except.ok.injEq, Prod.mk.injEq] at h
    rw [← h.2]
    exact Frame.refl _
  | cons e es ih =>
    intro ctx ctx' vs h
    obtain ⟨v, c1, ws, h1, h2, _⟩ := eval_each_cons_ok.mp h
    exact (hev _ _ _ _ h1).trans (ih _ _ _ h2)

theorem math_tail_frame {ev : Ev} (hev : FrameEv ev) (op : Int → Int → Int) :
    ∀ (es : List Value) (acc : Value) (ctx ctx' : Context) (v : Value),
      math_tail ev op acc ctx es = .ok (v, ctx') → Frame ctx ctx' := by
  intro es
  induction es with
  | nil =>
    intro acc ctx ctx' v h
    simp only [math_tail, Except.ok.injEq, Prod.mk.injEq] at h
    rw [← h.2]
    exact Frame.refl _
  | cons e es ih =>
    intro acc ctx ctx' v h
    simp only [math_tail, bind_ok_iff, Prod.exists] at h
    obtain ⟨w, c1, h1, acc', _, h3⟩ := h
    exact (hev _ _ _ _ h1).trans (ih _ _ _ _ h3)

theorem math_operation_frame {ev : Ev} (hev : FrameEv ev) (op : Int → Int → Int)
    {ctx ctx' : Context} {args : List Value} {v : Value}
    (h : math_operation ev op ctx args = .ok (v, ctx')) : Frame ctx ctx' := by
  simp only [math_operation, bind_ok_iff, Prod.exists] at h
  obtain ⟨a0, _, w, c1, h1, h2⟩ := h
  exact (hev _ _ _ _ h1).trans (math_tail_frame hev op _ _ _ _ _ h2)

theorem comparison_tail_frame {ev : Ev} (hev : FrameEv ev) (op : Int → Int → Bool) :
    ∀ (es : List Value) (prev : Value) (ctx ctx' : Context) (v : Value),
      comparison_tail ev op prev ctx es = .ok (v, ctx') → Frame ctx ctx' := by
  intro es
  induction es with
  | nil =>
    intro prev ctx ctx' v h
    simp only [comparison_tail, Except.ok.injEq, Prod.mk.injEq] at h
    rw [← h.2]
    exact Frame.refl _
  | cons e es ih =>
    intro prev ctx ctx' v h
    simp only [comparison_tail, bind_ok_iff, Prod.exists] at h
    obtain ⟨w, c1, h1, h2⟩ := h
    split at h2
    · exact (hev _ _ _ _ h1).trans (ih _ _ _ _ h2)
    · simp only [Except.ok.injEq, Prod.mk.injEq] at h2
      rw [← h2.2]
      exact hev _ _ _ _ h1

theorem comparison_frame {ev : Ev} (hev : FrameEv ev) (op : Int → Int → Bool)
    {ctx ctx' : Context} {args : List Value} {v : Value}
    (h : comparison ev op ctx args = .ok (v, ctx')) : Frame ctx ctx' := by
  simp only [comparison, bind_ok_iff, Prod.exists] at h
  obtain ⟨a0, _, w, c1, h1, h2⟩ := h
  exact (hev _ _ _ _ h1).trans (comparison_tail_frame hev op _ _ _ _ _ h2)

theorem do_form_frame {ev : Ev} (hev : FrameEv ev) :
    ∀ (es : List Value) (ctx ctx' : Context) (v : Value),
      do_form ev ctx es = .ok (v, ctx') → Frame ctx ctx' := by
  intro es
  induction es with
  | nil =>
    intro ctx ctx' v h
    simp [do_form] at h
  | cons e es ih =>
    intro ctx ctx' v h
    cases es with
    | nil => exact hev _ _ _ _ (by simpa [do_form] using h)
    | cons e2 es =>
      simp only [do_form, bind_ok_iff, Prod.exists] at h
      obtain ⟨w, c1, h1, h2⟩ := h
      exact (hev _ _ _ _ h1).trans (ih _ _ _ h2)

theorem def_form_frame {ev : Ev} (hev : FrameEv ev) {ctx ctx' : Context} {args : List Value}
    {v : Value} (h : def_form ev ctx args = .ok (v, ctx')) : Frame ctx ctx' := by
  unfold def_form at h
  split at h
  · simp at h
  · simp only [bind_ok_iff, Prod.exists, Except.ok.injEq, Prod.mk.injEq] at h
    obtain ⟨a1, _, w, c1, h1, c2, h2, _, h3⟩ := h
    rw [← h3]
    exact (hev _ _ _ _ h1).trans (assign_frame h2)
  · simp at h

theorem print_form_frame {ev : Ev} (hev : FrameEv ev) {ctx ctx' : Context} {args : List Value}
    {v : Value} (h : print_form ev ctx args = .ok (v, ctx')) : Frame ctx ctx' := by
  simp only [print_form, bind_ok_iff, Prod.exists, Except.ok.injEq, Prod.mk.injEq] at h
  obtain ⟨vs, c1, h1, _, h2⟩ := h
  rw [← h2]
  exact eval_each_frame hev _ _ _ _ h1

theorem if_form_frame {ev : Ev} (hev : FrameEv ev) {ctx ctx' : Context} {args : List Value}
    {v : Value} (h : if_form ev ctx args = .ok (v, ctx')) : Frame ctx ctx' := by
  simp only [if_form, bind_ok_iff, Prod.exists] at h
  obtain ⟨a0, _, c, c1, h1, h2⟩ := h
  split at h2
  · simp only [bind_ok_iff] at h2
    obtain ⟨a1, _, h3⟩ := h2
    exact (hev _ _ _ _ h1).trans (hev _ _ _ _ h3)
  · split at h2
    · simp only [bind_ok_iff] at h2
      obtain ⟨a2, _, h3⟩ := h2
      exact (hev _ _ _ _ h1).trans (hev _ _ _ _ h3)
    · simp only [Except.ok.injEq, Prod.mk.injEq] at h2
      rw [← h2.2]
      exact hev _ _ _ _ h1

theorem concat_form_frame {ev : Ev} (hev : FrameEv ev) :
    ∀ (es : List Value) (ctx ctx' : Context) (vs : List Value),
      concat_form ev ctx es = .ok (vs, ctx') → Frame ctx ctx' := by
  intro es
  induction es with
  | nil =>
    intro ctx ctx' vs h
    simp only [concat_form, Except.ok.injEq, Prod.mk.injEq] at h
    rw [← h.2]
    exact Frame.refl _
  | cons e es ih =>
    intro ctx ctx' vs h
    simp only [concat_form, bind_ok_iff, Prod.exists] at h
    obtain ⟨w, c1, h1, ws, c2, h2, h3⟩ := h
    have hc : c2 = ctx' := by
      split at h3 <;> simp only [Except.ok.injEq, Prod.mk.injEq] at h3 <;> exact h3.2
    rw [← hc]
    exact (hev _ _ _ _ h1).trans (ih _ _ _ h2)

theorem index_form_frame {ev : Ev} (hev : FrameEv ev) {ctx ctx' : Context} {args : List Value}
    {v : Value} (h : index_form ev ctx args = .ok (v, ctx')) : Frame ctx ctx' := by
  simp only [index_form, bind_ok_iff, Prod.exists] at h
  obtain ⟨a0, _, i, c1, h1, a1, _, l, c2, h2, h3⟩ := h
  have hc : c2 = ctx' := by
    split at h3
    · simp only [bind_ok_iff, Except.ok.injEq, Prod.mk.injEq] at h3
      obtain ⟨_, _, _, h4⟩ := h3
      exact h4
    · simp at h3
  rw [← hc]
  exact (hev _ _ _ _ h1).trans (hev _ _ _ _ h2)

theorem for_bind_frame {ev : Ev} (hev : FrameEv ev) (arg : Value) :
    ∀ (names : List Value) (i : Nat) (ctx ctx' : Context),
      for_bind ev arg i ctx names = .ok ctx' → Frame ctx ctx' := by
  intro names
  induction names with
  | nil =>
    intro i ctx ctx' h
    simp only [for_bind, Except.ok.injEq] at h
    rw [← h]
    exact Frame.refl _
  | cons name names ih =>
    intro i ctx ctx' h
    cases name with
    | symbol s =>
      simp only [for_bind] at h
      split at h
      · simp only [bind_ok_iff, Prod.exists] at h
        obtain ⟨a, _, w, c1, h1, c2, h2, h3⟩ := h
        exact ((hev _ _ _ _ h1).trans (assign_frame h2)).trans (ih _ _ _ h3)
      · simp at h
    | _ => simp [for_bind] at h

theorem for_loop_same {ev : Ev} (hev : FrameEv ev) (args : List Value) :
    ∀ (coll : List Value) (ctx ctx' : Context),
      for_loop ev args ctx coll = .ok ctx' → ctx' = ctx := by
  intro coll
  induction coll with
  | nil =>
    intro ctx ctx' h
    simp only [for_loop, Except.ok.injEq] at h
    exact h.symm
  | cons arg rest ih =>
    intro ctx ctx' h
    simp only [for_loop, bind_ok_iff, Prod.exists] at h
    obtain ⟨a0, _, c1, h1, a2, _, w, c2, h2, c3, h3, h4⟩ := h
    have hf1 : Frame ctx.push c1 := by
      unfold for_pattern at h1
      split at h1
      · simp only [bind_ok_iff, Prod.exists] at h1
        obtain ⟨u, c0, h5, h6⟩ := h1
        exact (hev _ _ _ _ h5).trans (assign_frame h6)
      · exact for_bind_frame hev arg _ _ _ _ h1
      · simp at h1
    have hc3 : c3 = ctx := pop_of_push_frame (hf1.trans (hev _ _ _ _ h2)) h3
    rw [hc3] at h4
    exact ih _ _ h4

theorem for_form_frame {ev : Ev} (hev : FrameEv ev) {ctx ctx' : Context} {args : List Value}
    {v : Value} (h : for_form ev ctx args = .ok (v, ctx')) : Frame ctx ctx' := by
  simp only [for_form, bind_ok_iff, Prod.exists, Except.ok.injEq, Prod.mk.injEq] at h
  obtain ⟨a1, _, coll, c1, h1, c2, h2, _, h3⟩ := h
  rw [← h3, for_loop_same hev _ _ _ _ h2]
  exact hev _ _ _ _ h1

theorem eval_lists_frame {ev : Ev} (hev : FrameEv ev) :
    ∀ (es : List Value) (ctx ctx' : Context) (ls : List (List Value)),
      eval_lists ev ctx es = .ok (ls, ctx') → Frame ctx ctx' := by
  intro es
  induction es with
  | nil =>
    intro ctx ctx' ls h
    simp only [eval_lists, Except.ok.injEq, Prod.mk.injEq] at h
    rw [← h.2]
    exact Frame.refl _
  | cons e es ih =>
    intro ctx ctx' ls h
    simp only [eval_lists, bind_ok_iff, Prod.exists] at h
    obtain ⟨w, c1, h1, h2⟩ := h
    split at h2
    · simp only [bind_ok_iff, Prod.exists, Except.ok.injEq, Prod.mk.injEq] at h2
      obtain ⟨ls', c2, h3, _, h4⟩ := h2
      rw [← h4]
      exact (hev _ _ _ _ h1).trans (ih _ _ _ h3)
    · simp at h2

theorem zip_form_frame {ev : Ev} (hev : FrameEv ev) {fuel : Nat} {ctx ctx' : Context}
    {args : List Value} {v : Value} (h : zip_form ev fuel ctx args = .ok (v, ctx')) :
    Frame ctx ctx' := by
  simp only [zip_form, bind_ok_iff, Prod.exists] at h
  obtain ⟨ls, c1, h1, h2⟩ := h
  split at h2
  · cases h2
  · simp only [bind_ok_iff, Except.ok.injEq, Prod.mk.injEq] at h2
    obtain ⟨rows, _, _, h3⟩ := h2
    rw [← h3]
    exact eval_lists_frame hev _ _ _ _ h1

theorem zip_with_rows_frame {ev : Ev} (hev : FrameEv ev) (op : Value) :
    ∀ (rounds : Nat) (ctx ctx' : Context) (lists : List (List Value)) (vs : List Value),
      zip_with_rows ev op rounds ctx lists = .ok (vs, ctx') → Frame ctx ctx' := by
  intro rounds
  induction rounds with
  | zero =>
    intro ctx ctx' lists vs h
    unfold zip_with_rows at h
    split at h
    · simp only [Except.ok.injEq, Prod.mk.injEq] at h
      rw [← h.2]
      exact Frame.refl _
    · simp at h
  | succ k ih =>
    intro ctx ctx' lists vs h
    unfold zip_with_rows at h
    split at h
    · simp only [Except.ok.injEq, Prod.mk.injEq] at h
      rw [← h.2]
      exact Frame.refl _
    · simp only [bind_ok_iff, Prod.exists, Except.ok.injEq, Prod.mk.injEq] at h
      obtain ⟨w, c1, h1, ws, c2, h2, _, h3⟩ := h
      rw [← h3]
      exact (hev _ _ _ _ h1).trans (ih _ _ _ _ h2)

theorem zip_with_form_frame {ev : Ev} (hev : FrameEv ev) {fuel : Nat} {ctx ctx' : Context}
    {args : List Value} {v : Value} (h : zip_with_form ev fuel ctx args = .ok (v, ctx')) :
    Frame ctx ctx' := by
  simp only [zip_with_form, bind_ok_iff, Prod.exists] at h
  obtain ⟨op, _, ls, c1, h1, h2⟩ := h
  split at h2
  · cases h2
  · simp only [bind_ok_iff, Prod.exists, Except.ok.injEq, Prod.mk.injEq] at h2
    obtain ⟨vs, c2, h3, _, h4⟩ := h2
    rw [← h4]
    exact (eval_lists_frame hev _ _ _ _ h1).trans (zip_with_rows_frame hev op _ _ _ _ _ h3)

theorem dynamic_take_same {ev : Ev} (hev : FrameEv ev) (expr : Value) (start : Int) :
    ∀ (count i : Nat) (ctx ctx' : Context) (vs : List Value),
      Dynamic_Generator.take ev expr start i count ctx = .ok (vs, ctx') → ctx' = ctx := by
  intro count
  induction count with
  | zero =>
    intro i ctx ctx' vs h
    simp only [Dynamic_Generator.take, Except.ok.injEq, Prod.mk.injEq] at h
    exact h.2.symm
  | succ k ih =>
    intro i ctx ctx' vs h
    simp only [Dynamic_Generator.take, bind_ok_iff, Prod.exists, Except.ok.injEq,
      Prod.mk.injEq] at h
    obtain ⟨c1, h1, w, c2, h2, c3, h3, ws, c4, h4, _, h5⟩ := h
    have hc3 : c3 = ctx := pop_of_push_frame ((assign_frame h1).trans (hev _ _ _ _ h2)) h3
    rw [hc3] at h4
    rw [← h5]
    exact ih _ _ _ _ h4

theorem circular_take_same {ev : Ev} (hev : FrameEv ev) (value_set : List Value) :
    ∀ (count i : Nat) (ctx ctx' : Context) (vs : List Value),
      Circular_Generator.take ev value_set i count ctx = .ok (vs, ctx') → ctx' = ctx := by
  intro count
  induction count with
  | zero =>
    intro i ctx ctx' vs h
    simp only [Circular_Generator.take, Except.ok.injEq, Prod.mk.injEq] at h
    exact h.2.symm
  | succ k ih =>
    intro i ctx ctx' vs h
    simp only [Circular_Generator.take, bind_ok_iff, Prod.exists, Except.ok.injEq,
      Prod.mk.injEq] at h
    obtain ⟨c1, h1, e, _, w, c2, h2, c3, h3, ws, c4, h4, _, h5⟩ := h
    have hc3 : c3 = ctx := pop_of_push_frame ((assign_frame h1).trans (hev _ _ _ _ h2)) h3
    rw [hc3] at h4
    rw [← h5]
    exact ih _ _ _ _ h4

theorem composed_pass_frame {ev : Ev} (hev : FrameEv ev)
    {child_take : Generator → Nat → Context → ResList}
    (hchild : ∀ g n ctx vs ctx', child_take g n ctx = .ok (vs, ctx') → Frame ctx ctx') :
    ∀ (children : List Generator) (n : Nat) (ctx ctx' : Context) (vs : List Value)
      (more : Option Nat),
      Composed_Generator.pass ev child_take children n ctx = .ok (vs, ctx', more) →
      Frame ctx ctx' := by
  intro children
  induction children with
  | nil =>
    intro n ctx ctx' vs more h
    simp only [Composed_Generator.pass, Except.ok.injEq, Prod.mk.injEq] at h
    rw [← h.2.1]
    exact Frame.refl _
  | cons g gs ih =>
    intro n ctx ctx' vs more h
    cases g with
    | Circular value_set =>
      simp only [Composed_Generator.pass, bind_ok_iff, Prod.exists] at h
      obtain ⟨ws, c1, h1, h2⟩ := h
      have hf1 := eval_each_frame hev _ _ _ _ h1
      split at h2
      · simp only [Except.ok.injEq, Prod.mk.injEq] at h2
        rw [← h2.2.1]
        exact hf1
      · simp only [bind_ok_iff, Prod.exists, Except.ok.injEq, Prod.mk.injEq] at h2
        obtain ⟨us, c2, m, h3, _, h4, _⟩ := h2
        rw [← h4]
        exact hf1.trans (ih _ _ _ _ _ h3)
    | Dynamic expr start =>
      simp only [Composed_Generator.pass, bind_ok_iff, Prod.exists, Except.ok.injEq,
        Prod.mk.injEq] at h
      obtain ⟨ws, c1, h1, _, h2, _⟩ := h
      rw [← h2]
      exact hchild _ _ _ _ _ h1
    | Composed cs =>
      simp only [Composed_Generator.pass, bind_ok_iff, Prod.exists, Except.ok.injEq,
        Prod.mk.injEq] at h
      obtain ⟨ws, c1, h1, _, h2, _⟩ := h
      rw [← h2]
      exact hchild _ _ _ _ _ h1

theorem composed_take_frame {ev : Ev} (hev : FrameEv ev)
    {child_take : Generator → Nat → Context → ResList}
    (hchild : ∀ g n ctx vs ctx', child_take g n ctx = .ok (vs, ctx') → Frame ctx ctx')
    (children : List Generator) :
    ∀ (rounds n : Nat) (ctx ctx' : Context) (vs : List Value),
      Composed_Generator.take ev child_take children rounds n ctx = .ok (vs, ctx') →
      Frame ctx ctx' := by
  intro rounds
  induction rounds with
  | zero =>
    intro n ctx ctx' vs h
    simp [Composed_Generator.take] at h
  | succ k ih =>
    intro n ctx ctx' vs h
    simp only [Composed_Generator.take, bind_ok_iff, Prod.exists] at h
    obtain ⟨ws, c1, more, h1, h2⟩ := h
    have hf1 := composed_pass_frame hev hchild _ _ _ _ _ _ h1
    split at h2
    · simp only [Except.ok.injEq, Prod.mk.injEq] at h2
      rw [← h2.2]
      exact hf1
    · simp only [bind_ok_iff, Prod.exists, Except.ok.injEq, Prod.mk.injEq] at h2
      obtain ⟨us, c2, h3, _, h4⟩ := h2
      rw [← h4]
      exact hf1.trans (ih _ _ _ _ h3)

theorem take_at_frame {ev : Ev} (hev : FrameEv ev) :
    ∀ (d : Nat) (g : Generator) (n : Nat) (ctx ctx' : Context) (vs : List Value),
      Generator.take_at ev d g n ctx = .ok (vs, ctx') → Frame ctx ctx' := by
  intro d
  induction d with
  | zero =>
    intro g n ctx ctx' vs h
    cases g with
    | Dynamic expr start =>
      have hs : ctx' = ctx :=
        dynamic_take_same hev expr start n 0 ctx ctx' vs (by simpa [Generator.take_at] using h)
      rw [hs]
      exact Frame.refl _
    | Circular value_set =>
      have hs : ctx' = ctx :=
        circular_take_same hev value_set n 0 ctx ctx' vs (by simpa [Generator.take_at] using h)
      rw [hs]
      exact Frame.refl _
    | Composed cs => simp [Generator.take_at] at h
  | succ k ih =>
    intro g n ctx ctx' vs h
    cases g with
    | Dynamic expr start =>
      have hs : ctx' = ctx :=
        dynamic_take_same hev expr start n 0 ctx ctx' vs (by simpa [Generator.take_at] using h)
      rw [hs]
      exact Frame.refl _
    | Circular value_set =>
      have hs : ctx' = ctx :=
        circular_take_same hev value_set n 0 ctx ctx' vs (by simpa [Generator.take_at] using h)
      rw [hs]
      exact Frame.refl _
    | Composed cs =>
      simp only [Generator.take_at] at h
      exact composed_take_frame hev (fun g n c vs c' hg => ih g n c c' vs hg) _ _ _ _ _ _ h

theorem value_take_frame {ev : Ev} (hev : FrameEv ev) {self : Value} {n : Nat}
    {ctx ctx' : Context} {v : Value} (h : self.take ev n ctx = .ok (v, ctx')) :
    Frame ctx ctx' := by
  unfold Value.take at h
  split at h
  · simp only [Except.ok.injEq, Prod.mk.injEq] at h
    rw [← h.2]
    exact Frame.refl _
  · simp only [Except.ok.injEq, Prod.mk.injEq] at h
    rw [← h.2]
    exact Frame.refl _
  · simp only [Generator.take, bind_ok_iff, Prod.exists, Except.ok.injEq, Prod.mk.injEq] at h
    obtain ⟨vs, c1, h1, _, h2⟩ := h
    rw [← h2]
    exact take_at_frame hev _ _ _ _ _ _ h1
  · simp at h

theorem take_form_frame {ev : Ev} (hev : FrameEv ev) {ctx ctx' : Context} {args : List Value}
    {v : Value} (h : take_form ev ctx args = .ok (v, ctx')) : Frame ctx ctx' := by
  simp only [take_form, bind_ok_iff, Prod.exists] at h
  obtain ⟨a0, _, count, c1, h1, a1, _, src, c2, h2, h3⟩ := h
  have hf := (hev _ _ _ _ h1).trans (hev _ _ _ _ h2)
  split at h3
  · split at h3
    · exact hf.trans (value_take_frame hev h3)
    · simp at h3
  · simp at h3

theorem tail_form_frame {ev : Ev} (hev : FrameEv ev) {ctx ctx' : Context} {args : List Value}
    {v : Value} (h : tail_form ev ctx args = .ok (v, ctx')) : Frame ctx ctx' := by
  simp only [tail_form, bind_ok_iff, Prod.exists] at h
  obtain ⟨a0, _, source, c1, h1, h2⟩ := h
  split at h2
  · simp at h2
  · simp only [Except.ok.injEq, Prod.mk.injEq] at h2
    rw [← h2.2]
    exact hev _ _ _ _ h1

theorem fold_loop_frame {ev : Ev} (hev : FrameEv ev) :
    ∀ (els invoke : List Value) (ctx ctx' : Context) (r : List Value),
      fold_loop ev invoke ctx els = .ok (r, ctx') → Frame ctx ctx' := by
  intro els
  induction els with
  | nil =>
    intro invoke ctx ctx' r h
    simp only [fold_loop, Except.ok.injEq, Prod.mk.injEq] at h
    rw [← h.2]
    exact Frame.refl _
  | cons el rest ih =>
    intro invoke ctx ctx' r h
    simp only [fold_loop, bind_ok_iff, Prod.exists] at h
    obtain ⟨w, c1, h1, h2⟩ := h
    exact (hev _ _ _ _ h1).trans (ih _ _ _ _ h2)

theorem fold_form_frame {ev : Ev} (hev : FrameEv ev) {ctx ctx' : Context} {args : List Value}
    {v : Value} (h : fold_form ev ctx args = .ok (v, ctx')) : Frame ctx ctx' := by
  simp only [fold_form, bind_ok_iff, Prod.exists, Except.ok.injEq, Prod.mk.injEq] at h
  obtain ⟨a1, _, coll, c1, h1, a0, _, c0, _, invoke, c2, h2, r, _, _, h3⟩ := h
  rw [← h3]
  exact (hev _ _ _ _ h1).trans (fold_loop_frame hev _ _ _ _ _ h2)

theorem loop_form_never_ok (ev : Ev) (args : List Value) :
    ∀ (rounds : Nat) (ctx : Context) (r : Value × Context),
      loop_form ev args rounds ctx ≠ .ok r := by
  intro rounds
  induction rounds with
  | zero =>
    intro ctx r h
    simp [loop_form] at h
  | succ k ih =>
    intro ctx r h
    simp only [loop_form, bind_ok_iff, Prod.exists] at h
    obtain ⟨vs, c1, _, h2⟩ := h
    exact ih _ _ h2

theorem pop_form_frame {ev : Ev} (hev : FrameEv ev) {ctx ctx' : Context} {args : List Value}
    {v : Value} (h : pop_form ev ctx args = .ok (v, ctx')) : Frame ctx ctx' := by
  simp only [pop_form, bind_ok_iff, Prod.exists] at h
  obtain ⟨a0, _, count, c1, h1, a1, _, coll, c2, h2, h3⟩ := h
  have hf := (hev _ _ _ _ h1).trans (hev _ _ _ _ h2)
  have hc : c2 = ctx' := by
    split at h3
    · split at h3
      · simp only [bind_ok_iff, Except.ok.injEq, Prod.mk.injEq] at h3
        obtain ⟨_, _, _, h4⟩ := h3
        exact h4
      · simp only [Except.ok.injEq, Prod.mk.injEq] at h3
        exact h3.2
      · simp at h3
    · simp at h3
  rw [← hc]
  exact hf

theorem cpp_function_frame {ev : Ev} (hev : FrameEv ev) {fuel : Nat} {f : Intrinsic}
    {ctx ctx' : Context} {args : List Value} {v : Value}
    (h : cpp_function ev fuel f ctx args = .ok (v, ctx')) : Frame ctx ctx' := by
  cases f <;> simp only [cpp_function] at h
  case add => exact math_operation_frame hev _ h
  case sub => exact math_operation_frame hev _ h
  case mul => exact math_operation_frame hev _ h
  case lt => exact comparison_frame hev _ h
  case le => exact comparison_frame hev _ h
  case ne => exact comparison_frame hev _ h
  case eq => exact comparison_frame hev _ h
  case do_ => exact do_form_frame hev _ _ _ _ h
  case def_ => exact def_form_frame hev h
  case print => exact print_form_frame hev h
  case fun_ =>
    simp only [Except.ok.injEq, Prod.mk.injEq] at h
    rw [← h.2]
    exact Frame.refl _
  case list =>
    simp only [Except.ok.injEq, Prod.mk.injEq] at h
    rw [← h.2]
    exact Frame.refl _
  case if_ => exact if_form_frame hev h
  case concat =>
    simp only [bind_ok_iff, Prod.exists, Except.ok.injEq, Prod.mk.injEq] at h
    obtain ⟨vs, c1, h1, _, h2⟩ := h
    rw [← h2]
    exact concat_form_frame hev _ _ _ _ h1
  case index => exact index_form_frame hev h
  case for_ => exact for_form_frame hev h
  case zip => exact zip_form_frame hev h
  case zip_with => exact zip_with_form_frame hev h
  case take => exact take_form_frame hev h
  case tail => exact tail_form_frame hev h
  case fold => exact fold_form_frame hev h
  case loop => exact absurd h (loop_form_never_ok _ _ _ _ _)
  case read =>
    simp only [bind_ok_iff, Except.ok.injEq, Prod.mk.injEq] at h
    obtain ⟨_, _, _, h2⟩ := h
    rw [← h2]
    exact Frame.refl _
  case seq =>
    simp only [bind_ok_iff, Except.ok.injEq, Prod.mk.injEq] at h
    obtain ⟨_, _, _, h2⟩ := h
    rw [← h2]
    exact Frame.refl _
  case seq_bang =>
    simp only [bind_ok_iff, Except.ok.injEq, Prod.mk.injEq] at h
    obtain ⟨_, _, _, h2⟩ := h
    rw [← h2]
    exact Frame.refl _
  case pop => exact pop_form_frame hev h

theorem bind_formals_frame {ev : Ev} (hev : FrameEv ev) :
    ∀ (formals actuals : List Value) (ctx ctx' : Context),
      bind_formals ev ctx formals actuals = .ok ctx' → Frame ctx ctx' := by
  intro formals
  induction formals with
  | nil =>
    intro actuals ctx ctx' h
    cases actuals with
    | nil =>
      simp only [bind_formals, Except.ok.injEq] at h
      rw [← h]
      exact Frame.refl _
    | cons a as => simp [bind_formals] at h
  | cons f fs ih =>
    intro actuals ctx ctx' h
    cases actuals with
    | nil => simp [bind_formals] at h
    | cons a as =>
      cases f with
      | symbol s =>
        simp only [bind_formals, bind_ok_iff, Prod.exists] at h
        obtain ⟨w, c1, h1, c2, h2, h3⟩ := h
        exact ((hev _ _ _ _ h1).trans (assign_frame h2)).trans (ih _ _ _ h3)
      | _ => simp [bind_formals] at h

theorem apply_list_same {ev : Ev} (hev : FrameEv ev) {ctx ctx' : Context}
    {callable actuals : List Value} {v : Value}
    (h : apply_list ev ctx callable actuals = .ok (v, ctx')) : ctx' = ctx := by
  simp only [apply_list, bind_ok_iff] at h
  obtain ⟨formal, _, h1⟩ := h
  split at h1
  · simp only [bind_ok_iff, Prod.exists, Except.ok.injEq, Prod.mk.injEq] at h1
    obtain ⟨c1, h2, body, _, r, c2, h3, c3, h4, _, h5⟩ := h1
    rw [← h5]
    exact pop_of_push_frame ((bind_formals_frame hev _ _ _ _ h2).trans (hev _ _ _ _ h3)) h4
  · simp at h1

theorem eval_frame : ∀ fuel : Nat, FrameEv (eval fuel) := by
  intro fuel
  induction fuel with
  | zero =>
    intro ctx e v ctx' h
    simp [eval] at h
  | succ k ih =>
    intro ctx e v ctx' h
    unfold eval at h
    split at h
    · split at h
      · simp only [Except.ok.injEq, Prod.mk.injEq] at h
        rw [← h.2]
        exact Frame.refl _
      · simp at h
    · simp only [Except.ok.injEq, Prod.mk.injEq] at h
      rw [← h.2]
      exact Frame.refl _
    · split at h
      · simp at h
      · rename_i callable c1 hfront
        have hf := ih _ _ _ _ hfront
        split at h
        · exact hf.trans (cpp_function_frame ih h)
        · rw [apply_list_same ih h]
          exact hf
        · simp only [Except.ok.injEq, Prod.mk.injEq] at h
          rw [← h.2]
          exact hf
    · simp only [Except.ok.injEq, Prod.mk.injEq] at h
      rw [← h.2]
      exact Frame.refl _

theorem comparison_tail_integers (ev : Ev) (op : Int → Int → Bool) :
    ∀ (es : List Value) (vs : List Int) (prev : Int) (ctx ctx' : Context),
      eval_each ev ctx es = .ok (vs.map Value.integer, ctx') →
      (adjacent_all op (prev :: vs) = true →
        comparison_tail ev op (.integer prev) ctx es = .ok (.integer 1, ctx')) ∧
      (adjacent_all op (prev :: vs) = false →
        ∃ ctx'', ∀ rest,
          comparison_tail ev op (.integer prev) ctx (es ++ rest) = .ok (.integer 0, ctx'')) := by
  intro es
  induction es with
  | nil =>
    intro vs prev ctx ctx' h
    simp only [eval_each, Except.ok.injEq, Prod.mk.injEq] at h
    obtain ⟨h1, rfl⟩ := h
    cases vs with
    | nil => simp [adjacent_all, comparison_tail]
    | cons v vs => simp at h1
  | cons e es ih =>
    intro vs prev ctx ctx' h
    obtain ⟨v, ctx1, ws, h1, h2, h3⟩ := eval_each_cons_ok.mp h
    cases vs with
    | nil => simp at h3
    | cons w vs =>
      simp only [List.map_cons, List.cons.injEq] at h3
      obtain ⟨rfl, rfl⟩ := h3
      obtain ⟨ih1, ih2⟩ := ih vs w ctx1 ctx' h2
      by_cases hop : op prev w = true
      · constructor
        · intro hall
          simp only [adjacent_all, hop, Bool.true_and] at hall
          simp only [comparison_tail, bind, Except.bind, h1, Value.ival, hop, if_true]
          exact ih1 hall
        · intro hall
          simp only [adjacent_all, hop, Bool.true_and] at hall
          obtain ⟨c, hc⟩ := ih2 hall
          refine ⟨c, fun rest => ?_⟩
          simp only [List.cons_append, comparison_tail, bind, Except.bind, h1, Value.ival, hop,
            if_true]
          exact hc rest
      · constructor
        · intro hall
          simp [adjacent_all, hop] at hall
        · intro _
          refine ⟨ctx1, fun rest => ?_⟩
          simp [comparison_tail, bind, Except.bind, h1, Value.ival, hop]

theorem fold_loop_eq_fold_calls (ev : Ev) (f : Value) :
    ∀ (xs : List Value) (acc : Value) (ctx : Context),
      fold_loop ev [f, acc] ctx xs =
        (fold_calls ev f acc ctx xs).bind fun rc => .ok ([f, rc.1], rc.2) := by
  intro xs
  induction xs with
  | nil =>
    intro acc ctx
    rfl
  | cons x xs ih =>
    intro acc ctx
    simp only [fold_loop, fold_calls, bind, Except.bind, List.cons_append, List.nil_append]
    cases h : ev ctx (.list [f, acc, x]) with
    | error e => rfl
    | ok rc =>
      obtain ⟨r, c⟩ := rc
      simp only [List.set_cons_succ, List.set_cons_zero, List.dropLast]
      exact ih r c

theorem fold_calls_add_integers (fuel : Nat) (ctx : Context) (plus : String)
    (hplus : ctx.lookup plus = some (.cpp .add)) :
    ∀ (xs : List Int) (x : Int),
      fold_calls (eval (fuel + 2)) (.symbol plus) (.integer x) ctx (xs.map Value.integer) =
        .ok (.integer (fold_wrap (fun a b => a + b) x xs), ctx) := by
  intro xs
  induction xs with
  | nil =>
    intro x
    rfl
  | cons y ys ih =>
    intro x
    have hcall : eval (fuel + 2) ctx (.list [.symbol plus, .integer x, .integer y]) =
        .ok (.integer (wrap64 (x + y)), ctx) := by
      rw [eval_call_cpp hplus]
      simp [cpp_function, math_operation, math_tail, at_, eval, bind, Except.bind,
        Value.op_assign]
    simp only [List.map_cons, fold_calls, bind, Except.bind, hcall]
    exact ih (wrap64 (x + y))

/-! ### More fuel keeps the result -/

theorem eval_each_mono {ev ev' : Ev} (hle : EvLe ev ev') :
    ∀ (es : List Value) (ctx : Context) (r : List Value × Context),
      eval_each ev ctx es = .ok r → eval_each ev' ctx es = .ok r := by
  intro es
  induction es with
  | nil =>
    intro ctx r h
    simpa [eval_each] using h
  | cons e es ih =>
    intro ctx r h
    obtain ⟨vs, c⟩ := r
    obtain ⟨v, c1, ws, h1, h2, h3⟩ := eval_each_cons_ok.mp h
    exact eval_each_cons_ok.mpr ⟨v, c1, ws, hle _ _ _ h1, ih _ _ h2, h3⟩

theorem math_tail_mono {ev ev' : Ev} (hle : EvLe ev ev') (op : Int → Int → Int) :
    ∀ (es : List Value) (acc : Value) (ctx : Context) (r : Value × Context),
      math_tail ev op acc ctx es = .ok r → math_tail ev' op acc ctx es = .ok r := by
  intro es
  induction es with
  | nil =>
    intro acc ctx r h
    simpa [math_tail] using h
  | cons e es ih =>
    intro acc ctx r h
    simp only [math_tail, bind_ok_iff, Prod.exists] at h ⊢
    obtain ⟨w, c1, h1, acc', h2, h3⟩ := h
    exact ⟨w, c1, hle _ _ _ h1, acc', h2, ih _ _ _ h3⟩

theorem math_operation_mono {ev ev' : Ev} (hle : EvLe ev ev') (op : Int → Int → Int)
    {ctx : Context} {args : List Value} {r : Value × Context}
    (h : math_operation ev op ctx args = .ok r) : math_operation ev' op ctx args = .ok r := by
  simp only [math_operation, bind_ok_iff, Prod.exists] at h ⊢
  obtain ⟨a0, h0, w, c1, h1, h2⟩ := h
  exact ⟨a0, h0, w, c1, hle _ _ _ h1, math_tail_mono hle op _ _ _ _ h2⟩

theorem comparison_tail_mono {ev ev' : Ev} (hle : EvLe ev ev') (op : Int → Int → Bool) :
    ∀ (es : List Value) (prev : Value) (ctx : Context) (r : Value × Context),
      comparison_tail ev op prev ctx es = .ok r → comparison_tail ev' op prev ctx es = .ok r := by
  intro es
  induction es with
  | nil =>
    intro prev ctx r h
    simpa [comparison_tail] using h
  | cons e es ih =>
    intro prev ctx r h
    simp only [comparison_tail, bind_ok_iff, Prod.exists] at h ⊢
    obtain ⟨w, c1, h1, h2⟩ := h
    refine ⟨w, c1, hle _ _ _ h1, ?_⟩
    split at h2
    · rename_i hop
      rw [if_pos hop]
      exact ih _ _ _ h2
    · rename_i hop
      rw [if_neg hop]
      exact h2

theorem comparison_mono {ev ev' : Ev} (hle : EvLe ev ev') (op : Int → Int → Bool)
    {ctx : Context} {args : List Value} {r : Value × Context}
    (h : comparison ev op ctx args = .ok r) : comparison ev' op ctx args = .ok r := by
  simp only [comparison, bind_ok_iff, Prod.exists] at h ⊢
  obtain ⟨a0, h0, w, c1, h1, h2⟩ := h
  exact ⟨a0, h0, w, c1, hle _ _ _ h1, comparison_tail_mono hle op _ _ _ _ h2⟩

theorem do_form_mono {ev ev' : Ev} (hle : EvLe ev ev') :
    ∀ (es : List Value) (ctx : Context) (r : Value × Context),
      do_form ev ctx es = .ok r → do_form ev' ctx es = .ok r := by
  intro es
  induction es with
  | nil =>
    intro ctx r h
    simp [do_form] at h
  | cons e es ih =>
    intro ctx r h
    cases es with
    | nil =>
      simp only [do_form] at h ⊢
      exact hle _ _ _ h
    | cons e2 es =>
      simp only [do_form, bind_ok_iff, Prod.exists] at h ⊢
      obtain ⟨w, c1, h1, h2⟩ := h
      exact ⟨w, c1, hle _ _ _ h1, ih _ _ h2⟩

theorem def_form_mono {ev ev' : Ev} (hle : EvLe ev ev') {ctx : Context} {args : List Value}
    {r : Value × Context} (h : def_form ev ctx args = .ok r) : def_form ev' ctx args = .ok r := by
  unfold def_form at h ⊢
  split at h
  · simp at h
  · simp only [bind_ok_iff, Prod.exists] at h ⊢
    obtain ⟨a1, h0, w, c1, h1, c2, h2, h3⟩ := h
    exact ⟨a1, h0, w, c1, hle _ _ _ h1, c2, h2, h3⟩
  · simp at h

theorem print_form_mono {ev ev' : Ev} (hle : EvLe ev ev') {ctx : Context} {args : List Value}
    {r : Value × Context} (h : print_form ev ctx args = .ok r) :
    print_form ev' ctx args = .ok r := by
  simp only [print_form, bind_ok_iff, Prod.exists] at h ⊢
  obtain ⟨vs, c1, h1, h2⟩ := h
  exact ⟨vs, c1, eval_each_mono hle _ _ _ h1, h2⟩

theorem if_form_mono {ev ev' : Ev} (hle : EvLe ev ev') {ctx : Context} {args : List Value}
    {r : Value × Context} (h : if_form ev ctx args = .ok r) : if_form ev' ctx args = .ok r := by
  simp only [if_form, bind_ok_iff, Prod.exists] at h ⊢
  obtain ⟨a0, h0, c, c1, h1, h2⟩ := h
  refine ⟨a0, h0, c, c1, hle _ _ _ h1, ?_⟩
  split at h2
  · rename_i hb
    rw [if_pos hb]
    simp only [bind_ok_iff] at h2 ⊢
    obtain ⟨a1, h3, h4⟩ := h2
    exact ⟨a1, h3, hle _ _ _ h4⟩
  · rename_i hb
    rw [if_neg hb]
    split at h2
    · rename_i hl
      rw [if_pos hl]
      simp only [bind_ok_iff] at h2 ⊢
      obtain ⟨a2, h3, h4⟩ := h2
      exact ⟨a2, h3, hle _ _ _ h4⟩
    · rename_i hl
      rw [if_neg hl]
      exact h2

theorem concat_form_mono {ev ev' : Ev} (hle : EvLe ev ev') :
    ∀ (es : List Value) (ctx : Context) (r : List Value × Context),
      concat_form ev ctx es = .ok r → concat_form ev' ctx es = .ok r := by
  intro es
  induction es with
  | nil =>
    intro ctx r h
    simpa [concat_form] using h
  | cons e es ih =>
    intro ctx r h
    simp only [concat_form, bind_ok_iff, Prod.exists] at h ⊢
    obtain ⟨w, c1, h1, ws, c2, h2, h3⟩ := h
    exact ⟨w, c1, hle _ _ _ h1, ws, c2, ih _ _ h2, h3⟩

theorem index_form_mono {ev ev' : Ev} (hle : EvLe ev ev') {ctx : Context} {args : List Value}
    {r : Value × Context} (h : index_form ev ctx args = .ok r) :
    index_form ev' ctx args = .ok r := by
  simp only [index_form, bind_ok_iff, Prod.exists] at h ⊢
  obtain ⟨a0, h0, i, c1, h1, a1, h1', l, c2, h2, h3⟩ := h
  exact ⟨a0, h0, i, c1, hle _ _ _ h1, a1, h1', l, c2, hle _ _ _ h2, h3⟩

theorem for_bind_mono {ev ev' : Ev} (hle : EvLe ev ev') (arg : Value) :
    ∀ (names : List Value) (i : Nat) (ctx ctx' : Context),
      for_bind ev arg i ctx names = .ok ctx' → for_bind ev' arg i ctx names = .ok ctx' := by
  intro names
  induction names with
  | nil =>
    intro i ctx ctx' h
    simpa [for_bind] using h
  | cons name names ih =>
    intro i ctx ctx' h
    cases name with
    | symbol s =>
      simp only [for_bind] at h ⊢
      split at h
      · rename_i hi
        rw [if_pos hi]
        simp only [bind_ok_iff, Prod.exists] at h ⊢
        obtain ⟨a, h0, w, c1, h1, c2, h2, h3⟩ := h
        exact ⟨a, h0, w, c1, hle _ _ _ h1, c2, h2, ih _ _ _ h3⟩
      · simp at h
    | _ => simp [for_bind] at h

theorem for_pattern_mono {ev ev' : Ev} (hle : EvLe ev ev') {pattern arg : Value}
    {ctx ctx' : Context} (h : for_pattern ev pattern arg ctx = .ok ctx') :
    for_pattern ev' pattern arg ctx = .ok ctx' := by
  unfold for_pattern at h ⊢
  split at h
  · simp only [bind_ok_iff, Prod.exists] at h ⊢
    obtain ⟨w, c1, h1, h2⟩ := h
    exact ⟨w, c1, hle _ _ _ h1, h2⟩
  · exact for_bind_mono hle _ _ _ _ _ h
  · simp at h

theorem for_loop_mono {ev ev' : Ev} (hle : EvLe ev ev') (args : List Value) :
    ∀ (coll : List Value) (ctx ctx' : Context),
      for_loop ev args ctx coll = .ok ctx' → for_loop ev' args ctx coll = .ok ctx' := by
  intro coll
  induction coll with
  | nil =>
    intro ctx ctx' h
    simpa [for_loop] using h
  | cons arg rest ih =>
    intro ctx ctx' h
    simp only [for_loop, bind_ok_iff, Prod.exists] at h ⊢
    obtain ⟨a0, h0, c1, h1, a2, h2', w, c2, h2, c3, h3, h4⟩ := h
    exact ⟨a0, h0, c1, for_pattern_mono hle h1, a2, h2', w, c2, hle _ _ _ h2, c3, h3,
      ih _ _ h4⟩

theorem for_form_mono {ev ev' : Ev} (hle : EvLe ev ev') {ctx : Context} {args : List Value}
    {r : Value × Context} (h : for_form ev ctx args = .ok r) : for_form ev' ctx args = .ok r := by
  simp only [for_form, bind_ok_iff, Prod.exists] at h ⊢
  obtain ⟨a1, h0, coll, c1, h1, c2, h2, h3⟩ := h
  exact ⟨a1, h0, coll, c1, hle _ _ _ h1, c2, for_loop_mono hle _ _ _ _ h2, h3⟩

theorem eval_lists_mono {ev ev' : Ev} (hle : EvLe ev ev') :
    ∀ (es : List Value) (ctx : Context) (r : List (List Value) × Context),
      eval_lists ev ctx es = .ok r → eval_lists ev' ctx es = .ok r := by
  intro es
  induction es with
  | nil =>
    intro ctx r h
    simpa [eval_lists] using h
  | cons e es ih =>
    intro ctx r h
    simp only [eval_lists, bind_ok_iff, Prod.exists] at h ⊢
    obtain ⟨w, c1, h1, h2⟩ := h
    refine ⟨w, c1, hle _ _ _ h1, ?_⟩
    cases w with
    | list l =>
      simp only [bind_ok_iff, Prod.exists] at h2 ⊢
      obtain ⟨ls, c2, h3, h4⟩ := h2
      exact ⟨ls, c2, ih _ _ h3, h4⟩
    | _ => simp at h2

theorem zip_rows_nil_never_ok : ∀ (rounds : Nat) (rows : List Value),
    zip_rows rounds [] ≠ .ok rows := by
  intro rounds
  induction rounds with
  | zero =>
    intro rows h
    simp [zip_rows, heads] at h
  | succ k ih =>
    intro rows h
    rw [zip_rows] at h
    simp only [heads, List.map_nil, bind_ok_iff] at h
    obtain ⟨rs, h1, _⟩ := h
    exact ih _ h1

theorem zip_form_mono {ev ev' : Ev} (hle : EvLe ev ev') {fuel fuel' : Nat} {ctx : Context}
    {args : List Value} {r : Value × Context} (h : zip_form ev fuel ctx args = .ok r) :
    zip_form ev' fuel' ctx args = .ok r := by
  simp only [zip_form, bind_ok_iff, Prod.exists] at h ⊢
  obtain ⟨ls, c1, h1, h2⟩ := h
  refine ⟨ls, c1, eval_lists_mono hle _ _ _ h1, ?_⟩
  split at h2
  · cases h2
  · rename_i hd
    rw [if_neg hd]
    simp only [bind_ok_iff] at h2 ⊢
    obtain ⟨rows, h3, h4⟩ := h2
    refine ⟨rows, ?_, h4⟩
    cases ls with
    | nil => exact absurd h3 (zip_rows_nil_never_ok _ _)
    | cons l ls => exact h3

theorem zip_with_rows_nil_never_ok (ev : Ev) (op : Value) :
    ∀ (rounds : Nat) (ctx : Context) (r : List Value × Context),
      zip_with_rows ev op rounds ctx [] ≠ .ok r := by
  intro rounds
  induction rounds with
  | zero =>
    intro ctx r h
    simp [zip_with_rows, heads] at h
  | succ k ih =>
    intro ctx r h
    rw [zip_with_rows] at h
    simp only [heads, List.map_nil, bind_ok_iff, Prod.exists] at h
    obtain ⟨_, c1, _, vs, c2, h2, _⟩ := h
    exact ih _ _ h2

theorem zip_with_rows_mono {ev ev' : Ev} (hle : EvLe ev ev') (op : Value) :
    ∀ (rounds : Nat) (ctx : Context) (lists : List (List Value)) (r : List Value × Context),
      zip_with_rows ev op rounds ctx lists = .ok r →
      zip_with_rows ev' op rounds ctx lists = .ok r := by
  intro rounds
  induction rounds with
  | zero =>
    intro ctx lists r h
    unfold zip_with_rows at h ⊢
    cases hh : heads lists with
    | none => simpa [hh] using h
    | some row => simp [hh] at h
  | succ k ih =>
    intro ctx lists r h
    unfold zip_with_rows at h ⊢
    cases hh : heads lists with
    | none => simpa [hh] using h
    | some row =>
      simp only [hh, bind_ok_iff, Prod.exists] at h ⊢
      obtain ⟨w, c1, h1, vs, c2, h2, h3⟩ := h
      exact ⟨w, c1, hle _ _ _ h1, vs, c2, ih _ _ _ h2, h3⟩

theorem zip_with_form_mono {ev ev' : Ev} (hle : EvLe ev ev') {fuel fuel' : Nat} {ctx : Context}
    {args : List Value} {r : Value × Context} (h : zip_with_form ev fuel ctx args = .ok r) :
    zip_with_form ev' fuel' ctx args = .ok r := by
  simp only [zip_with_form, bind_ok_iff, Prod.exists] at h ⊢
  obtain ⟨op, h0, ls, c1, h1, h2⟩ := h
  refine ⟨op, h0, ls, c1, eval_lists_mono hle _ _ _ h1, ?_⟩
  split at h2
  · cases h2
  · rename_i hd
    rw [if_neg hd]
    simp only [bind_ok_iff, Prod.exists] at h2 ⊢
    obtain ⟨vs, c2, h3, h4⟩ := h2
    refine ⟨vs, c2, ?_, h4⟩
    cases ls with
    | nil => exact absurd h3 (zip_with_rows_nil_never_ok _ _ _ _ _)
    | cons l ls => exact zip_with_rows_mono hle op _ _ _ _ h3

theorem dynamic_take_mono {ev ev' : Ev} (hle : EvLe ev ev') (expr : Value) (start : Int) :
    ∀ (count i : Nat) (ctx : Context) (r : List Value × Context),
      Dynamic_Generator.take ev expr start i count ctx = .ok r →
      Dynamic_Generator.take ev' expr start i count ctx = .ok r := by
  intro count
  induction count with
  | zero =>
    intro i ctx r h
    simpa [Dynamic_Generator.take] using h
  | succ k ih =>
    intro i ctx r h
    simp only [Dynamic_Generator.take, bind_ok_iff, Prod.exists] at h ⊢
    obtain ⟨c1, h1, w, c2, h2, c3, h3, ws, c4, h4, h5⟩ := h
    exact ⟨c1, h1, w, c2, hle _ _ _ h2, c3, h3, ws, c4, ih _ _ _ h4, h5⟩

theorem circular_take_mono {ev ev' : Ev} (hle : EvLe ev ev') (value_set : List Value) :
    ∀ (count i : Nat) (ctx : Context) (r : List Value × Context),
      Circular_Generator.take ev value_set i count ctx = .ok r →
      Circular_Generator.take ev' value_set i count ctx = .ok r := by
  intro count
  induction count with
  | zero =>
    intro i ctx r h
    simpa [Circular_Generator.take] using h
  | succ k ih =>
    intro i ctx r h
    simp only [Circular_Generator.take, bind_ok_iff, Prod.exists] at h ⊢
    obtain ⟨c1, h1, e, he, w, c2, h2, c3, h3, ws, c4, h4, h5⟩ := h
    exact ⟨c1, h1, e, he, w, c2, hle _ _ _ h2, c3, h3, ws, c4, ih _ _ _ h4, h5⟩

theorem composed_pass_mono {ev ev' : Ev} (hle : EvLe ev ev')
    {child_take child_take' : Generator → Nat → Context → ResList}
    (hchild : ∀ g n ctx r, child_take g n ctx = .ok r → child_take' g n ctx = .ok r) :
    ∀ (children : List Generator) (n : Nat) (ctx : Context)
      (r : List Value × Context × Option Nat),
      Composed_Generator.pass ev child_take children n ctx = .ok r →
      Composed_Generator.pass ev' child_take' children n ctx = .ok r := by
  intro children
  induction children with
  | nil =>
    intro n ctx r h
    simpa [Composed_Generator.pass] using h
  | cons g gs ih =>
    intro n ctx r h
    cases g with
    | Circular value_set =>
      simp only [Composed_Generator.pass, bind_ok_iff, Prod.exists] at h ⊢
      obtain ⟨ws, c1, h1, h2⟩ := h
      refine ⟨ws, c1, eval_each_mono hle _ _ _ h1, ?_⟩
      split at h2
      · rename_i hc
        rw [if_pos hc]
        exact h2
      · rename_i hc
        rw [if_neg hc]
        simp only [bind_ok_iff, Prod.exists] at h2 ⊢
        obtain ⟨us, c2, m, h3, h4⟩ := h2
        exact ⟨us, c2, m, ih _ _ _ h3, h4⟩
    | Dynamic expr start =>
      simp only [Composed_Generator.pass, bind_ok_iff, Prod.exists] at h ⊢
      obtain ⟨ws, c1, h1, h2⟩ := h
      exact ⟨ws, c1, hchild _ _ _ _ h1, h2⟩
    | Composed cs =>
      simp only [Composed_Generator.pass, bind_ok_iff, Prod.exists] at h ⊢
      obtain ⟨ws, c1, h1, h2⟩ := h
      exact ⟨ws, c1, hchild _ _ _ _ h1, h2⟩

theorem composed_take_mono {ev ev' : Ev} (hle : EvLe ev ev')
    {child_take child_take' : Generator → Nat → Context → ResList}
    (hchild : ∀ g n ctx r, child_take g n ctx = .ok r → child_take' g n ctx = .ok r)
    (children : List Generator) :
    ∀ (rounds n : Nat) (ctx : Context) (r : List Value × Context),
      Composed_Generator.take ev child_take children rounds n ctx = .ok r →
      Composed_Generator.take ev' child_take' children rounds n ctx = .ok r := by
  intro rounds
  induction rounds with
  | zero =>
    intro n ctx r h
    simp [Composed_Generator.take] at h
  | succ k ih =>
    intro n ctx r h
    simp only [Composed_Generator.take, bind_ok_iff, Prod.exists] at h ⊢
    obtain ⟨ws, c1, more, h1, h2⟩ := h
    refine ⟨ws, c1, more, composed_pass_mono hle hchild _ _ _ _ h1, ?_⟩
    cases more with
    | none => exact h2
    | some m =>
      simp only [bind_ok_iff, Prod.exists] at h2 ⊢
      obtain ⟨us, c2, h3, h4⟩ := h2
      exact ⟨us, c2, ih _ _ _ h3, h4⟩

theorem take_at_mono {ev ev' : Ev} (hle : EvLe ev ev') :
    ∀ (d : Nat) (g : Generator) (n : Nat) (ctx : Context) (r : List Value × Context),
      Generator.take_at ev d g n ctx = .ok r → Generator.take_at ev' d g n ctx = .ok r := by
  intro d
  induction d with
  | zero =>
    intro g n ctx r h
    cases g with
    | Dynamic expr start =>
      simp only [Generator.take_at] at h ⊢
      exact dynamic_take_mono hle _ _ _ _ _ _ h
    | Circular value_set =>
      simp only [Generator.take_at] at h ⊢
      exact circular_take_mono hle _ _ _ _ _ h
    | Composed cs => simp [Generator.take_at] at h
  | succ k ih =>
    intro g n ctx r h
    cases g with
    | Dynamic expr start =>
      simp only [Generator.take_at] at h ⊢
      exact dynamic_take_mono hle _ _ _ _ _ _ h
    | Circular value_set =>
      simp only [Generator.take_at] at h ⊢
      exact circular_take_mono hle _ _ _ _ _ h
    | Composed cs =>
      simp only [Generator.take_at] at h ⊢
      exact composed_take_mono hle (fun g n c r hg => ih g n c r hg) _ _ _ _ _ h

theorem value_take_mono {ev ev' : Ev} (hle : EvLe ev ev') {self : Value} {n : Nat}
    {ctx : Context} {r : Value × Context} (h : self.take ev n ctx = .ok r) :
    self.take ev' n ctx = .ok r := by
  cases self with
  | sequence g =>
    simp only [Value.take, Generator.take, bind_ok_iff, Prod.exists] at h ⊢
    obtain ⟨vs, c1, h1, h2⟩ := h
    exact ⟨vs, c1, take_at_mono hle _ _ _ _ _ h1, h2⟩
  | _ => exact h

theorem take_form_mono {ev ev' : Ev} (hle : EvLe ev ev') {ctx : Context} {args : List Value}
    {r : Value × Context} (h : take_form ev ctx args = .ok r) :
    take_form ev' ctx args = .ok r := by
  simp only [take_form, bind_ok_iff, Prod.exists] at h ⊢
  obtain ⟨a0, h0, count, c1, h1, a1, h1', src, c2, h2, h3⟩ := h
  refine ⟨a0, h0, count, c1, hle _ _ _ h1, a1, h1', src, c2, hle _ _ _ h2, ?_⟩
  cases count with
  | integer c =>
    simp only at h3 ⊢
    split at h3
    · rename_i hc
      rw [if_pos hc]
      exact value_take_mono hle h3
    · simp at h3
  | _ => simp at h3

theorem tail_form_mono {ev ev' : Ev} (hle : EvLe ev ev') {ctx : Context} {args : List Value}
    {r : Value × Context} (h : tail_form ev ctx args = .ok r) :
    tail_form ev' ctx args = .ok r := by
  simp only [tail_form, bind_ok_iff, Prod.exists] at h ⊢
  obtain ⟨a0, h0, source, c1, h1, h2⟩ := h
  exact ⟨a0, h0, source, c1, hle _ _ _ h1, h2⟩

theorem fold_loop_mono {ev ev' : Ev} (hle : EvLe ev ev') :
    ∀ (els invoke : List Value) (ctx : Context) (r : List Value × Context),
      fold_loop ev invoke ctx els = .ok r → fold_loop ev' invoke ctx els = .ok r := by
  intro els
  induction els with
  | nil =>
    intro invoke ctx r h
    simpa [fold_loop] using h
  | cons el rest ih =>
    intro invoke ctx r h
    simp only [fold_loop, bind_ok_iff, Prod.exists] at h ⊢
    obtain ⟨w, c1, h1, h2⟩ := h
    exact ⟨w, c1, hle _ _ _ h1, ih _ _ _ h2⟩

theorem fold_form_mono {ev ev' : Ev} (hle : EvLe ev ev') {ctx : Context} {args : List Value}
    {r : Value × Context} (h : fold_form ev ctx args = .ok r) :
    fold_form ev' ctx args = .ok r := by
  simp only [fold_form, bind_ok_iff, Prod.exists] at h ⊢
  obtain ⟨a1, h0, coll, c1, h1, a0, h0', c0, hc0, invoke, c2, h2, h3⟩ := h
  exact ⟨a1, h0, coll, c1, hle _ _ _ h1, a0, h0', c0, hc0, invoke, c2,
    fold_loop_mono hle _ _ _ _ h2, h3⟩

theorem pop_form_mono {ev ev' : Ev} (hle : EvLe ev ev') {ctx : Context} {args : List Value}
    {r : Value × Context} (h : pop_form ev ctx args = .ok r) : pop_form ev' ctx args = .ok r := by
  simp only [pop_form, bind_ok_iff, Prod.exists] at h ⊢
  obtain ⟨a0, h0, count, c1, h1, a1, h1', coll, c2, h2, h3⟩ := h
  exact ⟨a0, h0, count, c1, hle _ _ _ h1, a1, h1', coll, c2, hle _ _ _ h2, h3⟩

theorem cpp_function_mono {ev ev' : Ev} (hle : EvLe ev ev') {fuel fuel' : Nat} {f : Intrinsic}
    {ctx : Context} {args : List Value} {r : Value × Context}
    (h : cpp_function ev fuel f ctx args = .ok r) : cpp_function ev' fuel' f ctx args = .ok r := by
  cases f <;> simp only [cpp_function] at h ⊢
  case add => exact math_operation_mono hle _ h
  case sub => exact math_operation_mono hle _ h
  case mul => exact math_operation_mono hle _ h
  case lt => exact comparison_mono hle _ h
  case le => exact comparison_mono hle _ h
  case ne => exact comparison_mono hle _ h
  case eq => exact comparison_mono hle _ h
  case do_ => exact do_form_mono hle _ _ _ h
  case def_ => exact def_form_mono hle h
  case print => exact print_form_mono hle h
  case fun_ => exact h
  case list => exact h
  case if_ => exact if_form_mono hle h
  case concat =>
    simp only [bind_ok_iff, Prod.exists] at h ⊢
    obtain ⟨vs, c1, h1, h2⟩ := h
    exact ⟨vs, c1, concat_form_mono hle _ _ _ h1, h2⟩
  case index => exact index_form_mono hle h
  case for_ => exact for_form_mono hle h
  case zip => exact zip_form_mono hle h
  case zip_with => exact zip_with_form_mono hle h
  case take => exact take_form_mono hle h
  case tail => exact tail_form_mono hle h
  case fold => exact fold_form_mono hle h
  case loop => exact absurd h (loop_form_never_ok _ _ _ _ _)
  case read => exact h
  case seq => exact h
  case seq_bang => exact h
  case pop => exact pop_form_mono hle h

theorem bind_formals_mono {ev ev' : Ev} (hle : EvLe ev ev') :
    ∀ (formals actuals : List Value) (ctx ctx' : Context),
      bind_formals ev ctx formals actuals = .ok ctx' →
      bind_formals ev' ctx formals actuals = .ok ctx' := by
  intro formals
  induction formals with
  | nil =>
    intro actuals ctx ctx' h
    cases actuals with
    | nil => simpa [bind_formals] using h
    | cons a as => simp [bind_formals] at h
  | cons f fs ih =>
    intro actuals ctx ctx' h
    cases actuals with
    | nil => simp [bind_formals] at h
    | cons a as =>
      cases f with
      | symbol s =>
        simp only [bind_formals, bind_ok_iff, Prod.exists] at h ⊢
        obtain ⟨w, c1, h1, c2, h2, h3⟩ := h
        exact ⟨w, c1, hle _ _ _ h1, c2, h2, ih _ _ _ h3⟩
      | _ => simp [bind_formals] at h

theorem apply_list_mono {ev ev' : Ev} (hle : EvLe ev ev') {ctx : Context}
    {callable actuals : List Value} {r : Value × Context}
    (h : apply_list ev ctx callable actuals = .ok r) :
    apply_list ev' ctx callable actuals = .ok r := by
  simp only [apply_list, bind_ok_iff] at h ⊢
  obtain ⟨formal, h0, h1⟩ := h
  refine ⟨formal, h0, ?_⟩
  cases formal with
  | list formals =>
    simp only [bind_ok_iff, Prod.exists] at h1 ⊢
    obtain ⟨c1, h2, body, hb, w, c2, h3, c3, h4, h5⟩ := h1
    exact ⟨c1, bind_formals_mono hle _ _ _ _ h2, body, hb, w, c2, hle _ _ _ h3, c3, h4, h5⟩
  | _ => simp at h1

theorem eval_list_cons (fuel : Nat) (ctx : Context) (front : Value) (rest : List Value) :
    eval (fuel + 1) ctx (.list (front :: rest)) =
      match eval fuel ctx front with
      | .error e => .error e
      | .ok (callable, ctx1) =>
        match callable with
        | .cpp f => cpp_function (eval fuel) fuel f ctx1 rest
        | .list c => apply_list (eval fuel) ctx1 c rest
        | _ => .ok (.list (front :: rest), ctx1) := rfl

theorem eval_succ_le : ∀ fuel : Nat, EvLe (eval fuel) (eval (fuel + 1)) := by
  intro fuel
  induction fuel with
  | zero =>
    intro ctx e r h
    simp [eval] at h
  | succ k ih =>
    intro ctx e r h
    cases e with
    | list l =>
      cases l with
      | nil => exact h
      | cons front rest =>
        rw [eval_list_cons] at h ⊢
        cases hf : eval k ctx front with
        | error err => simp [hf] at h
        | ok rc =>
          obtain ⟨callable, c1⟩ := rc
          rw [ih _ _ _ hf]
          simp only [hf] at h
          cases callable with
          | cpp f => exact cpp_function_mono ih h
          | list c => exact apply_list_mono ih h
          | _ => exact h
    | _ => exact h

theorem eval_mono {fuel : Nat} {ctx : Context} {e : Value} {r : Value × Context}
    (h : eval fuel ctx e = .ok r) : ∀ more : Nat, eval (fuel + more) ctx e = .ok r := by
  intro more
  induction more with
  | zero => exact h
  | succ k ih => exact eval_succ_le _ _ _ _ ih

mutual
theorem is_static_eq_not_occurs (v : Value) : v.is_static_expression = !occurs_n v := by
  cases v with
  | list l =>
    simp only [Value.is_static_expression, occurs_n]
    exact all_static_eq_not_occurs l
  | symbol s =>
    simp only [Value.is_static_expression, occurs_n]
    cases h : (s == "n") <;> simp [bne, h]
  | _ => simp [Value.is_static_expression, occurs_n]
theorem all_static_eq_not_occurs (l : List Value) : all_static l = !occurs_n_any l := by
  cases l with
  | nil => simp [all_static, occurs_n_any]
  | cons v vs =>
    simp only [all_static, occurs_n_any, Bool.not_or]
    rw [is_static_eq_not_occurs v, all_static_eq_not_occurs vs]
end

theorem all_static_iff (l : List Value) :
    all_static l = true ↔ ∀ a ∈ l, a.is_static_expression = true := by
  induction l with
  | nil => simp [all_static]
  | cons v vs ih => simp [all_static, ih]

theorem takeWhile_static_append (statics : List Value) (a : Value) (rest : List Value)
    (hs : ∀ s ∈ statics, s.is_static_expression = true) (ha : a.is_static_expression = false) :
    (statics ++ a :: rest).takeWhile Value.is_static_expression = statics ∧
      (statics ++ a :: rest).dropWhile Value.is_static_expression = a :: rest := by
  induction statics with
  | nil => simp [List.takeWhile, List.dropWhile, ha]
  | cons s ss ih =>
    have h1 : s.is_static_expression = true := hs s (List.mem_cons_self _ _)
    have h2 := ih (fun t ht => hs t (List.mem_cons_of_mem _ ht))
    simp [List.takeWhile, List.dropWhile, h1, h2.1, h2.2]

/-! ### Samples of generators -/

theorem push_assign_n (ctx : Context) (v : Value) :
    ctx.push.assign "n" v = .ok ⟨[("n", v)] :: ctx.scopes⟩ := rfl

theorem pop_after_sample {ev : Ev} (hev : FrameEv ev) {ctx c2 : Context} {i : Int}
    {e w : Value} (h : ev ⟨[("n", .integer i)] :: ctx.scopes⟩ e = .ok (w, c2)) :
    c2.pop = .ok ctx := by
  obtain ⟨hlen, htail, _⟩ := hev _ _ _ _ h
  obtain ⟨scopes⟩ := c2
  cases scopes with
  | nil => simp at hlen
  | cons s outer =>
    simp only [List.tail_cons] at htail
    subst htail
    rfl

theorem sample_eq_ok {ev : Ev} {ctx : Context} {i : Int} {e v : Value} :
    sample ev ctx i e = .ok v ↔ ∃ c2, ev ⟨[("n", .integer i)] :: ctx.scopes⟩ e = .ok (v, c2) := by
  unfold sample
  cases h : ev ⟨[("n", .integer i)] :: ctx.scopes⟩ e with
  | error err => simp
  | ok r =>
    obtain ⟨w, c⟩ := r
    simp

theorem dynamic_take_succ {ev : Ev} (hev : FrameEv ev) (e : Value) (start : Int) (i count : Nat)
    (ctx : Context) :
    Dynamic_Generator.take ev e start i (count + 1) ctx =
      (sample ev ctx (wrap64 (i + start)) e).bind fun v =>
        (Dynamic_Generator.take ev e start (i + 1) count ctx).bind fun r =>
          .ok (v :: r.1, r.2) := by
  simp only [Dynamic_Generator.take, push_assign_n, bind, Except.bind, sample]
  cases h : ev ⟨[("n", .integer (wrap64 (i + start)))] :: ctx.scopes⟩ e with
  | error err => rfl
  | ok r =>
    obtain ⟨w, c2⟩ := r
    simp only [pop_after_sample hev h]

theorem circular_take_succ {ev : Ev} (hev : FrameEv ev) (value_set : List Value) (i count : Nat)
    (ctx : Context) :
    Circular_Generator.take ev value_set i (count + 1) ctx =
      (Circular_Generator.element value_set i).bind fun e =>
        (sample ev ctx i e).bind fun v =>
          (Circular_Generator.take ev value_set (i + 1) count ctx).bind fun r =>
            .ok (v :: r.1, r.2) := by
  simp only [Circular_Generator.take, push_assign_n, bind, Except.bind, sample]
  cases he : Circular_Generator.element value_set i with
  | error err => rfl
  | ok e =>
    simp only
    cases h : ev ⟨[("n", .integer (i : Int))] :: ctx.scopes⟩ e with
    | error err => rfl
    | ok r =>
      obtain ⟨w, c2⟩ := r
      simp only [pop_after_sample hev h]

theorem dynamic_take_iff {ev : Ev} (hev : FrameEv ev) (e : Value) (start : Int) :
    ∀ (count i : Nat) (ctx ctx' : Context) (vs : List Value),
      Dynamic_Generator.take ev e start i count ctx = .ok (vs, ctx') ↔
        ctx' = ctx ∧ vs.length = count ∧
          ∀ j, j < count → ∃ v, vs.get? j = some v ∧
            sample ev ctx (wrap64 (((i + j : Nat) : Int) + start)) e = .ok v := by
  intro count
  induction count with
  | zero =>
    intro i ctx ctx' vs
    simp only [Dynamic_Generator.take, Except.ok.injEq, Prod.mk.injEq, Nat.not_lt_zero,
      false_implies, implies_true, and_true, List.length_eq_zero]
    constructor
    · rintro ⟨rfl, rfl⟩
      exact ⟨rfl, rfl⟩
    · rintro ⟨rfl, rfl⟩
      exact ⟨rfl, rfl⟩
  | succ k ih =>
    intro i ctx ctx' vs
    rw [dynamic_take_succ hev]
    constructor
    · intro h
      cases hs : sample ev ctx (wrap64 (i + start)) e with
      | error err => simp [hs, Except.bind] at h
      | ok v =>
        cases ht : Dynamic_Generator.take ev e start (i + 1) k ctx with
        | error err => simp [hs, ht, Except.bind] at h
        | ok r =>
          obtain ⟨ws, c⟩ := r
          simp only [hs, ht, Except.bind, Except.ok.injEq, Prod.mk.injEq] at h
          obtain ⟨rfl, rfl⟩ := h
          obtain ⟨hc, hl, hp⟩ := (ih (i + 1) ctx c ws).mp ht
          refine ⟨hc, by simp [hl], ?_⟩
          intro j hj
          cases j with
          | zero => exact ⟨v, rfl, by simpa using hs⟩
          | succ j =>
            obtain ⟨w, hw1, hw2⟩ := hp j (by omega)
            refine ⟨w, by simpa using hw1, ?_⟩
            have : i + 1 + j = i + (j + 1) := by omega
            rw [this] at hw2
            exact hw2
    · rintro ⟨rfl, hl, hp⟩
      cases vs with
      | nil => simp at hl
      | cons v ws =>
        obtain ⟨v0, h01, h02⟩ := hp 0 (by omega)
        simp only [List.get?_cons_zero, Option.some.injEq] at h01
        subst h01
        have hrec : Dynamic_Generator.take ev e start (i + 1) k ctx' = .ok (ws, ctx') := by
          refine (ih (i + 1) ctx' ctx' ws).mpr ⟨rfl, by simpa using hl, ?_⟩
          intro j hj
          obtain ⟨w, hw1, hw2⟩ := hp (j + 1) (by omega)
          refine ⟨w, by simpa using hw1, ?_⟩
          have : i + 1 + j = i + (j + 1) := by omega
          rw [this]
          exact hw2
        have h02' : sample ev ctx' (wrap64 (i + start)) e = .ok v := by simpa using h02
        simp [h02', hrec, Except.bind]

theorem circular_element_eq_ok {value_set : List Value} (hne : value_set ≠ []) (i : Nat)
    (e : Value) :
    Circular_Generator.element value_set i = .ok e ↔
      value_set.get? (i % value_set.length) = some e := by
  have hlen : value_set.length ≠ 0 := by
    intro h
    exact hne (List.length_eq_zero.mp h)
  unfold Circular_Generator.element at_
  rw [if_neg hlen]
  cases h : value_set.get? (i % value_set.length) with
  | none => simp
  | some v => simp

theorem circular_take_iff {ev : Ev} (hev : FrameEv ev) (value_set : List Value)
    (hne : value_set ≠ []) :
    ∀ (count i : Nat) (ctx ctx' : Context) (rs : List Value),
      Circular_Generator.take ev value_set i count ctx = .ok (rs, ctx') ↔
        ctx' = ctx ∧ rs.length = count ∧
          ∀ j, j < count → ∃ e v, value_set.get? ((i + j) % value_set.length) = some e ∧
            rs.get? j = some v ∧ sample ev ctx ((i + j : Nat) : Int) e = .ok v := by
  intro count
  induction count with
  | zero =>
    intro i ctx ctx' rs
    simp only [Circular_Generator.take, Except.ok.injEq, Prod.mk.injEq, Nat.not_lt_zero,
      false_implies, implies_true, and_true, List.length_eq_zero]
    constructor
    · rintro ⟨rfl, rfl⟩
      exact ⟨rfl, rfl⟩
    · rintro ⟨rfl, rfl⟩
      exact ⟨rfl, rfl⟩
  | succ k ih =>
    intro i ctx ctx' rs
    rw [circular_take_succ hev]
    constructor
    · intro h
      cases he : Circular_Generator.element value_set i with
      | error err => simp [he, Except.bind] at h
      | ok e =>
        cases hs : sample ev ctx (i : Int) e with
        | error err => simp [he, hs, Except.bind] at h
        | ok v =>
          cases ht : Circular_Generator.take ev value_set (i + 1) k ctx with
          | error err => simp [he, hs, ht, Except.bind] at h
          | ok r =>
            obtain ⟨ws, c⟩ := r
            simp only [he, hs, ht, Except.bind, Except.ok.injEq, Prod.mk.injEq] at h
            obtain ⟨rfl, rfl⟩ := h
            obtain ⟨hc, hl, hp⟩ := (ih (i + 1) ctx c ws).mp ht
            refine ⟨hc, by simp [hl], ?_⟩
            intro j hj
            cases j with
            | zero =>
              exact ⟨e, v, by simpa using (circular_element_eq_ok hne i e).mp he, rfl,
                by simpa using hs⟩
            | succ j =>
              obtain ⟨e', w, he', hw1, hw2⟩ := hp j (by omega)
              have hidx : i + 1 + j = i + (j + 1) := by omega
              rw [hidx] at he' hw2
              exact ⟨e', w, he', by simpa using hw1, hw2⟩
    · rintro ⟨rfl, hl, hp⟩
      cases rs with
      | nil => simp at hl
      | cons v ws =>
        obtain ⟨e0, v0, he0, h01, h02⟩ := hp 0 (by omega)
        simp only [List.get?_cons_zero, Option.some.injEq] at h01
        subst h01
        have hrec : Circular_Generator.take ev value_set (i + 1) k ctx' = .ok (ws, ctx') := by
          refine (ih (i + 1) ctx' ctx' ws).mpr ⟨rfl, by simpa using hl, ?_⟩
          intro j hj
          obtain ⟨e', w, he', hw1, hw2⟩ := hp (j + 1) (by omega)
          have hidx : i + 1 + j = i + (j + 1) := by omega
          rw [hidx]
          exact ⟨e', w, he', by simpa using hw1, hw2⟩
        have he : Circular_Generator.element value_set i = .ok e0 :=
          (circular_element_eq_ok hne i e0).mpr (by simpa using he0)
        have h02' : sample ev ctx' (i : Int) e0 = .ok v := by simpa using h02
        simp [he, h02', hrec, Except.bind]

theorem wrap64_add_wrap64 (a b : Int) : wrap64 (a + wrap64 b) = wrap64 (a + b) := by
  unfold wrap64
  omega

theorem wrap64_of_range (x : Int) (h1 : -9223372036854775808 ≤ x) (h2 : x < 9223372036854775808) :
    wrap64 x = x := by
  unfold wrap64
  omega

theorem dynamic_take_after_pop {ev : Ev} (hev : FrameEv ev) (e : Value) (start : Int)
    (k m : Nat) (ctx ctx' : Context) (vs : List Value)
    (h : Dynamic_Generator.take ev e start 0 (k + m) ctx = .ok (vs, ctx')) :
    Dynamic_Generator.take ev e (wrap64 (start + k)) 0 m ctx = .ok (vs.drop k, ctx') := by
  obtain ⟨hc, hl, hp⟩ := (dynamic_take_iff hev e start (k + m) 0 ctx ctx' vs).mp h
  refine (dynamic_take_iff hev e _ m 0 ctx ctx' (vs.drop k)).mpr ⟨hc, by simp [hl], ?_⟩
  intro j hj
  obtain ⟨v, hv1, hv2⟩ := hp (k + j) (by omega)
  refine ⟨v, by simpa using hv1, ?_⟩
  have hidx : wrap64 (((0 + j : Nat) : Int) + wrap64 (start + k)) =
      wrap64 (((0 + (k + j) : Nat) : Int) + start) := by
    rw [wrap64_add_wrap64]
    congr 1
    push_cast
    omega
  rw [hidx]
  exact hv2

theorem generator_take_dynamic (ev : Ev) (e : Value) (start : Int) (n : Nat) (ctx : Context) :
    Generator.take ev (.Dynamic e start) n ctx = Dynamic_Generator.take ev e start 0 n ctx := rfl

theorem generator_take_circular (ev : Ev) (value_set : List Value) (n : Nat) (ctx : Context) :
    Generator.take ev (.Circular value_set) n ctx =
      Circular_Generator.take ev value_set 0 n ctx := rfl

theorem circular_pop_loop_eq_drop : ∀ (n : Nat) (value_set : List Value),
    Circular_Generator.pop_loop n value_set = value_set.drop (n + 1) := by
  intro n
  induction n with
  | zero =>
    intro value_set
    cases value_set <;> rfl
  | succ k ih =>
    intro value_set
    rw [Circular_Generator.pop_loop, ih]
    cases value_set with
    | nil => simp
    | cons v vs => simp

theorem eval_each_length {ev : Ev} :
    ∀ (es : List Value) (ctx ctx' : Context) (vs : List Value),
      eval_each ev ctx es = .ok (vs, ctx') → vs.length = es.length := by
  intro es
  induction es with
  | nil =>
    intro ctx ctx' vs h
    simp only [eval_each, Except.ok.injEq, Prod.mk.injEq] at h
    rw [← h.1]
  | cons e es ih =>
    intro ctx ctx' vs h
    obtain ⟨v, c1, ws, _, h2, rfl⟩ := eval_each_cons_ok.mp h
    simp [ih _ _ _ h2]

theorem generator_take_composed_pair (ev : Ev) (statics : List Value) (e : Value) (start : Int)
    (c : Nat) (ctx : Context) :
    Generator.take ev (.Composed [.Circular statics, .Dynamic e start]) c ctx =
      (eval_each ev ctx (statics.take c)).bind fun r =>
        if c ≤ statics.length then .ok r
        else (Dynamic_Generator.take ev e start 0 (c - statics.length) r.2).bind fun r2 =>
          .ok (r.1 ++ r2.1, r2.2) := by
  have hd : Generator.depth (.Composed [.Circular statics, .Dynamic e start]) = 1 := rfl
  simp only [Generator.take, hd, Generator.take_at, Composed_Generator.take,
    Composed_Generator.pass, bind, Except.bind]
  by_cases hc : c ≤ statics.length
  · have hmin : min statics.length c = c := Nat.min_eq_right hc
    simp only [hmin, if_pos hc, if_true]
    cases eval_each ev ctx (statics.take c) with
    | error err => rfl
    | ok r => rfl
  · have hlt : statics.length < c := Nat.lt_of_not_le hc
    have hmin : min statics.length c = statics.length := Nat.min_eq_left (Nat.le_of_lt hlt)
    have hne : ¬ statics.length = c := Nat.ne_of_lt hlt
    have htake : statics.take c = statics.take statics.length := by
      rw [List.take_length, List.take_of_length_le (Nat.le_of_lt hlt)]
    simp only [hmin, if_neg hc, if_neg hne, htake]
    cases eval_each ev ctx (statics.take statics.length) with
    | error err => rfl
    | ok r =>
      simp only
      cases Dynamic_Generator.take ev e start 0 (c - statics.length) r.2 with
      | error err => rfl
      | ok r2 => rfl

/-! ### `zip` and `++` -/

theorem eval_lists_of_eval_each {ev : Ev} :
    ∀ (args : List Value) (lists : List (List Value)) (ctx ctx' : Context),
      eval_each ev ctx args = .ok (lists.map Value.list, ctx') →
      eval_lists ev ctx args = .ok (lists, ctx') := by
  intro args
  induction args with
  | nil =>
    intro lists ctx ctx' h
    simp only [eval_each, Except.ok.injEq, Prod.mk.injEq] at h
    obtain ⟨h1, rfl⟩ := h
    cases lists with
    | nil => rfl
    | cons l ls => simp at h1
  | cons a as ih =>
    intro lists ctx ctx' h
    obtain ⟨v, c1, ws, h1, h2, h3⟩ := eval_each_cons_ok.mp h
    cases lists with
    | nil => simp at h3
    | cons l ls =>
      simp only [List.map_cons, List.cons.injEq] at h3
      obtain ⟨rfl, rfl⟩ := h3
      simp [eval_lists, bind, Except.bind, h1, ih ls c1 ctx' h2]

theorem heads_eq_some_iff : ∀ (lists : List (List Value)) (row : List Value),
    heads lists = some row ↔
      (∀ l ∈ lists, l ≠ []) ∧ row = lists.map fun l => l.getD 0 .nil := by
  intro lists
  induction lists with
  | nil =>
    intro row
    simp [heads, eq_comm]
  | cons l ls ih =>
    intro row
    cases l with
    | nil => simp [heads]
    | cons x xs =>
      cases hh : heads ls with
      | none =>
        simp only [heads, hh, List.mem_cons, forall_eq_or_imp, ne_eq, reduceCtorEq,
          not_false_eq_true, true_and, List.map_cons, false_iff, not_and]
        intro hall
        have := (ih (ls.map fun l => l.getD 0 .nil)).mpr ⟨hall, rfl⟩
        rw [hh] at this
        cases this
      | some xs' =>
        obtain ⟨hall, hrow⟩ := (ih xs').mp hh
        simp only [heads, hh, Option.some.injEq, List.mem_cons, forall_eq_or_imp, ne_eq,
          reduceCtorEq, not_false_eq_true, true_and, List.map_cons, List.getD_cons_zero]
        constructor
        · rintro rfl
          exact ⟨hall, by rw [hrow]⟩
        · rintro ⟨_, rfl⟩
          rw [hrow]

theorem heads_eq_none_iff (lists : List (List Value)) :
    heads lists = none ↔ ∃ l ∈ lists, l = [] := by
  cases hh : heads lists with
  | none =>
    simp only [true_iff]
    by_contra hcon
    have hall : ∀ l ∈ lists, l ≠ [] := fun l hl h => hcon ⟨l, hl, h⟩
    have := (heads_eq_some_iff lists _).mpr ⟨hall, rfl⟩
    rw [hh] at this
    cases this
  | some row =>
    simp only [reduceCtorEq, false_iff, not_exists, not_and]
    exact fun l hl => ((heads_eq_some_iff lists row).mp hh).1 l hl

theorem tail_getD (l : List Value) (j : Nat) (d : Value) :
    l.tail.getD j d = l.getD (j + 1) d := by
  cases l <;> rfl

theorem dangling_begin_eq_any : ∀ lists : List (List Value),
    dangling_begin lists = lists.dropLast.any List.isEmpty
  | [] => rfl
  | [_] => rfl
  | l :: l2 :: rest => by
    rw [dangling_begin, dangling_begin_eq_any (l2 :: rest), List.dropLast_cons₂, List.any_cons]

theorem zip_rows_spec : ∀ (rounds : Nat) (lists : List (List Value)),
    (∃ l ∈ lists, l.length ≤ rounds) →
    ∃ rows, zip_rows rounds lists = .ok rows ∧
      (∀ l ∈ lists, rows.length ≤ l.length) ∧ (∃ l ∈ lists, l.length = rows.length) ∧
      ∀ j, j < rows.length →
        rows.get? j = some (.list (lists.map fun l => l.getD j .nil)) := by
  intro rounds
  induction rounds with
  | zero =>
    intro lists ⟨l, hl, hlen⟩
    have hnil : l = [] := List.length_eq_zero.mp (Nat.le_zero.mp hlen)
    have hh : heads lists = none := (heads_eq_none_iff lists).mpr ⟨l, hl, hnil⟩
    refine ⟨[], by rw [zip_rows, hh], by simp, ⟨l, hl, by simp [hnil]⟩, by simp⟩
  | succ k ih =>
    intro lists ⟨l, hl, hlen⟩
    cases hh : heads lists with
    | none =>
      obtain ⟨l0, hl0, hnil⟩ := (heads_eq_none_iff lists).mp hh
      refine ⟨[], by rw [zip_rows, hh], by simp, ⟨l0, hl0, by simp [hnil]⟩, by simp⟩
    | some row =>
      obtain ⟨hall, hrow⟩ := (heads_eq_some_iff lists row).mp hh
      obtain ⟨rows', hr, hle, ⟨t, ht, htl⟩, hp⟩ := ih (lists.map List.tail)
        ⟨l.tail, List.mem_map_of_mem _ hl, by rw [List.length_tail]; omega⟩
      obtain ⟨l1, hl1, rfl⟩ := List.mem_map.mp ht
      refine ⟨.list row :: rows', ?_, ?_, ⟨l1, hl1, ?_⟩, ?_⟩
      · rw [zip_rows, hh]
        simp [bind, Except.bind, hr]
      · intro l2 hl2
        have h1 := hle l2.tail (List.mem_map_of_mem _ hl2)
        have h2 : l2.length ≠ 0 := fun h => hall l2 hl2 (List.length_eq_zero.mp h)
        rw [List.length_tail] at h1
        simp only [List.length_cons]
        omega
      · have h2 : l1.length ≠ 0 := fun h => hall l1 hl1 (List.length_eq_zero.mp h)
        rw [List.length_tail] at htl
        simp only [List.length_cons]
        omega
      · intro j hj
        cases j with
        | zero => simp [hrow]
        | succ j =>
          have := hp j (by simpa using hj)
          simp only [List.get?_cons_succ, this, List.map_map, Option.some.injEq,
            Value.list.injEq]
          apply List.map_congr_left
          intro l2 _
          exact tail_getD l2 j .nil

theorem contributions_length (vs : List Value) :
    (contributions vs).length = (vs.map fun v => (contribution v).length).sum := by
  induction vs with
  | nil => rfl
  | cons v vs ih => simp [contributions, ih]

theorem contributions_eq_nil (vs : List Value) (h : ∀ v ∈ vs, contribution v = []) :
    contributions vs = [] := by
  induction vs with
  | nil => rfl
  | cons v vs ih =>
    simp [contributions, h v (List.mem_cons_self _ _),
      ih fun w hw => h w (List.mem_cons_of_mem _ hw)]

theorem concat_form_spec {ev : Ev} :
    ∀ (args vs : List Value) (ctx ctx' : Context),
      eval_each ev ctx args = .ok (vs, ctx') →
      concat_form ev ctx args = .ok (contributions vs, ctx') := by
  intro args
  induction args with
  | nil =>
    intro vs ctx ctx' h
    simp only [eval_each, Except.ok.injEq, Prod.mk.injEq] at h
    obtain ⟨rfl, rfl⟩ := h
    rfl
  | cons a as ih =>
    intro vs ctx ctx' h
    obtain ⟨v, c1, ws, h1, h2, rfl⟩ := eval_each_cons_ok.mp h
    simp only [concat_form, bind, Except.bind, h1, ih ws c1 ctx' h2]
    cases v <;> rfl

/-! ## The reader on well-formed forms -/

/-! ### The reader -/

theorem char_eq_iff_toNat (c d : Char) : c = d ↔ c.toNat = d.toNat := by
  constructor
  · rintro rfl
    rfl
  · intro h
    apply Char.ext
    cases c with
    | mk cv ch =>
      cases d with
      | mk dv dh =>
        simp only [Char.toNat] at h
        cases cv with
        | mk cb =>
          cases dv with
          | mk db =>
            simp only [UInt32.toNat] at h
            have : cb = db := BitVec.eq_of_toNat_eq h
            subst this
            rfl

theorem valid_symbol_char_iff (c : Char) : Valid_Symbol_Char.contains c = true ↔
    (c.toNat = 43 ∨ c.toNat = 45 ∨ c.toNat = 42 ∨ c.toNat = 47 ∨ c.toNat = 37 ∨ c.toNat = 36 ∨
      c.toNat = 64 ∨ c.toNat = 33 ∨ c.toNat = 94 ∨ c.toNat = 38 ∨ c.toNat = 91 ∨ c.toNat = 93 ∨
      c.toNat = 58 ∨ c.toNat = 59 ∨ c.toNat = 60 ∨ c.toNat = 62 ∨ c.toNat = 44 ∨ c.toNat = 46 ∨
      c.toNat = 124 ∨ c.toNat = 61) := by
  simp only [Valid_Symbol_Char, List.contains_cons, List.contains_nil, Bool.or_false,
    Bool.or_eq_true, beq_iff_eq, char_eq_iff_toNat c]
  rfl

theorem isspace_iff (c : Char) :
    isspace c = true ↔ (c.toNat = 32 ∨ (9 ≤ c.toNat ∧ c.toNat ≤ 13)) := by
  simp [isspace]

theorem isdigit_iff (c : Char) : isdigit c = true ↔ (48 ≤ c.toNat ∧ c.toNat ≤ 57) := by
  simp [isdigit]

theorem is_symbol_start_iff (c : Char) : is_symbol_start c = true ↔
    ((65 ≤ c.toNat ∧ c.toNat ≤ 90) ∨ (97 ≤ c.toNat ∧ c.toNat ≤ 122) ∨
      Valid_Symbol_Char.contains c = true) := by
  simp [is_symbol_start, isalpha, or_assoc]

theorem is_symbol_char_iff (c : Char) : is_symbol_char c = true ↔
    ((65 ≤ c.toNat ∧ c.toNat ≤ 90) ∨ (97 ≤ c.toNat ∧ c.toNat ≤ 122) ∨
      (48 ≤ c.toNat ∧ c.toNat ≤ 57) ∨ Valid_Symbol_Char.contains c = true) := by
  simp [is_symbol_char, isalnum, isalpha, isdigit, or_assoc]

theorem isdigit_facts {c : Char} (h : isdigit c = true) :
    isspace c = false ∧ c ≠ '#' ∧ c ≠ quote_char ∧ c ≠ '-' ∧ is_symbol_char c = true := by
  rw [isdigit_iff] at h
  refine ⟨?_, ?_, ?_, ?_, ?_⟩
  · cases hs : isspace c with
    | false => rfl
    | true =>
      rw [isspace_iff] at hs
      omega
  · intro he
    have := (char_eq_iff_toNat c '#').mp he
    have h35 : ('#' : Char).toNat = 35 := rfl
    omega
  · intro he
    have := (char_eq_iff_toNat c quote_char).mp he
    have h34 : quote_char.toNat = 34 := rfl
    omega
  · intro he
    have := (char_eq_iff_toNat c '-').mp he
    have h45 : ('-' : Char).toNat = 45 := rfl
    omega
  · rw [is_symbol_char_iff]
    exact Or.inr (Or.inr (Or.inl h))

theorem is_symbol_start_facts {c : Char} (h : is_symbol_start c = true) :
    isspace c = false ∧ c ≠ '#' ∧ c ≠ quote_char ∧ isdigit c = false := by
  rw [is_symbol_start_iff, valid_symbol_char_iff] at h
  refine ⟨?_, ?_, ?_, ?_⟩
  · cases hs : isspace c with
    | false => rfl
    | true =>
      rw [isspace_iff] at hs
      omega
  · intro he
    have := (char_eq_iff_toNat c '#').mp he
    have h35 : ('#' : Char).toNat = 35 := rfl
    omega
  · intro he
    have := (char_eq_iff_toNat c quote_char).mp he
    have h34 : quote_char.toNat = 34 := rfl
    omega
  · cases hd : isdigit c with
    | false => rfl
    | true =>
      rw [isdigit_iff] at hd
      omega

theorem isspace_not_symbol_char {c : Char} (h : isspace c = true) : is_symbol_char c = false := by
  rw [isspace_iff] at h
  cases hs : is_symbol_char c with
  | false => rfl
  | true =>
    rw [is_symbol_char_iff, valid_symbol_char_iff] at hs
    omega

theorem not_symbol_char_not_digit {c : Char} (h : is_symbol_char c = false) :
    isdigit c = false := by
  cases hd : isdigit c with
  | false => rfl
  | true =>
    rw [(isdigit_facts hd).2.2.2.2] at h
    cases h

theorem skip_space_append (pre s : List Char) (h : ∀ c ∈ pre, isspace c = true) :
    skip_space (pre ++ s) = skip_space s := by
  induction pre with
  | nil => rfl
  | cons c cs ih =>
    have hc : isspace c = true := h c (List.mem_cons_self _ _)
    simp only [List.cons_append, skip_space, hc, if_true]
    exact ih fun d hd => h d (List.mem_cons_of_mem _ hd)

theorem skip_space_stop (c : Char) (s : List Char) (h1 : isspace c = false) (h2 : c ≠ '#') :
    skip_space (c :: s) = .ok (c :: s) := by
  simp [skip_space, h1, h2]

theorem read_digits_append (ds r : List Char) (hd : ∀ c ∈ ds, isdigit c = true)
    (hr : delimited r) :
    ∀ acc, read_digits acc (ds ++ r) =
      (ds.foldl (fun acc c => acc * 10 + (c.toNat - 48)) acc, r) := by
  induction ds with
  | nil =>
    intro acc
    cases r with
    | nil => rfl
    | cons c cs =>
      have : isdigit c = false := not_symbol_char_not_digit hr
      simp [read_digits, this]
  | cons d ds ih =>
    intro acc
    have h1 : isdigit d = true := hd d (List.mem_cons_self _ _)
    simp only [List.cons_append, read_digits, h1, if_true, List.foldl_cons]
    exact ih (fun c hc => hd c (List.mem_cons_of_mem _ hc)) _

theorem symbol_chars_append (cs r : List Char) (h : ∀ c ∈ cs, is_symbol_char c = true)
    (hr : delimited r) :
    (cs ++ r).takeWhile is_symbol_char = cs ∧ (cs ++ r).dropWhile is_symbol_char = r := by
  induction cs with
  | nil =>
    cases r with
    | nil => simp
    | cons c cs =>
      have hc : is_symbol_char c = false := hr
      simp [List.takeWhile, List.dropWhile, hc]
  | cons c cs ih =>
    have h1 : is_symbol_char c = true := h c (List.mem_cons_self _ _)
    have h2 := ih fun d hd => h d (List.mem_cons_of_mem _ hd)
    simp [List.takeWhile, List.dropWhile, h1, h2.1, h2.2]

theorem read_elements_stop {rd : List Char → Except Err (Value × List Char)} {s s' : List Char}
    (h : rd s = .ok (.nil, s')) (rounds : Nat) :
    read_elements rd (rounds + 1) s = .ok ([], s') := by
  simp [read_elements, bind, Except.bind, h]

theorem read_elements_step {rd : List Char → Except Err (Value × List Char)} {s s' : List Char}
    {v : Value} (h : rd s = .ok (v, s')) (hv : v ≠ .nil) (rounds : Nat) :
    read_elements rd (rounds + 1) s =
      (read_elements rd rounds s').bind fun r => .ok (v :: r.1, r.2) := by
  cases v with
  | nil => exact absurd rfl hv
  | _ => simp [read_elements, bind, Except.bind, h]

theorem form_value_ne_nil (f : Form) : f.value ≠ .nil := by
  cases f <;> simp [Form.value]

theorem decimal_eq_foldl (digits : List Char) :
    decimal digits = digits.foldl (fun acc c => acc * 10 + (c.toNat - 48)) 0 := rfl

theorem read_token_int (rd : List Char → Except Err (Value × List Char)) (rounds : Nat)
    (negative : Bool) (digits r : List Char) (hwf : (Form.int negative digits).well_formed)
    (hr : delimited r) :
    read_token rd rounds ((Form.int negative digits).text ++ r) =
      .ok ((Form.int negative digits).value, r) := by
  obtain ⟨hne, hd, hrange⟩ := hwf
  cases digits with
  | nil => exact absurd rfl hne
  | cons d ds =>
    have hd1 : isdigit d = true := hd d (List.mem_cons_self _ _)
    obtain ⟨_, _, hq, hm, _⟩ := isdigit_facts hd1
    have hdig := read_digits_append (d :: ds) r hd hr 0
    rw [← decimal_eq_foldl] at hdig
    cases negative with
    | false =>
      simp only [Bool.false_eq_true, if_false] at hrange
      have hstore : store_int64 ((decimal (d :: ds) : Nat) : Int) = (decimal (d :: ds) : Nat) := by
        unfold store_int64
        rw [if_pos]
        omega
      simp only [Form.text, Bool.false_eq_true, if_false, List.nil_append, List.cons_append]
        at hdig ⊢
      simp [read_token, hq, hd1, from_chars, hm, hdig, hstore, Form.value]
    | true =>
      simp only [if_true] at hrange
      have hstore : store_int64 (-((decimal (d :: ds) : Nat) : Int)) =
          -((decimal (d :: ds) : Nat) : Int) := by
        unfold store_int64
        rw [if_pos]
        omega
      have hmq : ('-' : Char) ≠ quote_char := by decide
      have hmd : isdigit '-' = false := by decide
      simp only [Form.text, if_true, List.cons_append, List.nil_append] at hdig ⊢
      simp [read_token, hmq, hmd, second_is_digit, hd1, from_chars, hdig, hstore, Form.value]

theorem read_token_sym (rd : List Char → Except Err (Value × List Char)) (rounds : Nat)
    (first : Char) (others r : List Char) (hwf : (Form.sym first others).well_formed)
    (hr : delimited r) :
    read_token rd rounds ((Form.sym first others).text ++ r) =
      .ok ((Form.sym first others).value, r) := by
  obtain ⟨hs, hc, hminus⟩ := hwf
  obtain ⟨_, _, hq, hd⟩ := is_symbol_start_facts hs
  obtain ⟨ht, hdrop⟩ := symbol_chars_append others r hc hr
  have hsecond : (first = '-' && second_is_digit (others ++ r)) = false := by
    cases hf : decide (first = '-') with
    | false => simp [of_decide_eq_false hf]
    | true =>
      have hf' : first = '-' := of_decide_eq_true hf
      have hso : second_is_digit others = false := by
        cases h : second_is_digit others with
        | false => rfl
        | true => exact absurd ⟨hf', h⟩ hminus
      cases others with
      | nil =>
        cases r with
        | nil => simp [second_is_digit]
        | cons c cs =>
          have : isdigit c = false := not_symbol_char_not_digit hr
          simp [second_is_digit, this]
      | cons o os =>
        simp only [second_is_digit] at hso
        simp [second_is_digit, hso]
  simp only [Form.text, List.cons_append, Form.value]
  simp only [read_token, hq, if_false, hd, Bool.false_or, hsecond, Bool.false_eq_true, hs,
    if_true, ht, hdrop]

theorem read_token_open (rd : List Char → Except Err (Value × List Char)) (rounds : Nat)
    (s : List Char) :
    read_token rd rounds ('(' :: s) =
      (read_elements rd rounds s).bind fun r => .ok (.list r.1, r.2) := by
  have h1 : ('(' : Char) ≠ quote_char := by decide
  have h2 : isdigit '(' = false := by decide
  have h3 : ('(' : Char) ≠ '-' := by decide
  have h4 : is_symbol_start '(' = false := by decide
  simp only [read_token, h1, if_false, h2, h3, decide_False, Bool.false_and, Bool.or_self,
    Bool.false_eq_true, h4, if_true, bind, Except.bind]

theorem read_token_close (rd : List Char → Except Err (Value × List Char)) (rounds : Nat)
    (s : List Char) : read_token rd rounds (')' :: s) = .ok (.nil, s) := by
  have h1 : (')' : Char) ≠ quote_char := by decide
  have h2 : isdigit ')' = false := by decide
  have h3 : (')' : Char) ≠ '-' := by decide
  have h4 : is_symbol_start ')' = false := by decide
  have h5 : (')' : Char) ≠ '(' := by decide
  simp [read_token, h1, h2, h3, h4, h5]

theorem form_text_head (f : Form) (hwf : f.well_formed) :
    ∃ c cs, f.text = c :: cs ∧ isspace c = false ∧ c ≠ '#' := by
  cases f with
  | int negative digits =>
    obtain ⟨hne, hd, _⟩ := hwf
    cases negative with
    | true => exact ⟨'-', digits, by simp [Form.text], by decide, by decide⟩
    | false =>
      cases digits with
      | nil => exact absurd rfl hne
      | cons d ds =>
        obtain ⟨h1, h2, _⟩ := isdigit_facts (hd d (List.mem_cons_self _ _))
        exact ⟨d, ds, by simp [Form.text], h1, h2⟩
  | sym first others =>
    obtain ⟨h1, h2, _⟩ := is_symbol_start_facts hwf.1
    exact ⟨first, others, rfl, h1, h2⟩
  | list items close => exact ⟨'(', _, rfl, by decide, by decide⟩

theorem delimited_after_item (rest : Items) (close r : List Char) (hs : rest.separated)
    (hrest : rest.well_formed) (hclose : ∀ c ∈ close, isspace c = true) :
    delimited (rest.text ++ close ++ ')' :: r) := by
  cases rest with
  | nil =>
    cases close with
    | nil =>
      show is_symbol_char ')' = false
      decide
    | cons c cs => exact isspace_not_symbol_char (hclose c (List.mem_cons_self _ _))
  | cons before item rest2 =>
    cases before with
    | nil => exact absurd rfl hs
    | cons c cs =>
      simp only [Items.well_formed] at hrest
      exact isspace_not_symbol_char (hrest.1 c (List.mem_cons_self _ _))

theorem read_close (fuel : Nat) (close r : List Char) (hclose : ∀ c ∈ close, isspace c = true) :
    read (fuel + 1) (close ++ ')' :: r) = .ok (.nil, r) := by
  have hskip : skip_space (close ++ ')' :: r) = .ok (')' :: r) := by
    rw [skip_space_append close _ hclose]
    exact skip_space_stop ')' r (by decide) (by decide)
  simp only [read, bind, Except.bind, hskip]
  exact read_token_close _ _ _

mutual
theorem read_of_form (f : Form) (hwf : f.well_formed) (fuel : Nat) (pre r : List Char)
    (hfuel : f.cost ≤ fuel) (hpre : ∀ c ∈ pre, isspace c = true)
    (hr : f.is_atom → delimited r) :
    read fuel (pre ++ f.text ++ r) = .ok (f.value, r) := by
  cases fuel with
  | zero => cases f <;> simp [Form.cost] at hfuel
  | succ k =>
    have hskip : skip_space (pre ++ f.text ++ r) = .ok (f.text ++ r) := by
      obtain ⟨c, cs, htext, hc1, hc2⟩ := form_text_head f hwf
      rw [List.append_assoc, skip_space_append pre _ hpre, htext, List.cons_append]
      exact skip_space_stop c _ hc1 hc2
    simp only [read, bind, Except.bind, hskip]
    match f, hwf, hfuel, hr with
    | .int negative digits, hwf, _, hr => exact read_token_int _ _ _ _ _ hwf (hr trivial)
    | .sym first others, hwf, _, hr => exact read_token_sym _ _ _ _ _ hwf (hr trivial)
    | .list items close, hwf, hfuel, _ =>
      have hw : items.well_formed ∧ ∀ c ∈ close, isspace c = true := hwf
      have hcost : items.cost + 1 ≤ k := by
        simp only [Form.cost] at hfuel
        omega
      have htxt : (Form.list items close).text ++ r =
          '(' :: (items.text ++ close ++ ')' :: r) := by
        simp [Form.text]
      rw [htxt, read_token_open, read_elements_of_items items hw.1 k k close r hcost hcost hw.2]
      rfl
theorem read_elements_of_items (items : Items) (hwf : items.well_formed) (fuel rounds : Nat)
    (close r : List Char) (hfuel : items.cost + 1 ≤ fuel) (hrounds : items.cost + 1 ≤ rounds)
    (hclose : ∀ c ∈ close, isspace c = true) :
    read_elements (read fuel) rounds (items.text ++ close ++ ')' :: r) =
      .ok (items.values, r) := by
  cases rounds with
  | zero => omega
  | succ k =>
    match items, hwf, hfuel, hrounds with
    | .nil, _, hfuel, _ =>
      cases fuel with
      | zero => omega
      | succ j =>
        have hread : read (j + 1) (Items.nil.text ++ close ++ ')' :: r) = .ok (.nil, r) := by
          simpa [Items.text] using read_close j close r hclose
        exact read_elements_stop hread k
    | .cons before item rest, hwf, hfuel, hrounds =>
      have hw : (∀ c ∈ before, isspace c = true) ∧ item.well_formed ∧ rest.well_formed ∧
          rest.separated := hwf
      simp only [Items.cost] at hfuel hrounds
      have hread := read_of_form item hw.2.1 fuel before (rest.text ++ close ++ ')' :: r)
        (by omega) hw.1 (fun _ => delimited_after_item rest close r hw.2.2.2 hw.2.2.1 hclose)
      have htxt : (Items.cons before item rest).text ++ close ++ ')' :: r =
          before ++ item.text ++ (rest.text ++ close ++ ')' :: r) := by
        simp [Items.text]
      rw [htxt, read_elements_step hread (form_value_ne_nil item) k,
        read_elements_of_items rest hw.2.2.1 fuel k close r (by omega) (by omega) hclose]
      rfl
end

/-- An integer token beyond the 64-bit range reads as the Int 0: `from_chars`
consumes its digits and stores nothing. -/
theorem read_literal_out_of_range :
    read 3 "(99999999999999999999)".toList = .ok (.list [.integer 0], []) := rfl

/-! ## String literals, progress and termination of the reader -/

theorem find_closing_quote_cons : ∀ (cs : List Char) (c : Char),
    find_closing_quote (c :: cs) = closing_quote c cs := by
  intro cs
  induction cs with
  | nil =>
    intro c
    rfl
  | cons d ds ih =>
    intro c
    rw [find_closing_quote, closing_quote, ih d]
    by_cases h : c ≠ backslash_char ∧ d = quote_char
    · rw [if_pos h, if_pos ⟨h.2, h.1⟩]
    · rw [if_neg h, if_neg fun hh => h ⟨hh.2, hh.1⟩]

theorem read_at_quote (fuel : Nat) (rest : List Char) :
    read (fuel + 1) (quote_char :: rest) = read_string rest := by
  have hskip : skip_space (quote_char :: rest) = .ok (quote_char :: rest) :=
    skip_space_stop quote_char rest (by decide) (by decide)
  simp only [read, bind, Except.bind, hskip, read_token, if_true]

theorem skip_suffix : ∀ s : List Char,
    (∀ r, skip_space s = .ok r → r <:+ s) ∧ (∀ r, skip_comment s = .ok r → r <:+ s) := by
  intro s
  induction s with
  | nil =>
    constructor
    · intro r h
      simp only [skip_space, Except.ok.injEq] at h
      subst h
      exact List.suffix_refl _
    · intro r h
      simp [skip_comment] at h
  | cons c cs ih =>
    constructor
    · intro r h
      rw [skip_space] at h
      split at h
      · exact (ih.1 r h).trans (List.suffix_cons c cs)
      · split at h
        · exact (ih.2 r h).trans (List.suffix_cons c cs)
        · simp only [Except.ok.injEq] at h
          subst h
          exact List.suffix_refl _
    · intro r h
      rw [skip_comment] at h
      split at h
      · exact (ih.1 r h).trans (List.suffix_cons c cs)
      · exact (ih.2 r h).trans (List.suffix_cons c cs)

theorem skip_error_undefined : ∀ s : List Char,
    (∀ e, skip_space s = .error e → e = .undefined) ∧
      (∀ e, skip_comment s = .error e → e = .undefined) := by
  intro s
  induction s with
  | nil =>
    constructor
    · intro e h
      simp [skip_space] at h
    · intro e h
      simp only [skip_comment, Except.error.injEq] at h
      exact h.symm
  | cons c cs ih =>
    constructor
    · intro e h
      rw [skip_space] at h
      split at h
      · exact ih.1 e h
      · split at h
        · exact ih.2 e h
        · simp at h
    · intro e h
      rw [skip_comment] at h
      split at h
      · exact ih.1 e h
      · exact ih.2 e h

theorem read_digits_suffix : ∀ (s : List Char) (acc : Nat), (read_digits acc s).2 <:+ s := by
  intro s
  induction s with
  | nil =>
    intro acc
    exact List.suffix_refl _
  | cons c cs ih =>
    intro acc
    rw [read_digits]
    split
    · exact (ih _).trans (List.suffix_cons c cs)
    · exact List.suffix_refl _

theorem from_chars_suffix (c : Char) (cs : List Char) (h : isdigit c = true ∨ c = '-') :
    (from_chars (c :: cs)).2 <:+ cs := by
  simp only [from_chars]
  split
  · exact read_digits_suffix cs 0
  · rename_i hc
    have hd : isdigit c = true := h.resolve_right hc
    rw [read_digits, if_pos hd]
    exact read_digits_suffix cs _

theorem read_elements_error {rd : List Char → Except Err (Value × List Char)} {s : List Char}
    {e : Err} (h : rd s = .error e) (rounds : Nat) :
    read_elements rd (rounds + 1) s = .error e := by
  simp [read_elements, bind, Except.bind, h]

theorem read_elements_suffix {rd : List Char → Except Err (Value × List Char)}
    (hrd : ∀ s v r, rd s = .ok (v, r) → r <:+ s) :
    ∀ (rounds : Nat) (s : List Char) (vs : List Value) (r : List Char),
      read_elements rd rounds s = .ok (vs, r) → r <:+ s := by
  intro rounds
  induction rounds with
  | zero =>
    intro s vs r h
    simp [read_elements] at h
  | succ k ih =>
    intro s vs r h
    cases h1 : rd s with
    | error e =>
      rw [read_elements_error h1] at h
      cases h
    | ok p =>
      obtain ⟨v, s2⟩ := p
      by_cases hv : v = .nil
      · subst hv
        rw [read_elements_stop h1] at h
        simp only [Except.ok.injEq, Prod.mk.injEq] at h
        rw [← h.2]
        exact hrd s _ s2 h1
      · rw [read_elements_step h1 hv] at h
        cases h2 : read_elements rd k s2 with
        | error e =>
          rw [h2] at h
          cases h
        | ok q =>
          obtain ⟨ws, r2⟩ := q
          rw [h2] at h
          simp only [Except.bind, Except.ok.injEq, Prod.mk.injEq] at h
          rw [← h.2]
          exact (ih s2 ws r2 h2).trans (hrd s v s2 h1)

theorem read_string_suffix {rest r : List Char} {v : Value}
    (h : read_string rest = .ok (v, r)) : r <:+ rest ∧ v ≠ .nil := by
  unfold read_string at h
  split at h
  · simp only [Except.ok.injEq, Prod.mk.injEq] at h
    rw [← h.1, ← h.2]
    exact ⟨List.drop_suffix _ _, fun hh => by cases hh⟩
  · cases h

theorem read_token_suffix {rd : List Char → Except Err (Value × List Char)}
    (hrd : ∀ s v r, rd s = .ok (v, r) → r <:+ s) (rounds : Nat) (s : List Char) (v : Value)
    (r : List Char) (h : read_token rd rounds s = .ok (v, r)) :
    r <:+ s ∧ (v ≠ .nil → r.length < s.length) := by
  cases s with
  | nil =>
    simp only [read_token, Except.ok.injEq, Prod.mk.injEq] at h
    rw [← h.1, ← h.2]
    exact ⟨List.suffix_refl _, fun hh => absurd rfl hh⟩
  | cons c cs =>
    have key : ∀ {t : List Char}, t <:+ cs → t <:+ c :: cs ∧ t.length < (c :: cs).length := by
      intro t ht
      refine ⟨ht.trans (List.suffix_cons c cs), ?_⟩
      have := ht.length_le
      simp only [List.length_cons]
      omega
    unfold read_token at h
    simp only at h
    split at h
    · obtain ⟨h1, _⟩ := read_string_suffix h
      exact ⟨(key h1).1, fun _ => (key h1).2⟩
    · split at h
      · rename_i hq hint
        simp only [Except.ok.injEq, Prod.mk.injEq] at h
        have hc : isdigit c = true ∨ c = '-' := by
          simp only [Bool.or_eq_true, Bool.and_eq_true, decide_eq_true_eq] at hint
          rcases hint with hd | ⟨hm, _⟩
          · exact Or.inl hd
          · exact Or.inr hm
        rw [← h.2]
        exact ⟨(key (from_chars_suffix c cs hc)).1, fun _ => (key (from_chars_suffix c cs hc)).2⟩
      · split at h
        · simp only [Except.ok.injEq, Prod.mk.injEq] at h
          rw [← h.2]
          exact ⟨(key (List.dropWhile_suffix _)).1, fun _ => (key (List.dropWhile_suffix _)).2⟩
        · split at h
          · simp only [bind_ok_iff, Prod.exists, Except.ok.injEq, Prod.mk.injEq] at h
            obtain ⟨elems, rest, h1, _, h2⟩ := h
            rw [← h2]
            have hs := read_elements_suffix hrd rounds cs elems rest h1
            exact ⟨(key hs).1, fun _ => (key hs).2⟩
          · split at h
            · simp only [Except.ok.injEq, Prod.mk.injEq] at h
              rw [← h.1, ← h.2]
              exact ⟨List.suffix_cons c cs, fun hh => absurd rfl hh⟩
            · simp only [Except.ok.injEq, Prod.mk.injEq] at h
              rw [← h.1, ← h.2]
              exact ⟨List.suffix_refl _, fun hh => absurd rfl hh⟩

theorem read_suffix : ∀ (fuel : Nat) (s : List Char) (v : Value) (r : List Char),
    read fuel s = .ok (v, r) → r <:+ s ∧ (v ≠ .nil → r.length < s.length) := by
  intro fuel
  induction fuel with
  | zero =>
    intro s v r h
    simp [read] at h
  | succ k ih =>
    intro s v r h
    simp only [read, bind_ok_iff] at h
    obtain ⟨s1, h1, h2⟩ := h
    have hs1 := (skip_suffix s).1 s1 h1
    obtain ⟨h3, h4⟩ := read_token_suffix (fun t w u hh => (ih t w u hh).1) k s1 v r h2
    refine ⟨h3.trans hs1, fun hv => ?_⟩
    have := h4 hv
    have := hs1.length_le
    omega

theorem read_elements_error_undefined {rd : List Char → Except Err (Value × List Char)}
    (hsuf : ∀ s v r, rd s = .ok (v, r) → r <:+ s ∧ (v ≠ .nil → r.length < s.length)) :
    ∀ (rounds : Nat) (s : List Char), s.length < rounds →
      (∀ t e, t.length ≤ s.length → rd t = .error e → e = .undefined) →
      ∀ e, read_elements rd rounds s = .error e → e = .undefined := by
  intro rounds
  induction rounds with
  | zero =>
    intro s hs
    omega
  | succ k ih =>
    intro s hs hrd e h
    cases h1 : rd s with
    | error e1 =>
      rw [read_elements_error h1] at h
      simp only [Except.error.injEq] at h
      rw [← h]
      exact hrd s e1 (Nat.le_refl _) h1
    | ok p =>
      obtain ⟨v, s2⟩ := p
      by_cases hv : v = .nil
      · subst hv
        rw [read_elements_stop h1] at h
        cases h
      · rw [read_elements_step h1 hv] at h
        have hlt := (hsuf s v s2 h1).2 hv
        cases h2 : read_elements rd k s2 with
        | error e2 =>
          rw [h2] at h
          simp only [Except.bind, Except.error.injEq] at h
          rw [← h]
          exact ih s2 (by omega) (fun t e3 ht => hrd t e3 (by omega)) e2 h2
        | ok q =>
          rw [h2] at h
          cases h

theorem read_token_error_undefined {rd : List Char → Except Err (Value × List Char)}
    (hsuf : ∀ s v r, rd s = .ok (v, r) → r <:+ s ∧ (v ≠ .nil → r.length < s.length))
    (rounds : Nat) (s : List Char) (hrounds : s.length ≤ rounds)
    (hrd : ∀ t e, t.length < s.length → rd t = .error e → e = .undefined) :
    ∀ e, read_token rd rounds s = .error e → e = .undefined := by
  intro e h
  cases s with
  | nil => simp [read_token] at h
  | cons c cs =>
    unfold read_token at h
    simp only at h
    split at h
    · unfold read_string at h
      split at h
      · cases h
      · simp only [Except.error.injEq] at h
        exact h.symm
    · split at h
      · cases h
      · split at h
        · cases h
        · split at h
          · cases h1 : read_elements rd rounds cs with
            | error e1 =>
              rw [h1] at h
              simp only [bind, Except.bind, Except.error.injEq] at h
              rw [← h]
              simp only [List.length_cons] at hrounds hrd
              exact read_elements_error_undefined hsuf rounds cs (by omega)
                (fun t e2 ht => hrd t e2 (by omega)) e1 h1
            | ok q =>
              rw [h1] at h
              cases h
          · split at h
            · cases h
            · cases h

theorem read_error_undefined : ∀ (fuel : Nat) (s : List Char), s.length < fuel →
    ∀ e, read fuel s = .error e → e = .undefined := by
  intro fuel
  induction fuel with
  | zero =>
    intro s hs
    omega
  | succ k ih =>
    intro s hs e h
    simp only [read, bind, Except.bind] at h
    cases h1 : skip_space s with
    | error e1 =>
      rw [h1] at h
      simp only [Except.error.injEq] at h
      rw [← h]
      exact (skip_error_undefined s).1 e1 h1
    | ok s1 =>
      rw [h1] at h
      have hs1 := ((skip_suffix s).1 s1 h1).length_le
      exact read_token_error_undefined (read_suffix k) k s1 (by omega)
        (fun t e2 ht => ih t (by omega) e2) e h

/-! ## Rendering and reading back -/

/-- C1: for `+`, `-` and `*`, if the arguments `e1 ... ek` (k ≥ 1) evaluate in
order to the Ints `v1 ... vk`, then `(op e1 ... ek)` evaluates to the Int
`((v1 op v2) op ...) op vk` computed with 64-bit wrap-around, which is `v1`
itself for a single argument, and leaves the context the arguments left. -/
theorem math_operations_left_fold (fuel : Nat) (ctx ctx' : Context) (name : String)
    (f : Intrinsic) (op : Int → Int → Int) (e1 : Value) (es : List Value) (v1 : Int)
    (vs : List Int)
    (hop : (f = .add ∧ op = fun a b => a + b) ∨ (f = .sub ∧ op = fun a b => a - b) ∨
      (f = .mul ∧ op = fun a b => a * b))
    (hname : ctx.lookup name = some (.cpp f))
    (hargs : eval_each (eval fuel) ctx (e1 :: es) = .ok ((v1 :: vs).map Value.integer, ctx')) :
    eval (fuel + 1) ctx (.list (.symbol name :: e1 :: es)) =
      .ok (.integer (fold_wrap op v1 vs), ctx') := by
  obtain ⟨v, ctx1, ws, h1, h2, h3⟩ := eval_each_cons_ok.mp hargs
  obtain ⟨k, rfl⟩ := eval_pos_of_ok h1
  simp only [List.map_cons, List.cons.injEq] at h3
  obtain ⟨rfl, rfl⟩ := h3
  rw [eval_call_cpp hname]
  have key : math_operation (eval (k + 1)) op ctx (e1 :: es) =
      .ok (.integer (fold_wrap op v1 vs), ctx') := by
    simp only [math_operation, at_, List.get?, bind, Except.bind, h1, List.tail_cons]
    exact math_tail_integers _ op es vs v1 ctx1 ctx' h2
  rcases hop with ⟨rfl, rfl⟩ | ⟨rfl, rfl⟩ | ⟨rfl, rfl⟩ <;> exact key

/-- C1, at `(+ 1 2 3)` and `(* 2 (+ 1 1))` in the context of `main`. -/
theorem math_operations_left_fold_witness :
    eval 3 main_context (.list [.symbol "+", .integer 1, .integer 2, .integer 3]) =
        .ok (.integer 6, main_context) ∧
      eval 4 main_context
          (.list [.symbol "*", .integer 2, .list [.symbol "+", .integer 1, .integer 1]]) =
        .ok (.integer 4, main_context) :=
  ⟨math_operations_left_fold 2 main_context main_context "+" .add (fun a b => a + b)
      (.integer 1) [.integer 2, .integer 3] 1 [2, 3] (Or.inl ⟨rfl, rfl⟩) rfl rfl,
   math_operations_left_fold 3 main_context main_context "*" .mul (fun a b => a * b)
      (.integer 2) [.list [.symbol "+", .integer 1, .integer 1]] 2 [2]
      (Or.inr (Or.inr ⟨rfl, rfl⟩)) rfl rfl⟩

/-- C2: evaluating a Symbol returns the value bound in the innermost scope that
binds the name, it fails if and only if no scope of the stack binds the name,
the failure then being the unresolved-symbol error, and an unbound symbol does
not evaluate to Nil. -/
theorem symbol_resolves_innermost (fuel : Nat) (ctx : Context) (name : String) :
    (∀ (inner : List Scope) (scope : Scope) (outer : List Scope) (v : Value),
        ctx.scopes = inner ++ scope :: outer → (∀ s ∈ inner, Scope.find name s = none) →
        Scope.find name scope = some v → eval (fuel + 1) ctx (.symbol name) = .ok (v, ctx)) ∧
    (∀ e, eval (fuel + 1) ctx (.symbol name) = .error e ↔
        e = .unresolved name ∧ ∀ s ∈ ctx.scopes, Scope.find name s = none) ∧
    ((∀ s ∈ ctx.scopes, Scope.find name s = none) →
        ∀ ctx', eval (fuel + 1) ctx (.symbol name) ≠ .ok (.nil, ctx')) := by
  refine ⟨?_, ?_, ?_⟩
  · intro inner scope outer v hs hinner hscope
    have h := lookup_scopes_innermost name inner scope outer v hinner hscope
    rw [← hs] at h
    simp [eval_symbol, Context.lookup, h]
  · intro e
    rw [eval_symbol, ← lookup_scopes_none_iff]
    cases h : ctx.lookup name with
    | none =>
      have h' : lookup_scopes name ctx.scopes = none := h
      simp only [Except.error.injEq, h', and_true]
      exact eq_comm
    | some v =>
      have h' : lookup_scopes name ctx.scopes = some v := h
      simp [h']
  · intro hnone ctx'
    have h : ctx.lookup name = none := (lookup_scopes_none_iff name ctx.scopes).mpr hnone
    simp [eval_symbol, h]

/-- C2, at a stack of two scopes that both bind `x`, and at the unbound `u`. -/
theorem symbol_resolves_innermost_witness :
    eval 1 ⟨[[("y", .integer 3)], [("x", .integer 2)], [("x", .integer 1)]]⟩ (.symbol "x") =
        .ok (.integer 2, ⟨[[("y", .integer 3)], [("x", .integer 2)], [("x", .integer 1)]]⟩) ∧
      eval 1 main_context (.symbol "u") = .error (.unresolved "u") :=
  ⟨(symbol_resolves_innermost 0 ⟨[[("y", .integer 3)], [("x", .integer 2)], [("x", .integer 1)]]⟩
      "x").1 [[("y", .integer 3)]] [("x", .integer 2)] [[("x", .integer 1)]] (.integer 2) rfl
      (by intro s hs; simp only [List.mem_singleton] at hs; subst hs; rfl) rfl,
   ((symbol_resolves_innermost 0 main_context "u").2.1 (.unresolved "u")).mpr
      ⟨rfl, (lookup_scopes_none_iff "u" main_context.scopes).mp rfl⟩⟩

/-- C3 (defect of the code): `Context::assign` uses `emplace`, which leaves an
existing binding of the innermost scope as it is, so that after
`assign(name, v)` the lookup still gives the old value;
`(do (def x 1) (def x 2) x)` evaluates to 1. Where the innermost scope does not
bind the name, `assign` adds the binding to that scope alone and the lookup
gives `v`. -/
theorem assign_keeps_existing_binding :
    (∀ (ctx : Context) (name : String) (v w : Value) (scope : Scope) (outer : List Scope),
        ctx.scopes = scope :: outer → Scope.find name scope = some w →
        ctx.assign name v = .ok ctx ∧ ctx.lookup name = some w) ∧
    (∀ (ctx : Context) (name : String) (v : Value) (scope : Scope) (outer : List Scope),
        ctx.scopes = scope :: outer → Scope.find name scope = none →
        ctx.assign name v = .ok ⟨((name, v) :: scope) :: outer⟩ ∧
        Context.lookup ⟨((name, v) :: scope) :: outer⟩ name = some v) ∧
    (∀ more : Nat, ∃ ctx', eval (4 + more) main_context
        (.list [.symbol "do", .list [.symbol "def", .symbol "x", .integer 1],
          .list [.symbol "def", .symbol "x", .integer 2], .symbol "x"]) =
        .ok (.integer 1, ctx') ∧ ctx'.lookup "x" = some (.integer 1)) := by
  have h : eval 4 main_context
      (.list [.symbol "do", .list [.symbol "def", .symbol "x", .integer 1],
        .list [.symbol "def", .symbol "x", .integer 2], .symbol "x"]) =
      .ok (.integer 1, ⟨(("x", .integer 1) :: main_context.scopes.headD []) ::
        main_context.scopes.tail⟩) := rfl
  refine ⟨?_, ?_, fun more => ⟨_, eval_mono h more, rfl⟩⟩
  · intro ctx name v w scope outer hs hw
    obtain ⟨scopes⟩ := ctx
    simp only at hs
    subst hs
    simp [Context.assign, Scope.emplace, Context.lookup, lookup_scopes, hw]
  · intro ctx name v scope outer hs hw
    obtain ⟨scopes⟩ := ctx
    simp only at hs
    subst hs
    simp [Context.assign, Scope.emplace, Context.lookup, lookup_scopes, Scope.find, hw]

/-- C4 (defect of the code): applying a user function `[formals, body]` to
fewer actuals than formals never returns a value and, once the actuals are
evaluated and bound, fails at the assertion after the binding loop; so
`((fun (a b) a) 1)` fails. With as many actuals as formals the result is that
of the body in the scope of the bound formals, which is then popped. With more
actuals than formals no arity failure is raised: the binding loop reads
`formal_it->type` at the end iterator of the formals, where the behaviour of
the source is undefined, as in `((fun (a b) a) 1 2 3)`. -/
theorem application_arity :
    (∀ (fuel : Nat) (ctx ctx1 : Context) (head body : Value) (more actuals formals : List Value),
        eval fuel ctx head = .ok (.list (.list formals :: body :: more), ctx1) →
        actuals.length < formals.length →
        ∀ r, eval (fuel + 1) ctx (.list (head :: actuals)) ≠ .ok r) ∧
    (∀ (fuel : Nat) (ctx ctx1 ctx2 : Context) (head body : Value) (more actuals : List Value)
        (names : List String),
        eval fuel ctx head = .ok (.list (.list (names.map Value.symbol) :: body :: more), ctx1) →
        bind_pairs (eval fuel) ctx1.push (names.zip actuals) = .ok ctx2 →
        (actuals.length < names.length →
          eval (fuel + 1) ctx (.list (head :: actuals)) = .error .assertion) ∧
        (names.length < actuals.length →
          eval (fuel + 1) ctx (.list (head :: actuals)) = .error .undefined) ∧
        (actuals.length = names.length →
          eval (fuel + 1) ctx (.list (head :: actuals)) =
            (eval fuel ctx2 body).bind fun rc => (rc.2.pop).bind fun c => .ok (rc.1, c))) ∧
    eval 3 main_context
        (.list [.list [.symbol "fun", .list [.symbol "a", .symbol "b"], .symbol "a"],
          .integer 1]) = .error .assertion ∧
    eval 3 main_context
        (.list [.list [.symbol "fun", .list [.symbol "a", .symbol "b"], .symbol "a"],
          .integer 1, .integer 2, .integer 3]) = .error .undefined := by
  refine ⟨?_, ?_, rfl, rfl⟩
  · intro fuel ctx ctx1 head body more actuals formals hhead hlen r h
    rw [eval_call_list hhead] at h
    simp only [apply_list, at_, List.get?, bind, Except.bind] at h
    cases hb : bind_formals (eval fuel) ctx1.push formals actuals with
    | error e => simp [hb] at h
    | ok c => exact absurd (bind_formals_ok_length _ _ _ _ _ hb) (Nat.ne_of_lt hlen)
  · intro fuel ctx ctx1 ctx2 head body more actuals names hhead hpairs
    have hb := bind_formals_of_pairs (eval fuel) names actuals ctx1.push ctx2 hpairs
    rw [eval_call_list hhead]
    simp only [apply_list, at_, List.get?, bind, Except.bind, hb]
    refine ⟨?_, ?_, ?_⟩
    · intro hlt
      simp [hlt]
    · intro hgt
      simp [hgt, Nat.lt_asymm hgt]
    · intro heq
      simp only [heq, lt_self_iff_false, if_false]

/-- C5: user functions are dynamically scoped. The form `fun` returns its
argument list as it is, with no environment attached, and the body of an
applied function is evaluated on the scope stack of the call; so
`(do (def x a) (def f (fun () x)) ((fun (x) (f)) b))` evaluates to `b` for all
Ints `a` and `b`, with any fuel from 6 on, while `x` is still bound to `a`
afterwards. -/
theorem dynamic_scoping :
    (∀ (fuel : Nat) (ctx : Context) (args : List Value),
        ctx.lookup "fun" = some (.cpp .fun_) →
        eval (fuel + 2) ctx (.list (.symbol "fun" :: args)) = .ok (.list args, ctx)) ∧
    (∀ (fuel : Nat) (ctx ctx1 : Context) (head body : Value),
        eval fuel ctx head = .ok (.list [.list [], body], ctx1) →
        eval (fuel + 1) ctx (.list [head]) =
          (eval fuel ctx1.push body).bind fun rc => (rc.2.pop).bind fun c => .ok (rc.1, c)) ∧
    (∀ (a b : Int) (more : Nat), ∃ ctx',
        eval (6 + more) main_context
          (.list [.symbol "do", .list [.symbol "def", .symbol "x", .integer a],
            .list [.symbol "def", .symbol "f", .list [.symbol "fun", .list [], .symbol "x"]],
            .list [.list [.symbol "fun", .list [.symbol "x"], .list [.symbol "f"]],
              .integer b]]) = .ok (.integer b, ctx') ∧
        ctx'.lookup "x" = some (.integer a)) := by
  refine ⟨?_, ?_, ?_⟩
  · intro fuel ctx args h
    rw [eval_call_cpp h]
    rfl
  · intro fuel ctx ctx1 head body h
    rw [eval_call_list h]
    simp only [apply_list, at_, List.get?, bind_formals, bind, Except.bind]
  · intro a b more
    have h : eval 6 main_context
        (.list [.symbol "do", .list [.symbol "def", .symbol "x", .integer a],
          .list [.symbol "def", .symbol "f", .list [.symbol "fun", .list [], .symbol "x"]],
          .list [.list [.symbol "fun", .list [.symbol "x"], .list [.symbol "f"]],
            .integer b]]) =
        .ok (.integer b, ⟨(("f", .list [.list [], .symbol "x"]) :: ("x", .integer a) ::
          main_context.scopes.headD []) :: main_context.scopes.tail⟩) := rfl
    exact ⟨_, eval_mono h more, rfl⟩

/-- C6: a call of a user function leaves the context exactly as the evaluation
of its head left it, so a `def` run by the called body never changes what a
name is bound to in the caller; the `def` shadows the binding inside the call
only. The form `do` opens no scope: where `x` is not yet bound in the innermost
scope, `(do (def x 5) (* x x))` evaluates to 25 and leaves `x` bound to 5 in
that very scope. -/
theorem def_in_call_shadows :
    (∀ (fuel : Nat) (ctx ctx1 ctx' : Context) (head : Value) (callable actuals : List Value)
        (r : Value),
        eval fuel ctx head = .ok (.list callable, ctx1) →
        eval (fuel + 1) ctx (.list (head :: actuals)) = .ok (r, ctx') →
        ctx' = ctx1 ∧ ∀ x, ctx'.lookup x = ctx1.lookup x) ∧
    (∀ (fuel : Nat) (scope : Scope) (outer : List Scope),
        Scope.find "x" scope = none →
        Context.lookup ⟨scope :: outer⟩ "do" = some (.cpp .do_) →
        Context.lookup ⟨scope :: outer⟩ "def" = some (.cpp .def_) →
        Context.lookup ⟨scope :: outer⟩ "*" = some (.cpp .mul) →
        eval (fuel + 3) ⟨scope :: outer⟩
            (.list [.symbol "do", .list [.symbol "def", .symbol "x", .integer 5],
              .list [.symbol "*", .symbol "x", .symbol "x"]]) =
          .ok (.integer 25, ⟨(("x", .integer 5) :: scope) :: outer⟩)) ∧
    (∃ ctx', eval 5 ⟨[("x", .integer 1)] :: main_context.scopes⟩
        (.list [.symbol "do",
          .list [.list [.symbol "fun", .list [],
            .list [.symbol "do", .list [.symbol "def", .symbol "x", .integer 2], .symbol "x"]]],
          .symbol "x"]) = .ok (.integer 1, ctx') ∧
      eval 4 ⟨[("x", .integer 1)] :: main_context.scopes⟩
        (.list [.list [.symbol "fun", .list [],
            .list [.symbol "do", .list [.symbol "def", .symbol "x", .integer 2], .symbol "x"]]]) =
        .ok (.integer 2, ⟨[("x", .integer 1)] :: main_context.scopes⟩)) := by
  refine ⟨?_, ?_, ⟨_, rfl, rfl⟩⟩
  · intro fuel ctx ctx1 ctx' head callable actuals r hhead hcall
    rw [eval_call_list hhead] at hcall
    have h := apply_list_same (eval_frame fuel) hcall
    exact ⟨h, fun x => by rw [h]⟩
  · intro fuel scope outer hx hdo hdef hmul
    have hmul' : Context.lookup ⟨(("x", .integer 5) :: scope) :: outer⟩ "*" = some (.cpp .mul) := by
      simpa [Context.lookup, lookup_scopes, Scope.find] using hmul
    have hx' : Context.lookup ⟨(("x", .integer 5) :: scope) :: outer⟩ "x" = some (.integer 5) := by
      simp [Context.lookup, lookup_scopes, Scope.find]
    have h1 : eval (fuel + 2) ⟨scope :: outer⟩
        (.list [.symbol "def", .symbol "x", .integer 5]) =
        .ok (.nil, ⟨(("x", .integer 5) :: scope) :: outer⟩) := by
      rw [eval_call_cpp hdef]
      simp [cpp_function, def_form, at_, eval, bind, Except.bind, Context.assign, Scope.emplace, hx]
    have h2 : eval (fuel + 2) ⟨(("x", .integer 5) :: scope) :: outer⟩
        (.list [.symbol "*", .symbol "x", .symbol "x"]) =
        .ok (.integer 25, ⟨(("x", .integer 5) :: scope) :: outer⟩) := by
      rw [eval_call_cpp hmul']
      simp [cpp_function, math_operation, math_tail, at_, eval, bind, Except.bind, hx',
        Value.op_assign, wrap64]
    rw [eval_call_cpp hdo]
    simp [cpp_function, do_form, bind, Except.bind, h1, h2]

/-- C6, at a call of `(fun () (def x 2))` where `x` is bound to 1, and at the
`do` form in the context of `main`. -/
theorem def_in_call_shadows_witness :
    (eval 3 ⟨[("x", .integer 1)] :: main_context.scopes⟩
        (.list [.symbol "fun", .list [], .list [.symbol "def", .symbol "x", .integer 2]]) =
      .ok (.list [.list [], .list [.symbol "def", .symbol "x", .integer 2]],
        ⟨[("x", .integer 1)] :: main_context.scopes⟩) ∧
    eval 4 ⟨[("x", .integer 1)] :: main_context.scopes⟩
        (.list [.list [.symbol "fun", .list [],
          .list [.symbol "def", .symbol "x", .integer 2]]]) =
      .ok (.nil, ⟨[("x", .integer 1)] :: main_context.scopes⟩) ∧
    Context.lookup ⟨[("x", .integer 1)] :: main_context.scopes⟩ "x" = some (.integer 1)) ∧
    eval 3 main_context
        (.list [.symbol "do", .list [.symbol "def", .symbol "x", .integer 5],
          .list [.symbol "*", .symbol "x", .symbol "x"]]) =
      .ok (.integer 25, ⟨(("x", .integer 5) :: main_context.scopes.headD []) ::
        main_context.scopes.tail⟩) :=
  ⟨⟨rfl, rfl,
      ((def_in_call_shadows.1 3 ⟨[("x", .integer 1)] :: main_context.scopes⟩
        ⟨[("x", .integer 1)] :: main_context.scopes⟩ ⟨[("x", .integer 1)] :: main_context.scopes⟩
        (.list [.symbol "fun", .list [], .list [.symbol "def", .symbol "x", .integer 2]])
        [.list [], .list [.symbol "def", .symbol "x", .integer 2]] [] .nil rfl rfl).2 "x").trans
        rfl⟩,
   def_in_call_shadows.2.1 0 (main_context.scopes.headD []) main_context.scopes.tail rfl rfl rfl
      rfl⟩

/-- C7: for `<`, `<=`, `!=` and `=`, if the arguments `e1 ... ek` (k ≥ 1)
evaluate in order to the Ints `v1 ... vk`, then `(op e1 ... ek)` returns Int 1
when the comparison holds for every adjacent pair; when some adjacent pair
fails it returns Int 0 whatever arguments follow `ek`, so the arguments after
a failing pair are not evaluated. -/
theorem comparison_chain (fuel : Nat) (ctx ctx' : Context) (name : String) (f : Intrinsic)
    (op : Int → Int → Bool) (e1 : Value) (es : List Value) (v1 : Int) (vs : List Int)
    (hop : (f = .lt ∧ op = fun a b => decide (a < b)) ∨
      (f = .le ∧ op = fun a b => decide (a ≤ b)) ∨
      (f = .ne ∧ op = fun a b => decide (a ≠ b)) ∨ (f = .eq ∧ op = fun a b => decide (a = b)))
    (hname : ctx.lookup name = some (.cpp f))
    (hargs : eval_each (eval fuel) ctx (e1 :: es) = .ok ((v1 :: vs).map Value.integer, ctx')) :
    (adjacent_all op (v1 :: vs) = true →
      eval (fuel + 1) ctx (.list (.symbol name :: e1 :: es)) = .ok (.integer 1, ctx')) ∧
    (adjacent_all op (v1 :: vs) = false →
      ∃ ctx'', ∀ rest,
        eval (fuel + 1) ctx (.list (.symbol name :: e1 :: (es ++ rest))) =
          .ok (.integer 0, ctx'')) := by
  obtain ⟨v, ctx1, ws, h1, h2, h3⟩ := eval_each_cons_ok.mp hargs
  obtain ⟨k, rfl⟩ := eval_pos_of_ok h1
  simp only [List.map_cons, List.cons.injEq] at h3
  obtain ⟨rfl, rfl⟩ := h3
  obtain ⟨t1, t2⟩ := comparison_tail_integers (eval (k + 1)) op es vs v1 ctx1 ctx' h2
  have key : ∀ rest, cpp_function (eval (k + 1)) (k + 1) f ctx (e1 :: (es ++ rest)) =
      comparison_tail (eval (k + 1)) op (.integer v1) ctx1 (es ++ rest) := by
    intro rest
    rcases hop with ⟨rfl, rfl⟩ | ⟨rfl, rfl⟩ | ⟨rfl, rfl⟩ | ⟨rfl, rfl⟩ <;>
      simp only [cpp_function, comparison, at_, List.get?, bind, Except.bind, h1, List.tail_cons]
  constructor
  · intro hall
    rw [eval_call_cpp hname]
    have := key []
    rw [List.append_nil] at this
    rw [this]
    exact t1 hall
  · intro hall
    obtain ⟨c, hc⟩ := t2 hall
    refine ⟨c, fun rest => ?_⟩
    rw [eval_call_cpp hname, key rest]
    exact hc rest

/-- C7, at `(< 1 2 3)` and at `(< 2 1 u)` with `u` unbound, in the context of
`main`. -/
theorem comparison_chain_witness :
    eval 3 main_context (.list [.symbol "<", .integer 1, .integer 2, .integer 3]) =
        .ok (.integer 1, main_context) ∧
      ∃ ctx'', eval 3 main_context (.list [.symbol "<", .integer 2, .integer 1, .symbol "u"]) =
        .ok (.integer 0, ctx'') :=
  ⟨(comparison_chain 2 main_context main_context "<" .lt (fun a b => decide (a < b)) (.integer 1)
      [.integer 2, .integer 3] 1 [2, 3] (Or.inl ⟨rfl, rfl⟩) rfl rfl).1 (by decide),
   ((comparison_chain 2 main_context main_context "<" .lt (fun a b => decide (a < b)) (.integer 2)
      [.integer 1] 2 [1] (Or.inl ⟨rfl, rfl⟩) rfl rfl).2 (by decide)).imp
      fun _ h => h [.symbol "u"]⟩

/-- C8: `(if c t)` and `(if c t e)` evaluate `c` once; if its value is true
under `coarce_bool`, that is if it is none of Nil, Int 0, the empty String and
the empty List, the result is the evaluation of `t` in the context left by
`c`; otherwise it is the evaluation of `e` in that context when there is a
third argument, and Nil in that context when there is none. -/
theorem if_selects_branch (fuel : Nat) (ctx ctx1 : Context) (name : String) (c t e vc : Value)
    (hname : ctx.lookup name = some (.cpp .if_))
    (hc : eval (fuel + 1) ctx c = .ok (vc, ctx1)) :
    (vc.coarce_bool = false ↔
      vc = .nil ∨ vc = .integer 0 ∨ vc = .string "" ∨ vc = .list []) ∧
    (vc.coarce_bool = true →
      eval (fuel + 2) ctx (.list [.symbol name, c, t]) = eval (fuel + 1) ctx1 t ∧
      eval (fuel + 2) ctx (.list [.symbol name, c, t, e]) = eval (fuel + 1) ctx1 t) ∧
    (vc.coarce_bool = false →
      eval (fuel + 2) ctx (.list [.symbol name, c, t]) = .ok (.nil, ctx1) ∧
      eval (fuel + 2) ctx (.list [.symbol name, c, t, e]) = eval (fuel + 1) ctx1 e) := by
  refine ⟨?_, ?_, ?_⟩
  · cases vc with
    | nil => simp [Value.coarce_bool]
    | string s =>
      simp only [Value.coarce_bool, Bool.not_eq_false', List.isEmpty_iff, false_or,
        Value.string.injEq, reduceCtorEq, or_false]
      constructor
      · intro h
        exact String.ext (by simpa using h)
      · intro h
        rw [h]
    | symbol s => simp [Value.coarce_bool]
    | integer i => simp [Value.coarce_bool]
    | list l => simp [Value.coarce_bool]
    | cpp g => simp [Value.coarce_bool]
    | sequence g => simp [Value.coarce_bool]
  · intro hb
    rw [eval_call_cpp hname, eval_call_cpp hname]
    simp [cpp_function, if_form, at_, bind, Except.bind, hc, hb]
  · intro hb
    rw [eval_call_cpp hname, eval_call_cpp hname]
    simp [cpp_function, if_form, at_, bind, Except.bind, hc, hb]

/-- C8, at `(if (< 1 2) 10 20)`, `(if (< 2 1) 10 20)` and `(if (< 2 1) 10)` in
the context of `main`. -/
theorem if_selects_branch_witness :
    eval 4 main_context
        (.list [.symbol "if", .list [.symbol "<", .integer 1, .integer 2], .integer 10,
          .integer 20]) = .ok (.integer 10, main_context) ∧
      eval 4 main_context
        (.list [.symbol "if", .list [.symbol "<", .integer 2, .integer 1], .integer 10,
          .integer 20]) = .ok (.integer 20, main_context) ∧
      eval 4 main_context
        (.list [.symbol "if", .list [.symbol "<", .integer 2, .integer 1], .integer 10]) =
        .ok (.nil, main_context) :=
  ⟨((if_selects_branch 2 main_context main_context "if"
      (.list [.symbol "<", .integer 1, .integer 2]) (.integer 10) (.integer 20) (.integer 1)
      rfl rfl).2.1 rfl).2.trans rfl,
   ((if_selects_branch 2 main_context main_context "if"
      (.list [.symbol "<", .integer 2, .integer 1]) (.integer 10) (.integer 20) (.integer 0)
      rfl rfl).2.2 rfl).2.trans rfl,
   ((if_selects_branch 2 main_context main_context "if"
      (.list [.symbol "<", .integer 2, .integer 1]) (.integer 10) (.integer 20) (.integer 0)
      rfl rfl).2.2 rfl).1⟩

/-- C9 as stated fails: in `((do (def x 1) 5) 2)` the head evaluates to the Int
5 and the list is returned as it is, but the evaluation of the head has bound
`x`, so the environment is not the one before the evaluation. -/
theorem non_callable_head_changes_context :
    eval 3 main_context
        (.list [.symbol "do", .list [.symbol "def", .symbol "x", .integer 1], .integer 5]) =
      .ok (.integer 5,
        ⟨(("x", .integer 1) :: main_context.scopes.headD []) :: main_context.scopes.tail⟩) ∧
    eval 4 main_context
        (.list [.list [.symbol "do", .list [.symbol "def", .symbol "x", .integer 1], .integer 5],
          .integer 2]) =
      .ok (.list [.list [.symbol "do", .list [.symbol "def", .symbol "x", .integer 1],
          .integer 5], .integer 2],
        ⟨(("x", .integer 1) :: main_context.scopes.headD []) :: main_context.scopes.tail⟩) ∧
    eval 4 main_context
        (.list [.list [.symbol "do", .list [.symbol "def", .symbol "x", .integer 1], .integer 5],
          .integer 2]) ≠
      .ok (.list [.list [.symbol "do", .list [.symbol "def", .symbol "x", .integer 1],
          .integer 5], .integer 2], main_context) := by
  refine ⟨rfl, rfl, ?_⟩
  intro h
  have h2 : (Except.ok (.list [.list [.symbol "do",
      .list [.symbol "def", .symbol "x", .integer 1], .integer 5], .integer 2],
      ⟨(("x", .integer 1) :: main_context.scopes.headD []) :: main_context.scopes.tail⟩) : Res) =
      .ok (.list [.list [.symbol "do", .list [.symbol "def", .symbol "x", .integer 1],
          .integer 5], .integer 2], main_context) := h
  simp only [Except.ok.injEq, Prod.mk.injEq, true_and] at h2
  have h3 := congrArg (fun c : Context => c.lookup "x") h2
  have h4 : Context.lookup main_context "x" = none := rfl
  have h5 : Context.lookup
      ⟨(("x", .integer 1) :: main_context.scopes.headD []) :: main_context.scopes.tail⟩ "x" =
      some (.integer 1) := rfl
  simp only [h4, h5] at h3
  cases h3

/-- C9, amended: a non-empty List whose head evaluates to a value that is
neither a NativeFunction nor a List evaluates to the list itself, with the
elements after the head not evaluated, in the context left by the evaluation of
the head; that context is the initial one when the head is not itself a
List. -/
theorem non_callable_head_returns_list (fuel : Nat) (ctx ctx1 : Context) (head v : Value)
    (rest : List Value) (hhead : eval fuel ctx head = .ok (v, ctx1))
    (hcpp : ∀ f, v ≠ .cpp f) (hlist : ∀ l, v ≠ .list l) :
    eval (fuel + 1) ctx (.list (head :: rest)) = .ok (.list (head :: rest), ctx1) ∧
      ((∀ l, head ≠ .list l) → ctx1 = ctx) := by
  constructor
  · cases v with
    | cpp f => exact absurd rfl (hcpp f)
    | list l => exact absurd rfl (hlist l)
    | _ => simp [eval, hhead]
  · intro hnl
    obtain ⟨k, rfl⟩ := eval_pos_of_ok hhead
    cases head with
    | list l => exact absurd rfl (hnl l)
    | symbol s =>
      rw [eval_symbol] at hhead
      cases hl : ctx.lookup s with
      | none => simp [hl] at hhead
      | some w =>
        simp only [hl, Except.ok.injEq, Prod.mk.injEq] at hhead
        exact hhead.2.symm
    | _ =>
      simp only [eval, Except.ok.injEq, Prod.mk.injEq] at hhead
      exact hhead.2.symm

/-- C9, amended, at `(1 (+ 1 1) 3)` in the context of `main`. -/
theorem non_callable_head_returns_list_witness :
    eval 2 main_context
        (.list [.integer 1, .list [.symbol "+", .integer 1, .integer 1], .integer 3]) =
      .ok (.list [.integer 1, .list [.symbol "+", .integer 1, .integer 1], .integer 3],
        main_context) :=
  (non_callable_head_returns_list 1 main_context main_context (.integer 1) (.integer 1)
    [.list [.symbol "+", .integer 1, .integer 1], .integer 3] rfl
    (fun _ h => Value.noConfusion h) (fun _ h => Value.noConfusion h)).1

/-- C10: `fold` is a left fold without initial value. When the collection
expression evaluates to the list `x1 ... xk` (k ≥ 1), `(fold f coll)` returns
the last of `acc_1 = x1` (as stored, not evaluated) and `acc_(i+1)` = the value
of evaluating the call `(f acc_i x_(i+1))`; for Int elements and `f = +` this
is their sum in 64-bit arithmetic. -/
theorem fold_is_left_fold :
    (∀ (fuel : Nat) (ctx ctx1 : Context) (name : String) (f coll x : Value) (xs : List Value),
        ctx.lookup name = some (.cpp .fold) →
        eval (fuel + 1) ctx coll = .ok (.list (x :: xs), ctx1) →
        eval (fuel + 2) ctx (.list [.symbol name, f, coll]) =
          fold_calls (eval (fuel + 1)) f x ctx1 xs) ∧
    (∀ (fuel : Nat) (ctx : Context) (name plus lst : String) (x : Int) (xs : List Int),
        ctx.lookup name = some (.cpp .fold) → ctx.lookup plus = some (.cpp .add) →
        ctx.lookup lst = some (.cpp .list) →
        eval (fuel + 3) ctx
            (.list [.symbol name, .symbol plus,
              .list (.symbol lst :: (x :: xs).map Value.integer)]) =
          .ok (.integer (fold_wrap (fun a b => a + b) x xs), ctx)) := by
  have part1 : ∀ (fuel : Nat) (ctx ctx1 : Context) (name : String) (f coll x : Value)
      (xs : List Value), ctx.lookup name = some (.cpp .fold) →
      eval (fuel + 1) ctx coll = .ok (.list (x :: xs), ctx1) →
      eval (fuel + 2) ctx (.list [.symbol name, f, coll]) =
        fold_calls (eval (fuel + 1)) f x ctx1 xs := by
    intro fuel ctx ctx1 name f coll x xs hname hcoll
    rw [eval_call_cpp hname]
    simp only [cpp_function, fold_form, at_, List.get?, bind, Except.bind, hcoll, Value.elements,
      List.tail_cons, fold_loop_eq_fold_calls]
    cases fold_calls (eval (fuel + 1)) f x ctx1 xs with
    | error e => rfl
    | ok rc => rfl
  refine ⟨part1, ?_⟩
  intro fuel ctx name plus lst x xs hname hplus hlst
  have hcoll : eval (fuel + 2) ctx (.list (.symbol lst :: (x :: xs).map Value.integer)) =
      .ok (.list ((x :: xs).map Value.integer), ctx) := by
    rw [eval_call_cpp hlst]
    rfl
  rw [part1 (fuel + 1) ctx ctx name (.symbol plus) _ (.integer x) (xs.map Value.integer) hname
    hcoll]
  exact fold_calls_add_integers fuel ctx plus hplus xs x

/-- C10, at `(fold + (list 1 2 3 4))` and `(fold - (list 10 1 2))` in the
context of `main`. -/
theorem fold_is_left_fold_witness :
    eval 3 main_context
        (.list [.symbol "fold", .symbol "+",
          .list [.symbol "list", .integer 1, .integer 2, .integer 3, .integer 4]]) =
        .ok (.integer 10, main_context) ∧
      eval 4 main_context
        (.list [.symbol "fold", .symbol "-",
          .list [.symbol "list", .integer 10, .integer 1, .integer 2]]) =
        .ok (.integer 7, main_context) :=
  ⟨fold_is_left_fold.2 0 main_context "fold" "+" "list" 1 [2, 3, 4] rfl rfl rfl,
   (fold_is_left_fold.1 2 main_context main_context "fold" (.symbol "-")
      (.list [.symbol "list", .integer 10, .integer 1, .integer 2]) (.integer 10)
      [.integer 1, .integer 2] rfl rfl).trans rfl⟩

/-- C11: `seq` chooses the generator from the static classification of its
unevaluated arguments, an expression being static exactly when the symbol `n`
occurs nowhere in it. All arguments static: a circular generator over all of
them in order. First argument not static: a dynamic generator over it with
start 0. Static arguments `a1 ... aj` (j ≥ 1) followed by a first non-static
one: a composed generator with exactly two children, the circular generator
over `a1 ... aj` and the dynamic generator over the non-static argument with
start 0; what follows it is dropped. -/
theorem seq_chooses_generator (fuel : Nat) (ctx : Context) (name : String)
    (hname : ctx.lookup name = some (.cpp .seq)) :
    (∀ v : Value, v.is_static_expression = !occurs_n v) ∧
    (∀ args : List Value, (∀ a ∈ args, a.is_static_expression = true) →
      eval (fuel + 2) ctx (.list (.symbol name :: args)) =
        .ok (.sequence (.Circular args), ctx)) ∧
    (∀ (a : Value) (rest : List Value), a.is_static_expression = false →
      eval (fuel + 2) ctx (.list (.symbol name :: a :: rest)) =
        .ok (.sequence (.Dynamic a 0), ctx)) ∧
    (∀ (statics : List Value) (a : Value) (rest : List Value), statics ≠ [] →
      (∀ s ∈ statics, s.is_static_expression = true) → a.is_static_expression = false →
      eval (fuel + 2) ctx (.list (.symbol name :: (statics ++ a :: rest))) =
        .ok (.sequence (.Composed [.Circular statics, .Dynamic a 0]), ctx)) := by
  refine ⟨is_static_eq_not_occurs, ?_, ?_, ?_⟩
  · intro args hall
    rw [eval_call_cpp hname]
    simp [cpp_function, seq_form, (all_static_iff args).mpr hall, bind, Except.bind]
  · intro a rest ha
    rw [eval_call_cpp hname]
    simp [cpp_function, seq_form, all_static, ha, List.takeWhile, List.dropWhile, bind,
      Except.bind]
  · intro statics a rest hne hs ha
    have hnot : all_static (statics ++ a :: rest) = false := by
      cases h : all_static (statics ++ a :: rest) with
      | false => rfl
      | true =>
        have := (all_static_iff _).mp h a (by simp)
        rw [ha] at this
        cases this
    obtain ⟨h1, h2⟩ := takeWhile_static_append statics a rest hs ha
    rw [eval_call_cpp hname]
    cases statics with
    | nil => exact absurd rfl hne
    | cons s ss =>
      simp only [cpp_function, seq_form, hnot, h1, h2, bind, Except.bind]
      rfl

/-- C11, at `(seq 1 2 3)`, `(seq (* n n))` and `(seq 1 2 (* n n) 7)` in the
context of `main`. -/
theorem seq_chooses_generator_witness :
    eval 2 main_context (.list [.symbol "seq", .integer 1, .integer 2, .integer 3]) =
        .ok (.sequence (.Circular [.integer 1, .integer 2, .integer 3]), main_context) ∧
      eval 2 main_context (.list [.symbol "seq", .list [.symbol "*", .symbol "n", .symbol "n"]]) =
        .ok (.sequence (.Dynamic (.list [.symbol "*", .symbol "n", .symbol "n"]) 0),
          main_context) ∧
      eval 2 main_context
          (.list [.symbol "seq", .integer 1, .integer 2,
            .list [.symbol "*", .symbol "n", .symbol "n"], .integer 7]) =
        .ok (.sequence (.Composed [.Circular [.integer 1, .integer 2],
          .Dynamic (.list [.symbol "*", .symbol "n", .symbol "n"]) 0]), main_context) :=
  ⟨(seq_chooses_generator 0 main_context "seq" rfl).2.1 [.integer 1, .integer 2, .integer 3]
      (by intro a ha; simp only [List.mem_cons, List.mem_singleton, List.not_mem_nil, or_false] at ha
          rcases ha with rfl | rfl | rfl <;> rfl),
   (seq_chooses_generator 0 main_context "seq" rfl).2.2.1
      (.list [.symbol "*", .symbol "n", .symbol "n"]) [] rfl,
   (seq_chooses_generator 0 main_context "seq" rfl).2.2.2 [.integer 1, .integer 2]
      (.list [.symbol "*", .symbol "n", .symbol "n"]) [.integer 7] (by simp)
      (by intro a ha; simp only [List.mem_cons, List.mem_singleton, List.not_mem_nil, or_false] at ha
          rcases ha with rfl | rfl <;> rfl) rfl⟩

/-- C12: for a dynamic generator over `e` with offset `start`, `take` of `m`
returns exactly when every sample succeeds, and then it gives the `m`-element
list whose `i`-th element is `e` evaluated with `n` bound to `start + i` (in
64-bit arithmetic) and leaves the context as it was; `pop` of `k` returns the
dynamic generator over the same `e` with offset `start + k`; hence `take` of
`m` after `pop` of `k` gives the last `m` elements of `take` of `k + m`. For
`(seq (* n n))`, take 4 gives `(0 1 4 9)` and pop 2 then take 3 gives
`(4 9 16)`. -/
theorem dynamic_take_and_pop :
    (∀ (fuel : Nat) (ctx : Context) (e : Value) (start : Int) (m : Nat) (vs : List Value)
        (ctx' : Context),
        Generator.take (eval fuel) (.Dynamic e start) m ctx = .ok (vs, ctx') ↔
          ctx' = ctx ∧ vs.length = m ∧
            ∀ i, i < m → ∃ v, vs.get? i = some v ∧
              sample (eval fuel) ctx (wrap64 ((i : Int) + start)) e = .ok v) ∧
    (∀ x : Int, -9223372036854775808 ≤ x → x < 9223372036854775808 → wrap64 x = x) ∧
    (∀ (e : Value) (start : Int) (k : Nat),
        Generator.pop (.Dynamic e start) k =
          .ok (.sequence (.Dynamic e (wrap64 (start + k))))) ∧
    (∀ (fuel : Nat) (ctx : Context) (e : Value) (start : Int) (k m : Nat) (vs : List Value)
        (ctx' : Context),
        Generator.take (eval fuel) (.Dynamic e start) (k + m) ctx = .ok (vs, ctx') →
        Generator.take (eval fuel) (.Dynamic e (wrap64 (start + k))) m ctx =
          .ok (vs.drop k, ctx')) ∧
    eval 5 main_context
        (.list [.symbol "take", .integer 4,
          .list [.symbol "seq", .list [.symbol "*", .symbol "n", .symbol "n"]]]) =
      .ok (.list [.integer 0, .integer 1, .integer 4, .integer 9], main_context) ∧
    eval 6 main_context
        (.list [.symbol "take", .integer 3,
          .list [.symbol "pop", .integer 2,
            .list [.symbol "seq", .list [.symbol "*", .symbol "n", .symbol "n"]]]]) =
      .ok (.list [.integer 4, .integer 9, .integer 16], main_context) := by
  refine ⟨?_, wrap64_of_range, fun _ _ _ => rfl, ?_, rfl, rfl⟩
  · intro fuel ctx e start m vs ctx'
    rw [generator_take_dynamic]
    have h := dynamic_take_iff (eval_frame fuel) e start m 0 ctx ctx' vs
    simpa using h
  · intro fuel ctx e start k m vs ctx' h
    rw [generator_take_dynamic] at h ⊢
    exact dynamic_take_after_pop (eval_frame fuel) e start k m ctx ctx' vs h

/-- C12, at the generator of `(seq (* n n))` in the context of `main`: the
five first samples, and the three samples after a pop of two. -/
theorem dynamic_take_and_pop_witness :
    Generator.take (eval 3) (.Dynamic (.list [.symbol "*", .symbol "n", .symbol "n"]) 0) (2 + 3)
        main_context =
      .ok ([.integer 0, .integer 1, .integer 4, .integer 9, .integer 16], main_context) ∧
    Generator.take (eval 3) (.Dynamic (.list [.symbol "*", .symbol "n", .symbol "n"]) 2) 3
        main_context =
      .ok ([.integer 4, .integer 9, .integer 16], main_context) :=
  ⟨rfl, dynamic_take_and_pop.2.2.2.1 3 main_context
    (.list [.symbol "*", .symbol "n", .symbol "n"]) 0 2 3
    [.integer 0, .integer 1, .integer 4, .integer 9, .integer 16] main_context rfl⟩

/-- C13: for a circular generator with a non-empty `value_set`
`e_0 ... e_(m-1)`, `take` of `c` returns exactly when every sample succeeds,
and then it gives a list of exactly `c` elements whose `i`-th element is the
value of `e_(i mod m)` (evaluated in a fresh scope that binds `n` to `i`), and
leaves the context as it was; `(take 5 (seq 1 2 3))` is `(1 2 3 1 2)`. -/
theorem circular_take_cycles :
    (∀ (fuel : Nat) (ctx : Context) (value_set : List Value), value_set ≠ [] →
      ∀ (c : Nat) (rs : List Value) (ctx' : Context),
        Generator.take (eval fuel) (.Circular value_set) c ctx = .ok (rs, ctx') ↔
          ctx' = ctx ∧ rs.length = c ∧
            ∀ i, i < c → ∃ e v, value_set.get? (i % value_set.length) = some e ∧
              rs.get? i = some v ∧ sample (eval fuel) ctx (i : Int) e = .ok v) ∧
    eval 4 main_context
        (.list [.symbol "take", .integer 5,
          .list [.symbol "seq", .integer 1, .integer 2, .integer 3]]) =
      .ok (.list [.integer 1, .integer 2, .integer 3, .integer 1, .integer 2], main_context) := by
  refine ⟨?_, rfl⟩
  intro fuel ctx value_set hne c rs ctx'
  rw [generator_take_circular]
  have h := circular_take_iff (eval_frame fuel) value_set hne c 0 ctx ctx' rs
  simpa using h

/-- C13, at the generator of `(seq 1 2 3)` and five samples. -/
theorem circular_take_cycles_witness :
    Generator.take (eval 1) (.Circular [.integer 1, .integer 2, .integer 3]) 5 main_context =
      .ok ([.integer 1, .integer 2, .integer 3, .integer 1, .integer 2], main_context) :=
  (circular_take_cycles.1 1 main_context [.integer 1, .integer 2, .integer 3] (by simp) 5
    [.integer 1, .integer 2, .integer 3, .integer 1, .integer 2] main_context).mpr
    ⟨rfl, rfl, by
      intro i hi
      interval_cases i <;> exact ⟨_, _, rfl, rfl, rfl⟩⟩

/-- C14 (defect of the code): `Circular_Generator::pop` returns Nil when
`n >= size`, but for `n < size` its loop `do pop_front(); while (n-- >= 1);`
removes `n + 1` elements, one more than `n`: `pop(0)` of the generator of
`(seq 1 2 3)` is the generator over `2 3`, and `(take 5 (pop 0 (seq 1 2 3)))`
is `(2 3 2 3 2)`. -/
theorem circular_pop_removes_one_more :
    (∀ (value_set : List Value) (n : Nat), n < value_set.length →
        Generator.pop (.Circular value_set) n =
          .ok (.sequence (.Circular (value_set.drop (n + 1))))) ∧
    (∀ (value_set : List Value) (n : Nat), value_set.length ≤ n →
        Generator.pop (.Circular value_set) n = .ok .nil) ∧
    Generator.pop (.Circular [.integer 1, .integer 2, .integer 3]) 0 =
      .ok (.sequence (.Circular [.integer 2, .integer 3])) ∧
    eval 6 main_context
        (.list [.symbol "take", .integer 5,
          .list [.symbol "pop", .integer 0,
            .list [.symbol "seq", .integer 1, .integer 2, .integer 3]]]) =
      .ok (.list [.integer 2, .integer 3, .integer 2, .integer 3, .integer 2], main_context) := by
  refine ⟨?_, ?_, rfl, rfl⟩
  · intro value_set n hn
    simp [Generator.pop, Circular_Generator.pop, Nat.not_le.mpr hn, circular_pop_loop_eq_drop]
  · intro value_set n hn
    simp [Generator.pop, Circular_Generator.pop, hn]

/-- C15: for the composed generator that `seq` builds, a circular generator
over `s_1 ... s_j` followed by a dynamic generator over `e`, `take` of `c`
evaluates the first `min j c` of the `s_i` in order in the context of the call
and, when `c > j`, appends what the dynamic child's `take` of `c - j` gives
(`e` with `n` bound to `0 ... c - j - 1`); a returned list has exactly `c`
elements. `(take 5 (seq 1 2 (* n n)))` is `(1 2 0 1 4)`. -/
theorem composed_take_prefix_then_dynamic :
    (∀ (fuel : Nat) (ctx ctx' : Context) (statics : List Value) (e : Value) (c : Nat)
        (rs : List Value),
        Generator.take (eval fuel) (.Composed [.Circular statics, .Dynamic e 0]) c ctx =
            .ok (rs, ctx') ↔
          ∃ vs ctx1, eval_each (eval fuel) ctx (statics.take c) = .ok (vs, ctx1) ∧
            ((c ≤ statics.length ∧ rs = vs ∧ ctx' = ctx1) ∨
              (statics.length < c ∧ ∃ ws,
                Generator.take (eval fuel) (.Dynamic e 0) (c - statics.length) ctx1 =
                  .ok (ws, ctx') ∧ rs = vs ++ ws))) ∧
    (∀ (fuel : Nat) (ctx ctx' : Context) (statics : List Value) (e : Value) (c : Nat)
        (rs : List Value),
        Generator.take (eval fuel) (.Composed [.Circular statics, .Dynamic e 0]) c ctx =
            .ok (rs, ctx') → rs.length = c) ∧
    eval 5 main_context
        (.list [.symbol "take", .integer 5,
          .list [.symbol "seq", .integer 1, .integer 2,
            .list [.symbol "*", .symbol "n", .symbol "n"]]]) =
      .ok (.list [.integer 1, .integer 2, .integer 0, .integer 1, .integer 4], main_context) := by
  have main : ∀ (fuel : Nat) (ctx ctx' : Context) (statics : List Value) (e : Value) (c : Nat)
      (rs : List Value),
      Generator.take (eval fuel) (.Composed [.Circular statics, .Dynamic e 0]) c ctx =
          .ok (rs, ctx') ↔
        ∃ vs ctx1, eval_each (eval fuel) ctx (statics.take c) = .ok (vs, ctx1) ∧
          ((c ≤ statics.length ∧ rs = vs ∧ ctx' = ctx1) ∨
            (statics.length < c ∧ ∃ ws,
              Generator.take (eval fuel) (.Dynamic e 0) (c - statics.length) ctx1 =
                .ok (ws, ctx') ∧ rs = vs ++ ws)) := by
    intro fuel ctx ctx' statics e c rs
    rw [generator_take_composed_pair]
    simp only [generator_take_dynamic]
    cases h1 : eval_each (eval fuel) ctx (statics.take c) with
    | error err => simp [Except.bind]
    | ok r =>
      obtain ⟨vs, ctx1⟩ := r
      by_cases hc : c ≤ statics.length
      · simp only [Except.bind, if_pos hc, Except.ok.injEq, Prod.mk.injEq]
        constructor
        · rintro ⟨rfl, rfl⟩
          exact ⟨_, _, ⟨rfl, rfl⟩, Or.inl ⟨hc, rfl, rfl⟩⟩
        · rintro ⟨vs', c', ⟨rfl, rfl⟩, h⟩
          rcases h with ⟨_, rfl, rfl⟩ | ⟨hlt, _⟩
          · exact ⟨rfl, rfl⟩
          · omega
      · simp only [Except.bind, if_neg hc, Except.ok.injEq, Prod.mk.injEq]
        cases h2 : Dynamic_Generator.take (eval fuel) e 0 0 (c - statics.length) ctx1 with
        | error err =>
          constructor
          · intro h
            cases h
          · rintro ⟨vs', c', ⟨rfl, rfl⟩, h⟩
            rcases h with ⟨hle, _⟩ | ⟨_, ws, hw, _⟩
            · exact absurd hle hc
            · rw [h2] at hw
              cases hw
        | ok r2 =>
          obtain ⟨ws, ctx2⟩ := r2
          simp only [Except.ok.injEq, Prod.mk.injEq]
          constructor
          · rintro ⟨rfl, rfl⟩
            exact ⟨_, _, ⟨rfl, rfl⟩, Or.inr ⟨Nat.lt_of_not_le hc, ws, by rw [h2], rfl⟩⟩
          · rintro ⟨vs', c', ⟨rfl, rfl⟩, h⟩
            rcases h with ⟨hle, _⟩ | ⟨_, ws', hw, rfl⟩
            · exact absurd hle hc
            · rw [h2] at hw
              simp only [Except.ok.injEq, Prod.mk.injEq] at hw
              exact ⟨by rw [hw.1], hw.2⟩
  refine ⟨main, ?_, rfl⟩
  intro fuel ctx ctx' statics e c rs h
  obtain ⟨vs, ctx1, h1, h2⟩ := (main fuel ctx ctx' statics e c rs).mp h
  have hl := eval_each_length _ _ _ _ h1
  rcases h2 with ⟨hle, rfl, _⟩ | ⟨hlt, ws, hw, rfl⟩
  · rw [hl, List.length_take]
    omega
  · rw [generator_take_dynamic] at hw
    obtain ⟨_, hwl, _⟩ := (dynamic_take_iff (eval_frame fuel) e 0 _ 0 ctx1 ctx' ws).mp hw
    rw [List.length_append, hl, hwl, List.length_take]
    omega

/-- C15, at the generator of `(seq 1 2 (* n n))` and five samples in the
context of `main`. -/
theorem composed_take_prefix_then_dynamic_witness :
    Generator.take (eval 3)
        (.Composed [.Circular [.integer 1, .integer 2],
          .Dynamic (.list [.symbol "*", .symbol "n", .symbol "n"]) 0]) 5 main_context =
      .ok ([.integer 1, .integer 2, .integer 0, .integer 1, .integer 4], main_context) :=
  (composed_take_prefix_then_dynamic.1 3 main_context main_context [.integer 1, .integer 2]
    (.list [.symbol "*", .symbol "n", .symbol "n"]) 5
    [.integer 1, .integer 2, .integer 0, .integer 1, .integer 4]).mpr
    ⟨[.integer 1, .integer 2], main_context, rfl,
      Or.inr ⟨by decide, [.integer 0, .integer 1, .integer 4], rfl, rfl⟩⟩

/-- C16: `take` with a count `c ≥ 0` returns a prefix of its source. On a List
`L` it gives the first `min c |L|` elements in their order (all of `L` when
`c ≥ |L|`), on a String its first `min c length` characters, and on a value
that is none of String, List and Sequence it ends in `error_fatal`. Hence
`(take c (take c L))` and `(take c L)` give the same list. -/
theorem take_is_prefix :
    (∀ (fuel : Nat) (ctx ctx1 ctx2 : Context) (name : String) (ce se v : Value) (c : Int),
        ctx.lookup name = some (.cpp .take) →
        eval (fuel + 1) ctx ce = .ok (.integer c, ctx1) → 0 ≤ c →
        eval (fuel + 1) ctx1 se = .ok (v, ctx2) →
        eval (fuel + 2) ctx (.list [.symbol name, ce, se]) =
          v.take (eval (fuel + 1)) c.toNat ctx2) ∧
    (∀ (ev : Ev) (l : List Value) (n : Nat) (ctx : Context),
        Value.take ev (.list l) n ctx = .ok (.list (l.take n), ctx) ∧
        (l.take n).length = min n l.length ∧ l.take n ++ l.drop n = l ∧
        (l.length ≤ n → l.take n = l)) ∧
    (∀ (ev : Ev) (s : String) (n : Nat) (ctx : Context),
        Value.take ev (.string s) n ctx = .ok (.string (String.mk (s.data.take n)), ctx) ∧
        (s.data.take n).length = min n s.data.length) ∧
    (∀ (ev : Ev) (v : Value) (n : Nat) (ctx : Context),
        (∀ s, v ≠ .string s) → (∀ l, v ≠ .list l) → (∀ g, v ≠ .sequence g) →
        Value.take ev v n ctx =
          .error (.fatal "take only supports strings, lists and sequences")) ∧
    (∀ (fuel : Nat) (ctx ctx' : Context) (name : String) (se : Value) (l : List Value) (c : Int),
        ctx.lookup name = some (.cpp .take) → 0 ≤ c →
        eval (fuel + 1) ctx se = .ok (.list l, ctx') →
        eval (fuel + 2) ctx (.list [.symbol name, .integer c, se]) =
          .ok (.list (l.take c.toNat), ctx') ∧
        eval (fuel + 3) ctx
            (.list [.symbol name, .integer c, .list [.symbol name, .integer c, se]]) =
          .ok (.list (l.take c.toNat), ctx')) := by
  have call : ∀ (fuel : Nat) (ctx ctx1 ctx2 : Context) (name : String) (ce se v : Value)
      (c : Int), ctx.lookup name = some (.cpp .take) →
      eval (fuel + 1) ctx ce = .ok (.integer c, ctx1) → 0 ≤ c →
      eval (fuel + 1) ctx1 se = .ok (v, ctx2) →
      eval (fuel + 2) ctx (.list [.symbol name, ce, se]) =
        v.take (eval (fuel + 1)) c.toNat ctx2 := by
    intro fuel ctx ctx1 ctx2 name ce se v c hname hce hc hse
    rw [eval_call_cpp hname]
    simp [cpp_function, take_form, at_, bind, Except.bind, hce, hse, hc]
  refine ⟨call, ?_, ?_, ?_, ?_⟩
  · intro ev l n ctx
    exact ⟨rfl, List.length_take _ _, List.take_append_drop _ _, List.take_of_length_le⟩
  · intro ev s n ctx
    exact ⟨rfl, List.length_take _ _⟩
  · intro ev v n ctx hs hl hg
    cases v with
    | string s => exact absurd rfl (hs s)
    | list l => exact absurd rfl (hl l)
    | sequence g => exact absurd rfl (hg g)
    | _ => rfl
  · intro fuel ctx ctx' name se l c hname hc hse
    have h1 : eval (fuel + 2) ctx (.list [.symbol name, .integer c, se]) =
        .ok (.list (l.take c.toNat), ctx') :=
      call fuel ctx ctx ctx' name (.integer c) se (.list l) c hname rfl hc hse
    refine ⟨h1, ?_⟩
    have h1' : eval (fuel + 2) ctx (.list [.symbol name, .integer c, se]) =
        .ok (.list (l.take c.toNat), ctx') := h1
    rw [call (fuel + 1) ctx ctx ctx' name (.integer c) (.list [.symbol name, .integer c, se])
      (.list (l.take c.toNat)) c hname rfl hc h1']
    simp [Value.take, List.take_take]

/-- C16, at `(take 2 (list 1 2 3))` and `(take 2 (take 2 (list 1 2 3)))` in the
context of `main`. -/
theorem take_is_prefix_witness :
    eval 3 main_context
        (.list [.symbol "take", .integer 2,
          .list [.symbol "list", .integer 1, .integer 2, .integer 3]]) =
      .ok (.list [.integer 1, .integer 2], main_context) ∧
    eval 4 main_context
        (.list [.symbol "take", .integer 2,
          .list [.symbol "take", .integer 2,
            .list [.symbol "list", .integer 1, .integer 2, .integer 3]]]) =
      .ok (.list [.integer 1, .integer 2], main_context) :=
  take_is_prefix.2.2.2.2 1 main_context main_context "take"
    (.list [.symbol "list", .integer 1, .integer 2, .integer 3])
    [.integer 1, .integer 2, .integer 3] 2 rfl (by decide) rfl

/-- C17: `pop` with a count `c ≥ 0` on a List `L` returns `L` without its
first `min c |L|` elements, in order (the empty list when `c ≥ |L|`), so the
result of `(take c L)` followed by that of `(pop c L)` is `L`; on a value that
is neither a List nor a Sequence `pop` ends in `error_fatal`. -/
theorem pop_is_suffix (fuel : Nat) (ctx ctx1 ctx2 : Context) (name : String) (ce se : Value)
    (c : Int) (hname : ctx.lookup name = some (.cpp .pop))
    (hce : eval (fuel + 1) ctx ce = .ok (.integer c, ctx1)) (hc : 0 ≤ c)
    (hc' : c < 9223372036854775808) :
    (∀ l : List Value, eval (fuel + 1) ctx1 se = .ok (.list l, ctx2) →
        eval (fuel + 2) ctx (.list [.symbol name, ce, se]) =
          .ok (.list (l.drop (min c.toNat l.length)), ctx2) ∧
        l.drop (min c.toNat l.length) = l.drop c.toNat ∧
        (l.drop (min c.toNat l.length)).length = l.length - min c.toNat l.length ∧
        (l.length ≤ c.toNat → l.drop (min c.toNat l.length) = []) ∧
        l.take c.toNat ++ l.drop (min c.toNat l.length) = l) ∧
    (∀ v : Value, eval (fuel + 1) ctx1 se = .ok (v, ctx2) →
        (∀ l, v ≠ .list l) → (∀ g, v ≠ .sequence g) →
        eval (fuel + 2) ctx (.list [.symbol name, ce, se]) =
          .error (.fatal "pop only supports list and sequences")) := by
  have hu : to_uint64 c = c.toNat := by
    unfold to_uint64
    congr 1
    omega
  constructor
  · intro l hse
    have hd : l.drop (min c.toNat l.length) = l.drop c.toNat := by
      by_cases h : c.toNat ≤ l.length
      · rw [Nat.min_eq_left h]
      · have h' : l.length ≤ c.toNat := Nat.le_of_lt (Nat.lt_of_not_le h)
        rw [Nat.min_eq_right h', List.drop_length, List.drop_of_length_le h']
    refine ⟨?_, hd, by simp, ?_, ?_⟩
    · rw [eval_call_cpp hname]
      simp [cpp_function, pop_form, at_, bind, Except.bind, hce, hse, hu]
    · intro h
      rw [hd, List.drop_of_length_le h]
    · rw [hd, List.take_append_drop]
  · intro v hse hl hg
    rw [eval_call_cpp hname]
    cases v with
    | list l => exact absurd rfl (hl l)
    | sequence g => exact absurd rfl (hg g)
    | _ => simp [cpp_function, pop_form, at_, bind, Except.bind, hce, hse]

/-- C17, at `(pop 2 (list 1 2 3))` and `(pop 2 "ab")` in the context of
`main`. -/
theorem pop_is_suffix_witness :
    eval 3 main_context
        (.list [.symbol "pop", .integer 2,
          .list [.symbol "list", .integer 1, .integer 2, .integer 3]]) =
      .ok (.list [.integer 3], main_context) ∧
    eval 3 main_context (.list [.symbol "pop", .integer 2, .string "ab"]) =
      .error (.fatal "pop only supports list and sequences") :=
  ⟨((pop_is_suffix 1 main_context main_context main_context "pop" (.integer 2)
      (.list [.symbol "list", .integer 1, .integer 2, .integer 3]) 2 rfl rfl (by decide)
      (by decide)).1 [.integer 1, .integer 2, .integer 3] rfl).1,
   (pop_is_suffix 1 main_context main_context main_context "pop" (.integer 2) (.string "ab") 2
      rfl rfl (by decide) (by decide)).2 (.string "ab") rfl (fun _ h => Value.noConfusion h)
      (fun _ h => Value.noConfusion h)⟩

/-- C18 (defect of the code): `zip` saves the `begin()` of every evaluated
list while the `std::vector` that stores the lists still grows. For an empty
list that iterator is the end iterator, which dangles once the vector moves the
list, so with an empty list before the last argument the second loop works on
an invalid iterator: `(zip (list) (list 1))` does not give the empty List of
the claim. When no list but the last is empty, `zip` on `k ≥ 1` arguments that
evaluate in order to the lists `L_1 ... L_k` returns a List whose length is the
smallest of their lengths and whose `j`-th element is the `k`-element List
`(L_1[j] ... L_k[j])` of the stored elements; what lies beyond the shortest
list is dropped. -/
theorem zip_pairs_positionally :
    (∀ (fuel : Nat) (ctx ctx' : Context) (name : String) (args : List Value)
        (lists : List (List Value)),
        ctx.lookup name = some (.cpp .zip) → args ≠ [] →
        eval_each (eval (fuel + 1)) ctx args = .ok (lists.map Value.list, ctx') →
        (∀ l ∈ lists.dropLast, l ≠ []) →
        ∃ rows, eval (fuel + 2) ctx (.list (.symbol name :: args)) = .ok (.list rows, ctx') ∧
          (∀ l ∈ lists, rows.length ≤ l.length) ∧ (∃ l ∈ lists, l.length = rows.length) ∧
          ∀ j, j < rows.length → ∃ row, rows.get? j = some (.list row) ∧
            row.length = lists.length ∧
            ∀ i l, lists.get? i = some l → ∃ x, l.get? j = some x ∧ row.get? i = some x) ∧
    (∀ (fuel : Nat) (ctx ctx' : Context) (name : String) (args : List Value)
        (lists : List (List Value)),
        ctx.lookup name = some (.cpp .zip) →
        eval_each (eval (fuel + 1)) ctx args = .ok (lists.map Value.list, ctx') →
        (∃ l ∈ lists.dropLast, l = []) →
        eval (fuel + 2) ctx (.list (.symbol name :: args)) = .error .undefined) ∧
    eval 3 main_context
        (.list [.symbol "zip", .list [.symbol "list", .integer 1, .integer 2, .integer 3],
          .list [.symbol "list", .integer 4, .integer 5]]) =
      .ok (.list [.list [.integer 1, .integer 4], .list [.integer 2, .integer 5]],
        main_context) ∧
    eval 3 main_context
        (.list [.symbol "zip", .list [.symbol "list", .integer 1], .list [.symbol "list"]]) =
      .ok (.list [], main_context) ∧
    eval 3 main_context
        (.list [.symbol "zip", .list [.symbol "list"], .list [.symbol "list", .integer 1]]) =
      .error .undefined := by
  refine ⟨?_, ?_, rfl, rfl, rfl⟩
  · intro fuel ctx ctx' name args lists hname hargs heval hfull
    have hd : dangling_begin lists = false := by
      rw [dangling_begin_eq_any, List.any_eq_false]
      intro l hl
      simpa using hfull l hl
    have hlists := eval_lists_of_eval_each args lists ctx ctx' heval
    have hlen : lists.length = args.length := by
      have := eval_each_length _ _ _ _ heval
      simpa using this
    cases lists with
    | nil =>
      cases args with
      | nil => exact absurd rfl hargs
      | cons a as => simp at hlen
    | cons l0 ls =>
      obtain ⟨rows, hr, hle, hex, hp⟩ := zip_rows_spec l0.length (l0 :: ls)
        ⟨l0, List.mem_cons_self _ _, Nat.le_refl _⟩
      refine ⟨rows, ?_, hle, hex, ?_⟩
      · rw [eval_call_cpp hname]
        simp only [cpp_function, zip_form, bind, Except.bind, hlists, hd, Bool.false_eq_true,
          if_false, zip_rounds, hr]
      · intro j hj
        refine ⟨_, hp j hj, by simp, ?_⟩
        intro i l hl
        have hmem : l ∈ l0 :: ls := List.get?_mem hl
        have hjl : j < l.length := Nat.lt_of_lt_of_le hj (hle l hmem)
        refine ⟨l.getD j .nil, ?_, ?_⟩
        · rw [List.getD_eq_getElem?_getD, List.get?_eq_getElem?, List.getElem?_eq_getElem hjl]
          rfl
        · rw [List.get?_eq_getElem?, List.getElem?_map, ← List.get?_eq_getElem?, hl]
          rfl
  · intro fuel ctx ctx' name args lists hname heval hempty
    have hd : dangling_begin lists = true := by
      rw [dangling_begin_eq_any, List.any_eq_true]
      obtain ⟨l, hl, rfl⟩ := hempty
      exact ⟨[], hl, rfl⟩
    have hlists := eval_lists_of_eval_each args lists ctx ctx' heval
    rw [eval_call_cpp hname]
    simp only [cpp_function, zip_form, bind, Except.bind, hlists, hd, if_true]

/-- C19: `++` evaluates every argument in order and returns the List of the
contributions of the values, one after the other: nothing for Nil, the
elements for a List (one level only), the value itself for anything else. The
length of the result is the sum of the lengths of the contributions, and the
result is the empty List when every contribution is empty. -/
theorem concat_flattens_one_level (fuel : Nat) (ctx ctx' : Context) (name : String)
    (args vs : List Value) (hname : ctx.lookup name = some (.cpp .concat))
    (heval : eval_each (eval (fuel + 1)) ctx args = .ok (vs, ctx')) :
    eval (fuel + 2) ctx (.list (.symbol name :: args)) = .ok (.list (contributions vs), ctx') ∧
      (contributions vs).length = (vs.map fun v => (contribution v).length).sum ∧
      ((∀ v ∈ vs, contribution v = []) → contributions vs = []) ∧
      contribution .nil = [] ∧ (∀ l, contribution (.list l) = l) ∧
      (∀ v, v ≠ .nil → (∀ l, v ≠ .list l) → contribution v = [v]) := by
  refine ⟨?_, contributions_length vs, contributions_eq_nil vs, rfl, fun _ => rfl, ?_⟩
  · rw [eval_call_cpp hname]
    simp only [cpp_function, bind, Except.bind, concat_form_spec args vs ctx ctx' heval]
  · intro v hn hl
    cases v with
    | nil => exact absurd rfl hn
    | list l => exact absurd rfl (hl l)
    | _ => rfl

/-- C19, at `(++ (list 1 (list 2)) 7 (list) () "a")` in the context of
`main`; the empty form `()` evaluates to Nil. -/
theorem concat_flattens_one_level_witness :
    eval 3 main_context
        (.list [.symbol "++", .list [.symbol "list", .integer 1, .list [.symbol "list", .integer 2]],
          .integer 7, .list [.symbol "list"], .list [], .string "a"]) =
      .ok (.list [.integer 1, .list [.symbol "list", .integer 2], .integer 7, .string "a"],
        main_context) :=
  (concat_flattens_one_level 1 main_context main_context "++"
    [.list [.symbol "list", .integer 1, .list [.symbol "list", .integer 2]],
      .integer 7, .list [.symbol "list"], .list [], .string "a"]
    [.list [.integer 1, .list [.symbol "list", .integer 2]], .integer 7, .list [], .nil,
      .string "a"] rfl rfl).1

/-! ## C20: list forms -/

/-- C20: reading a list form. For a well-formed list form (integer tokens of
the 64-bit range, with an optional leading `-`, and symbol tokens, separated by
whitespace and wrapped in parentheses, nested list forms allowed) followed by
any text `r`, `read` with enough fuel returns the List of the values of the
forms in the order of the text, the nested list forms as nested Lists, and
leaves exactly `r`; `()` reads as the empty List; a `-` followed by a digit
starts an Int, and any other `-` starts a Symbol. -/
theorem read_list_form (items : Items) (close r : List Char) (fuel : Nat)
    (hwf : (Form.list items close).well_formed)
    (hfuel : (Form.list items close).cost ≤ fuel) :
    read fuel ((Form.list items close).text ++ r) = .ok (.list items.values, r) ∧
    read 2 ('(' :: ')' :: r) = .ok (.list [], r) ∧
    (∀ (k : Nat) (cs : List Char), second_is_digit cs = true →
      read (k + 1) ('-' :: cs) =
        .ok (.integer (from_chars ('-' :: cs)).1, (from_chars ('-' :: cs)).2)) ∧
    (∀ (k : Nat) (cs : List Char), second_is_digit cs = false →
      read (k + 1) ('-' :: cs) =
        .ok (.symbol (String.mk ('-' :: cs.takeWhile is_symbol_char)),
          cs.dropWhile is_symbol_char)) := by
  refine ⟨?_, rfl, ?_, ?_⟩
  · have h := read_of_form (Form.list items close) hwf fuel [] r hfuel
      (fun c hc => absurd hc (List.not_mem_nil c)) (fun h => h.elim)
    simpa [Form.value] using h
  · intro k cs hs
    have hskip : skip_space ('-' :: cs) = .ok ('-' :: cs) :=
      skip_space_stop '-' cs (by decide) (by decide)
    have hq : ¬ ('-' = quote_char) := by decide
    simp [read, bind, Except.bind, hskip, read_token, hs, hq]
  · intro k cs hs
    have hskip : skip_space ('-' :: cs) = .ok ('-' :: cs) :=
      skip_space_stop '-' cs (by decide) (by decide)
    have hq : ¬ ('-' = quote_char) := by decide
    have hd : isdigit '-' = false := by decide
    have hst : is_symbol_start '-' = true := by decide
    simp [read, bind, Except.bind, hskip, read_token, hs, hq, hd, hst]

/-- Witness for C20: the text `(- -5 (a 12) --1 )` followed by `rest`. -/
theorem read_list_form_witness :
    (Form.list
        (.cons [] (.sym '-' [])
          (.cons [' '] (.int true ['5'])
            (.cons [' ']
              (.list (.cons [] (.sym 'a' []) (.cons [' '] (.int false ['1', '2']) .nil)) [])
              (.cons [' '] (.sym '-' ['-', '1']) .nil))))
        [' ']).well_formed ∧
      read 15 ("(- -5 (a 12) --1 )".toList ++ "rest".toList) =
        .ok (.list [.symbol "-", .integer (-5), .list [.symbol "a", .integer 12],
          .symbol "--1"], "rest".toList) :=
  have hwf : (Form.list
        (.cons [] (.sym '-' [])
          (.cons [' '] (.int true ['5'])
            (.cons [' ']
              (.list (.cons [] (.sym 'a' []) (.cons [' '] (.int false ['1', '2']) .nil)) [])
              (.cons [' '] (.sym '-' ['-', '1']) .nil))))
        [' ']).well_formed := by
    simp [Form.well_formed, Items.well_formed, Items.separated, decimal, second_is_digit]
    decide
  ⟨hwf, (read_list_form _ [' '] "rest".toList 15 hwf (by decide)).1⟩

/-! ## C21: string literals -/

/-- C21 (defect of the code): `read` looks for the closing quote with
`std::adjacent_find` from the second character of the text on, so the first
character after the opening quote is never taken as the closing quote. For a
literal with a non-empty payload `read` returns the String of the raw text up
to the first later double quote that no backslash precedes, and leaves the
text after that quote. For the empty payload it never returns the empty
String: `"" "b"` reads as the String of a double quote and a blank with `b"`
left, and `""` at the end of the text finds no closing quote at all. -/
theorem read_string_literal :
    (∀ (fuel : Nat) (rest : List Char) (i : Nat),
        closing_quote quote_char rest = some i → 0 < i →
        read (fuel + 1) (quote_char :: rest) =
          .ok (.string (String.mk (rest.take i)), rest.drop (i + 1))) ∧
    (∀ (fuel : Nat) (rest : List Char),
        closing_quote quote_char (quote_char :: rest) = some 0 ∧
        read (fuel + 1) (quote_char :: quote_char :: rest) ≠
          .ok (.string (String.mk []), rest)) ∧
    read 1 [quote_char, 'a', backslash_char, quote_char, 'b', quote_char, ' ', 'x'] =
      .ok (.string (String.mk ['a', backslash_char, quote_char, 'b']), [' ', 'x']) ∧
    read 1 [quote_char, quote_char, ' ', quote_char, 'b', quote_char] =
      .ok (.string (String.mk [quote_char, ' ']), ['b', quote_char]) ∧
    read 1 [quote_char, quote_char] = .error .undefined := by
  refine ⟨?_, ?_, rfl, rfl, rfl⟩
  · intro fuel rest i h hi
    rw [read_at_quote]
    cases rest with
    | nil => simp [closing_quote] at h
    | cons c cs =>
      rw [closing_quote] at h
      split at h
      · simp only [Option.some.injEq] at h
        omega
      · simp only [Option.map_eq_some'] at h
        obtain ⟨k, hk, rfl⟩ := h
        simp only [read_string, find_closing_quote_cons, hk]
  · intro fuel rest
    have hq : quote_char ≠ backslash_char := by decide
    refine ⟨by simp [closing_quote, hq], ?_⟩
    rw [read_at_quote]
    unfold read_string
    split
    · intro h
      simp only [Except.ok.injEq, Prod.mk.injEq, Value.string.injEq] at h
      have hd := congrArg String.data h.1
      simp at hd
    · intro h
      cases h

/-! ## C26: progress and termination of the reader -/

/-- C26 (defect of the code): whenever `read` returns, the text left is a
suffix of the text given, and strictly shorter when the value is not Nil; with
more fuel than the text has characters, `read` returns or stops at a step that
is undefined in the source, so its recursion on nested list forms is
well-founded; a first character that is none of whitespace, `#`, `"`, a digit,
a symbol character, `(` and `)` gives Nil with nothing consumed. The undefined
steps are a comment without newline, a string literal without closing quote,
and also the closed literal `""` not followed by a further closing quote, as in
the texts `""` and `("")`: there `read` builds its result and moves the cursor
beyond the end of the text. -/
theorem read_progress :
    (∀ (fuel : Nat) (s : List Char) (v : Value) (r : List Char),
        read fuel s = .ok (v, r) → r <:+ s ∧ (v ≠ .nil → r.length < s.length)) ∧
    (∀ (fuel : Nat) (s : List Char), s.length < fuel →
        (∃ v r, read fuel s = .ok (v, r)) ∨ read fuel s = .error .undefined) ∧
    (∀ (fuel : Nat) (c : Char) (cs : List Char), isspace c = false → c ≠ '#' →
        c ≠ quote_char → isdigit c = false → is_symbol_char c = false → c ≠ '(' → c ≠ ')' →
        read (fuel + 1) (c :: cs) = .ok (.nil, c :: cs)) ∧
    read 1 [quote_char, quote_char] = .error .undefined ∧
    read 2 ['(', quote_char, quote_char, ')'] = .error .undefined := by
  refine ⟨read_suffix, ?_, ?_, rfl, rfl⟩
  · intro fuel s hs
    cases h : read fuel s with
    | ok p => exact Or.inl ⟨p.1, p.2, rfl⟩
    | error e =>
      rw [read_error_undefined fuel s hs e h]
      exact Or.inr rfl
  · intro fuel c cs h1 h2 h3 h4 h5 h6 h7
    have hskip : skip_space (c :: cs) = .ok (c :: cs) := skip_space_stop c cs h1 h2
    have hm : c ≠ '-' := by
      intro hc
      rw [hc] at h5
      exact absurd h5 (by decide)
    have hst : is_symbol_start c = false := by
      simp only [is_symbol_char, isalnum, Bool.or_eq_false_iff] at h5
      simp only [is_symbol_start, Bool.or_eq_false_iff]
      exact ⟨h5.1.1, h5.2⟩
    simp [read, bind, Except.bind, hskip, read_token, h3, h4, hm, hst, h6, h7]

/-! ## C22, C23: rendering -/

/-- C23 (defect of the code): a String at top level is written raw, and a
String element of a list is written between double quotes while `in_list` is
set; but `format` sets `in_list` to `false` when it has written a list, a
nested one included, instead of restoring the value it found. So a String
element that follows a nested List element is written raw: the list
`((1) "a")` is rendered as `((1) a)`. -/
theorem render_string_after_nested_list :
    (∀ s : String, render (.string s) = .ok s.data) ∧
    (∀ s : String,
        format (.string s) true = .ok (quoted s.data, true) ∧
        render (.list [.string s]) = .ok ('(' :: (quoted s.data ++ [')']))) ∧
    (∀ (l : List Value) (in_list after : Bool) (text : List Char),
        format (.list l) in_list = .ok (text, after) → after = false) ∧
    (∀ (inner : List Value) (s : String) (text : List Char) (after : Bool),
        format (.list inner) true = .ok (text, after) →
        render (.list [.list inner, .string s]) =
          .ok ('(' :: (text ++ ' ' :: s.data ++ [')']))) ∧
    render (.list [.list [.integer 1], .string "a"]) =
      .ok ['(', '(', '1', ')', ' ', 'a', ')'] ∧
    render (.list [.string "a", .list [.integer 1]]) =
      .ok ['(', quote_char, 'a', quote_char, ' ', '(', '1', ')', ')'] := by
  refine ⟨fun s => rfl, fun s => ⟨rfl, rfl⟩, ?_, ?_, rfl, rfl⟩
  · intro l in_list after text h
    simp only [format, bind_ok_iff, Prod.exists, Except.ok.injEq, Prod.mk.injEq] at h
    obtain ⟨_, _, _, _, h2⟩ := h
    exact h2.symm
  · intro inner s text after h
    have hafter : after = false := by
      simp only [format, bind_ok_iff, Prod.exists, Except.ok.injEq, Prod.mk.injEq] at h
      obtain ⟨_, _, _, _, h2⟩ := h
      exact h2.symm
    subst hafter
    simp only [render, format, format_each, bind, Except.bind] at h ⊢
    cases h1 : format_each inner true with
    | error e =>
      rw [h1] at h
      cases h
    | ok p =>
      rw [h1] at h
      simp only [Except.ok.injEq, Prod.mk.injEq, and_true] at h
      simp [h, join_space]

/-! ## C24, C25, C27: scopes of samples and calls -/

/-- C24 as stated fails: `Circular_Generator::take` evaluates every sample in
a fresh scope that binds `n` to the sample index. With `f` defined as
`(fun () n)` and `n` bound to 7 by the caller, `(take 2 (seq (f)))` is `(0 1)`
and not `(7 7)`. -/
theorem circular_sample_sees_index :
    eval 7 main_context
        (.list [.symbol "do",
          .list [.symbol "def", .symbol "f", .list [.symbol "fun", .list [], .symbol "n"]],
          .list [.symbol "def", .symbol "n", .integer 7],
          .list [.symbol "take", .integer 2, .list [.symbol "seq", .list [.symbol "f"]]]]) =
      .ok (.list [.integer 0, .integer 1],
        ⟨(("n", .integer 7) :: ("f", .list [.list [], .symbol "n"]) ::
          main_context.scopes.headD []) :: main_context.scopes.tail⟩) ∧
    eval 7 main_context
        (.list [.symbol "do",
          .list [.symbol "def", .symbol "f", .list [.symbol "fun", .list [], .symbol "n"]],
          .list [.symbol "def", .symbol "n", .integer 7],
          .list [.symbol "take", .integer 2, .list [.symbol "seq", .list [.symbol "f"]]]]) ≠
      .ok (.list [.integer 7, .integer 7],
        ⟨(("n", .integer 7) :: ("f", .list [.list [], .symbol "n"]) ::
          main_context.scopes.headD []) :: main_context.scopes.tail⟩) := by
  refine ⟨rfl, ?_⟩
  intro h
  have h2 : (Except.ok (.list [.integer 0, .integer 1],
      ⟨(("n", .integer 7) :: ("f", .list [.list [], .symbol "n"]) ::
        main_context.scopes.headD []) :: main_context.scopes.tail⟩) : Res) =
      .ok (.list [.integer 7, .integer 7],
        ⟨(("n", .integer 7) :: ("f", .list [.list [], .symbol "n"]) ::
          main_context.scopes.headD []) :: main_context.scopes.tail⟩) := h
  simp at h2

/-- C24, amended: `take` on a circular generator with a non-empty `value_set`
evaluates the element `i mod m` of sample `i` in a fresh innermost scope that
binds `n` to `i`, on top of the scopes of the caller, and leaves the caller's
context as it was; so with `f` defined as `(fun () n)` and `n` bound to 7 by
the caller, `(take 2 (seq (f)))` is `(0 1)`. The circular child of a composed
generator is evaluated in the caller's context: `(take 2 (seq (f) n))` is
`(7 0)`. -/
theorem circular_take_binds_index :
    (∀ (fuel : Nat) (ctx : Context) (value_set : List Value), value_set ≠ [] →
      ∀ (c : Nat) (rs : List Value) (ctx' : Context),
        Generator.take (eval fuel) (.Circular value_set) c ctx = .ok (rs, ctx') ↔
          ctx' = ctx ∧ rs.length = c ∧
            ∀ i, i < c → ∃ e v c2, value_set.get? (i % value_set.length) = some e ∧
              rs.get? i = some v ∧
              eval fuel ⟨[("n", .integer (i : Int))] :: ctx.scopes⟩ e = .ok (v, c2)) ∧
    (∀ (fuel : Nat) (scopes : List Scope) (i : Int),
      eval (fuel + 1) ⟨[("n", .integer i)] :: scopes⟩ (.symbol "n") =
        .ok (.integer i, ⟨[("n", .integer i)] :: scopes⟩)) ∧
    eval 7 main_context
        (.list [.symbol "do",
          .list [.symbol "def", .symbol "f", .list [.symbol "fun", .list [], .symbol "n"]],
          .list [.symbol "def", .symbol "n", .integer 7],
          .list [.symbol "take", .integer 2, .list [.symbol "seq", .list [.symbol "f"]]]]) =
      .ok (.list [.integer 0, .integer 1],
        ⟨(("n", .integer 7) :: ("f", .list [.list [], .symbol "n"]) ::
          main_context.scopes.headD []) :: main_context.scopes.tail⟩) ∧
    eval 7 main_context
        (.list [.symbol "do",
          .list [.symbol "def", .symbol "f", .list [.symbol "fun", .list [], .symbol "n"]],
          .list [.symbol "def", .symbol "n", .integer 7],
          .list [.symbol "take", .integer 2,
            .list [.symbol "seq", .list [.symbol "f"], .symbol "n"]]]) =
      .ok (.list [.integer 7, .integer 0],
        ⟨(("n", .integer 7) :: ("f", .list [.list [], .symbol "n"]) ::
          main_context.scopes.headD []) :: main_context.scopes.tail⟩) := by
  refine ⟨?_, ?_, rfl, rfl⟩
  · intro fuel ctx value_set hne c rs ctx'
    rw [generator_take_circular]
    have h := circular_take_iff (eval_frame fuel) value_set hne c 0 ctx ctx' rs
    simp only [Nat.zero_add, sample_eq_ok] at h
    rw [h]
    constructor
    · rintro ⟨h1, h2, h3⟩
      refine ⟨h1, h2, fun i hi => ?_⟩
      obtain ⟨e, v, he, hv, c2, hc⟩ := h3 i hi
      exact ⟨e, v, c2, he, hv, hc⟩
    · rintro ⟨h1, h2, h3⟩
      refine ⟨h1, h2, fun i hi => ?_⟩
      obtain ⟨e, v, c2, he, hv, hc⟩ := h3 i hi
      exact ⟨e, v, he, hv, c2, hc⟩
  · intro fuel scopes i
    rfl

/-- C24 amended, at the generator of `(seq (f))` and two samples, in the
context of `main` extended by `f` as `(fun () n)` and `n` as 7. -/
theorem circular_take_binds_index_witness :
    Generator.take (eval 3) (.Circular [.list [.symbol "f"]]) 2
        ⟨(("n", .integer 7) :: ("f", .list [.list [], .symbol "n"]) ::
          main_context.scopes.headD []) :: main_context.scopes.tail⟩ =
      .ok ([.integer 0, .integer 1],
        ⟨(("n", .integer 7) :: ("f", .list [.list [], .symbol "n"]) ::
          main_context.scopes.headD []) :: main_context.scopes.tail⟩) :=
  (circular_take_binds_index.1 3 _ [.list [.symbol "f"]] (by simp) 2
    [.integer 0, .integer 1] _).mpr
    ⟨rfl, rfl, by
      intro i hi
      interval_cases i <;> exact ⟨_, _, _, rfl, rfl, rfl⟩⟩

/-- C25: scope-stack balance. When `eval` returns, the context has as many
scopes as before, every scope but the innermost one is unchanged, and the
innermost one still holds every binding it had (it can only have gained
bindings). A returning user-function application, a returning run of the loop
of `for` and a returning `take` of a dynamic or circular generator leave the
context they started from: every scope they push is popped again. -/
theorem scope_stack_balanced (fuel : Nat) (ctx ctx' : Context) (e v : Value)
    (h : eval fuel ctx e = .ok (v, ctx')) :
    ctx'.scopes.length = ctx.scopes.length ∧
    ctx'.scopes.tail = ctx.scopes.tail ∧
    (∀ name w, Scope.find name (ctx.scopes.headD []) = some w →
      Scope.find name (ctx'.scopes.headD []) = some w) ∧
    (∀ (c c' : Context) (callable actuals : List Value) (r : Value),
      apply_list (eval fuel) c callable actuals = .ok (r, c') → c' = c) ∧
    (∀ (c c' : Context) (args coll : List Value),
      for_loop (eval fuel) args c coll = .ok c' → c' = c) ∧
    (∀ (c c' : Context) (expr : Value) (start : Int) (n : Nat) (vs : List Value),
      Generator.take (eval fuel) (.Dynamic expr start) n c = .ok (vs, c') → c' = c) ∧
    (∀ (c c' : Context) (value_set : List Value) (n : Nat) (vs : List Value),
      Generator.take (eval fuel) (.Circular value_set) n c = .ok (vs, c') → c' = c) := by
  obtain ⟨h1, h2, h3⟩ := eval_frame fuel ctx e v ctx' h
  refine ⟨h1, h2, h3, ?_, ?_, ?_, ?_⟩
  · intro c c' callable actuals r hr
    exact apply_list_same (eval_frame fuel) hr
  · intro c c' args coll hr
    exact for_loop_same (eval_frame fuel) args coll c c' hr
  · intro c c' expr start n vs hr
    rw [generator_take_dynamic] at hr
    exact dynamic_take_same (eval_frame fuel) expr start n 0 c c' vs hr
  · intro c c' value_set n vs hr
    rw [generator_take_circular] at hr
    exact circular_take_same (eval_frame fuel) value_set n 0 c c' vs hr

/-- C25, at `(do (def x 5) ((fun (a) (do (def y a) (for i (list 1 2) (def z i)) (* a y))) x))`
in the context of `main`: only `x` is left, in the innermost scope. -/
theorem scope_stack_balanced_witness :
    eval 7 main_context
        (.list [.symbol "do", .list [.symbol "def", .symbol "x", .integer 5],
          .list [.list [.symbol "fun", .list [.symbol "a"],
            .list [.symbol "do", .list [.symbol "def", .symbol "y", .symbol "a"],
              .list [.symbol "for", .symbol "i", .list [.symbol "list", .integer 1, .integer 2],
                .list [.symbol "def", .symbol "z", .symbol "i"]],
              .list [.symbol "*", .symbol "a", .symbol "y"]]], .symbol "x"]]) =
      .ok (.integer 25,
        ⟨(("x", .integer 5) :: main_context.scopes.headD []) :: main_context.scopes.tail⟩) ∧
    (Context.mk ((("x", Value.integer 5) :: main_context.scopes.headD []) ::
        main_context.scopes.tail)).scopes.length = main_context.scopes.length ∧
    (Context.mk ((("x", Value.integer 5) :: main_context.scopes.headD []) ::
        main_context.scopes.tail)).scopes.tail = main_context.scopes.tail :=
  have h : eval 7 main_context
        (.list [.symbol "do", .list [.symbol "def", .symbol "x", .integer 5],
          .list [.list [.symbol "fun", .list [.symbol "a"],
            .list [.symbol "do", .list [.symbol "def", .symbol "y", .symbol "a"],
              .list [.symbol "for", .symbol "i", .list [.symbol "list", .integer 1, .integer 2],
                .list [.symbol "def", .symbol "z", .symbol "i"]],
              .list [.symbol "*", .symbol "a", .symbol "y"]]], .symbol "x"]]) =
      .ok (.integer 25,
        ⟨(("x", .integer 5) :: main_context.scopes.headD []) :: main_context.scopes.tail⟩) :=
    rfl
  ⟨h, (scope_stack_balanced 7 main_context _ _ _ h).1,
    (scope_stack_balanced 7 main_context _ _ _ h).2.1⟩

/-- C27: in a user-function application the scope of the call is pushed first;
then the actuals are evaluated from left to right, each in the context left by
the binding of the formals before it, and each result is bound to its formal
before the next actual is evaluated; the body runs in the context so built. A
later actual that names an earlier formal therefore reads the value bound in
this call: with `a` bound to `j` in the caller, `((fun (a b) b) i a)` is `i`. -/
theorem actuals_see_earlier_formals :
    (∀ (fuel : Nat) (ctx ctx1 ctx2 : Context) (head body : Value) (names : List String)
        (actuals : List Value),
        eval fuel ctx head = .ok (.list [.list (names.map Value.symbol), body], ctx1) →
        names.length = actuals.length →
        bind_pairs (eval fuel) ctx1.push (names.zip actuals) = .ok ctx2 →
        eval (fuel + 1) ctx (.list (head :: actuals)) =
          (eval fuel ctx2 body).bind fun rc => (rc.2.pop).bind fun c => .ok (rc.1, c)) ∧
    (∀ (ev : Ev) (ctx : Context) (name : String) (arg : Value) (rest : List (String × Value)),
        bind_pairs ev ctx ((name, arg) :: rest) =
          (ev ctx arg).bind fun r => (r.2.assign name r.1).bind fun c => bind_pairs ev c rest) ∧
    (∀ (fuel : Nat) (ctx ctx1 : Context) (head body : Value) (a b : String) (i : Int),
        eval (fuel + 1) ctx head = .ok (.list [.list [.symbol a, .symbol b], body], ctx1) →
        a ≠ b →
        eval (fuel + 2) ctx (.list [head, .integer i, .symbol a]) =
          (eval (fuel + 1) ⟨[(b, .integer i), (a, .integer i)] :: ctx1.scopes⟩ body).bind
            fun rc => (rc.2.pop).bind fun c => .ok (rc.1, c)) ∧
    (∀ (i j : Int) (more : Nat),
        eval (4 + more) main_context
          (.list [.symbol "do", .list [.symbol "def", .symbol "a", .integer j],
            .list [.list [.symbol "fun", .list [.symbol "a", .symbol "b"], .symbol "b"],
              .integer i, .symbol "a"]]) =
        .ok (.integer i,
          ⟨(("a", .integer j) :: main_context.scopes.headD []) ::
            main_context.scopes.tail⟩)) := by
  refine ⟨?_, ?_, ?_, ?_⟩
  · intro fuel ctx ctx1 ctx2 head body names actuals h hlen hb
    rw [eval_call_list h]
    simp only [apply_list, at_, List.get?, bind, Except.bind,
      bind_formals_of_pairs (eval fuel) names actuals ctx1.push ctx2 hb, hlen,
      lt_self_iff_false, if_false]
  · intro ev ctx name arg rest
    simp only [bind_pairs, bind, Except.bind]
  · intro fuel ctx ctx1 head body a b i h hab
    rw [eval_call_list h]
    have hba : ¬ (b = a) := fun hh => hab hh.symm
    simp [apply_list, at_, bind_formals, bind, Except.bind, eval, Context.push,
      Context.assign, Scope.emplace, Scope.find, Context.lookup, lookup_scopes, hab, hba]
  · intro i j more
    have h : eval 4 main_context
          (.list [.symbol "do", .list [.symbol "def", .symbol "a", .integer j],
            .list [.list [.symbol "fun", .list [.symbol "a", .symbol "b"], .symbol "b"],
              .integer i, .symbol "a"]]) =
        .ok (.integer i,
          ⟨(("a", .integer j) :: main_context.scopes.headD []) ::
            main_context.scopes.tail⟩) := rfl
    exact eval_mono h more

/-- C27, at `((fun (a b) b) 1 a)` with `a` bound to 10 in the caller. -/
theorem actuals_see_earlier_formals_witness :
    eval 4 main_context
        (.list [.symbol "do", .list [.symbol "def", .symbol "a", .integer 10],
          .list [.list [.symbol "fun", .list [.symbol "a", .symbol "b"], .symbol "b"],
            .integer 1, .symbol "a"]]) =
      .ok (.integer 1,
        ⟨(("a", .integer 10) :: main_context.scopes.headD []) :: main_context.scopes.tail⟩) :=
  actuals_see_earlier_formals.2.2.2 1 10 0

end Patty
